import Mathlib

/-!
A shallow embedding of the buddy allocator of `src/lab.c`.

The C program manages one `mmap`-ed region of `2^kval_m` bytes with the buddy
algorithm: `btok`, `buddy_calc`, `buddy_malloc`, `buddy_free`, `buddy_init`.

Modelling decisions.

* `size_t` and `uintptr_t` are naturals reduced modulo `2^64` wherever the C
  code can wrap (`+`, `-`, `<<`).
* `struct avail` headers are records.  The headers embedded in the pool
  structure (`pool->avail[i]`, the sentinels) and the headers living in the
  managed memory are two separate stores, and a `struct avail *` is either the
  address of a sentinel or a raw address: the pool structure is the caller's
  storage, disjoint from the mapped region.
* The header file `lab.h` is not among the sources, so the constants it
  declares (`MIN_K`, `MAX_K`, `DEFAULT_K`, `SMALLEST_K`, the three tags,
  `sizeof(struct avail)`, `ENOMEM`) are parameters, collected in `Consts`.
  The widths of the fields `tag` and `kval` and the length of the array
  `pool->avail` are declared there too: the fields are naturals here (the code
  stores tags and exponents up to `MAX_K` in them) and the array is indexed by
  all naturals.
* `btok` is the only loop without a bound visible in the code, it is modelled
  with fuel and returns `none` when the fuel runs out.  The other loops are
  counted loops and are modelled by structural recursion on their trip count.
* A caller's writes into the memory it was given are not modelled: the states
  are those the five functions themselves produce.
-/

namespace Buddy

/-- The modulus of `size_t` / `uintptr_t` arithmetic. -/
def WORD : Nat := 2 ^ 64

/-- A `struct avail *`: the address of the sentinel `pool->avail[i]`, or a raw
address (in particular `blk 0` is `NULL`). -/
inductive Ptr where
  | sent (i : Nat)
  | blk (a : Nat)
deriving DecidableEq, Repr

/-- The `struct avail` block header. -/
structure avail where
  tag : Nat
  kval : Nat
  next : Ptr
  prev : Ptr
deriving DecidableEq, Repr

/-- The constants declared in `lab.h`. -/
structure Consts where
  MIN_K : Nat
  MAX_K : Nat
  DEFAULT_K : Nat
  SMALLEST_K : Nat
  BLOCK_AVAIL : Nat
  BLOCK_RESERVED : Nat
  BLOCK_UNUSED : Nat
  header_size : Nat
  ENOMEM : Nat
deriving DecidableEq, Repr

/-- The `struct buddy_pool` (fields `kval_m`, `numbytes`, `base`, `avail`)
together with the rest of the machine state the functions touch: the headers
stored in memory (`mem`), `errno`, and the addresses of the sentinels
(`avail_addr i` is `(uintptr_t)&pool->avail[i]`). -/
structure State where
  kval_m : Nat
  numbytes : Nat
  base : Nat
  mem : Nat → avail
  avail : Nat → avail
  errno : Nat
  avail_addr : Nat → Nat

/-- The null pointer. -/
def NULL : Ptr := Ptr.blk 0

/-- Function update. -/
def upd {β : Type} (f : Nat → β) (a : Nat) (v : β) : Nat → β :=
  fun x => if x = a then v else f x

/-- Read the header a pointer points to. -/
def rd (s : State) : Ptr → avail
  | Ptr.sent i => s.avail i
  | Ptr.blk a => s.mem a

/-- Overwrite the header a pointer points to. -/
def wr (s : State) (p : Ptr) (h : avail) : State :=
  match p with
  | Ptr.sent i => { s with avail := upd s.avail i h }
  | Ptr.blk a => { s with mem := upd s.mem a h }

/-- The assignment `p->tag = t`. -/
def set_tag (s : State) (p : Ptr) (t : Nat) : State :=
  wr s p { rd s p with tag := t }

/-- The assignment `p->kval = k`. -/
def set_kval (s : State) (p : Ptr) (k : Nat) : State :=
  wr s p { rd s p with kval := k }

/-- The assignment `p->next = q`. -/
def set_next (s : State) (p q : Ptr) : State :=
  wr s p { rd s p with next := q }

/-- The assignment `p->prev = q`. -/
def set_prev (s : State) (p q : Ptr) : State :=
  wr s p { rd s p with prev := q }

/-- The cast `(uintptr_t)p`. -/
def addr (s : State) : Ptr → Nat
  | Ptr.sent i => s.avail_addr i
  | Ptr.blk a => a

/-- The loop of `btok`: `while (size < bytes) { size <<= 1; k++; }`. -/
def btok_loop (bytes : Nat) : Nat → Nat → Nat → Option Nat
  | 0, _, _ => none
  | fuel + 1, size, k =>
    if size < bytes then btok_loop bytes fuel ((size * 2) % WORD) ((k + 1) % WORD)
    else some k

/-- The function `btok`, with fuel for its loop. -/
def btok (fuel bytes : Nat) : Option Nat :=
  btok_loop bytes fuel 1 0

/-- The function `buddy_calc`.  The shift `UINT64_C(1) << kval` is taken modulo
`2^64`. -/
def buddy_calc (s : State) (buddy : Ptr) : Ptr :=
  let kval := (rd s buddy).kval
  let block_addr := addr s buddy
  let base_addr := s.base
  let offset := (block_addr + WORD - base_addr % WORD) % WORD
  let offset := offset ^^^ (2 ^ kval % WORD)
  Ptr.blk ((base_addr + offset) % WORD)

/-- The search loop R1 of `buddy_malloc`:
`for (j = kval; j <= pool->kval_m; j++) if (avail[j].next != &avail[j]) {...; break;}`.
The first argument is the number of iterations left, `kval_m + 1 - j`; the
result is the final `j` and `block`. -/
def find_block (s : State) : Nat → Nat → Nat × Ptr
  | 0, j => (j, NULL)
  | n + 1, j =>
    if (s.avail j).next ≠ Ptr.sent j then (j, (s.avail j).next)
    else find_block s n (j + 1)

/-- The statements R2 of `buddy_malloc` (also used by `buddy_free`):
`b->next->prev = b->prev; b->prev->next = b->next;`. -/
def unlink (s : State) (b : Ptr) : State :=
  let s1 := set_prev s (rd s b).next (rd s b).prev
  set_next s1 (rd s1 b).prev (rd s1 b).next

/-- The four statements that put `b` at the head of `avail[j]`:
`b->next = avail[j].next; b->prev = &avail[j]; avail[j].next->prev = b; avail[j].next = b;`. -/
def push_front (s : State) (j : Nat) (b : Ptr) : State :=
  let s1 := set_next s b (s.avail j).next
  let s2 := set_prev s1 b (Ptr.sent j)
  let s3 := set_prev s2 (s2.avail j).next b
  set_next s3 (Ptr.sent j) b

/-- The split loop R3/R4 of `buddy_malloc`, by recursion on `j`:
`while (j > kval) { j--; buddy = block + 2^j; ... }`. -/
def split_loop (c : Consts) (block : Ptr) (kval : Nat) : Nat → State → State
  | 0, s => s
  | j + 1, s =>
    if j + 1 > kval then
      let buddy := Ptr.blk ((addr s block + 2 ^ j % WORD) % WORD)
      let s1 := set_kval s buddy j
      let s2 := set_tag s1 buddy c.BLOCK_AVAIL
      split_loop c block kval j (push_front s2 j buddy)
    else s

/-- The function `buddy_malloc`; `pool_null` says whether the argument `pool`
is `NULL`.  The result is the returned pointer (`0` for `NULL`) and the new
state, or `none` when `btok` ran out of fuel. -/
def buddy_malloc (c : Consts) (fuel : Nat) (pool_null : Bool) (s : State) (size : Nat) :
    Option (Nat × State) :=
  if pool_null = true ∨ size = 0 then some (0, s)
  else
    let header_size := c.header_size
    let total_size := (size + header_size) % WORD
    match btok fuel total_size with
    | none => none
    | some k0 =>
      let kval := if k0 < c.SMALLEST_K then c.SMALLEST_K else k0
      let jb := find_block s (s.kval_m + 1 - kval) kval
      let j := jb.1
      let block := jb.2
      if j > s.kval_m ∨ block = NULL then some (0, { s with errno := c.ENOMEM })
      else
        let s1 := unlink s block
        let s2 := split_loop c block kval j s1
        let s3 := set_tag s2 block c.BLOCK_RESERVED
        let s4 := set_kval s3 block kval
        some ((addr s block + header_size) % WORD, s4)

/-- The coalescing loop of `buddy_free`, `while (kval < pool->kval_m) {...}`.
The first argument is the number of iterations left, `kval_m - kval`; the
result is the final state, `block` and `kval`. -/
def coalesce (c : Consts) : Nat → State → Ptr → Nat → State × Ptr × Nat
  | 0, s, block, kval => (s, block, kval)
  | n + 1, s, block, kval =>
    let buddy := buddy_calc s block
    if (rd s buddy).tag ≠ c.BLOCK_AVAIL ∨ (rd s buddy).kval ≠ kval then (s, block, kval)
    else
      let s1 := unlink s buddy
      let block1 := if addr s buddy < addr s block then buddy else block
      let kval1 := kval + 1
      let s2 := set_kval s1 block1 kval1
      coalesce c n s2 block1 kval1

/-- The function `buddy_free`; `pool_null` says whether the argument `pool` is
`NULL`, `ptr` is the user pointer as an integer. -/
def buddy_free (c : Consts) (pool_null : Bool) (s : State) (ptr : Nat) : State :=
  if pool_null = true ∨ ptr = 0 then s
  else
    let block := Ptr.blk ((ptr + WORD - c.header_size % WORD) % WORD)
    if (rd s block).tag ≠ c.BLOCK_RESERVED then s
    else
      let kval := (rd s block).kval
      let s1 := set_tag s block c.BLOCK_AVAIL
      let r := coalesce c (s1.kval_m - kval) s1 block kval
      push_front r.1 r.2.2 r.2.1

/-- The all-zero header left by `memset`. -/
def zero_avail : avail := ⟨0, 0, NULL, NULL⟩

/-- The sentinel loop of `buddy_init`:
`for (i = 0; i <= kval; i++) { avail[i].next = avail[i].prev = &avail[i]; ... }`.
The first argument is the number of iterations left, `kval + 1 - i`. -/
def init_loop (c : Consts) : Nat → Nat → State → State
  | 0, _, s => s
  | n + 1, i, s =>
    let s1 := set_prev s (Ptr.sent i) (Ptr.sent i)
    let s2 := set_next s1 (Ptr.sent i) (Ptr.sent i)
    let s3 := set_kval s2 (Ptr.sent i) i
    let s4 := set_tag s3 (Ptr.sent i) c.BLOCK_UNUSED
    init_loop c n (i + 1) s4

/-- The value `kval` computed at the top of `buddy_init`. -/
def init_kval (c : Consts) (fuel size : Nat) : Option Nat :=
  match (if size = 0 then some c.DEFAULT_K else btok fuel size) with
  | none => none
  | some k0 =>
    let k1 := if k0 < c.MIN_K then c.MIN_K else k0
    some (if k1 > c.MAX_K then c.MAX_K - 1 else k1)

/-- The function `buddy_init`.  `s` is the machine state before the call and
`base` the address returned by `mmap` (a failing `mmap` kills the process and
is not modelled); the contents of the mapped memory are whatever `s.mem`
holds.  The result is `none` when `btok` ran out of fuel. -/
def buddy_init (c : Consts) (fuel : Nat) (s : State) (size base : Nat) : Option State :=
  match init_kval c fuel size with
  | none => none
  | some kval =>
    let s0 : State := { s with kval_m := 0, numbytes := 0, base := 0, avail := fun _ => zero_avail }
    let s1 : State := { s0 with kval_m := kval }
    let s2 : State := { s1 with numbytes := 2 ^ s1.kval_m % WORD }
    let s3 : State := { s2 with base := base }
    let s4 := init_loop c (kval + 1) 0 s3
    let s5 := set_prev s4 (Ptr.sent kval) (Ptr.blk s4.base)
    let s6 := set_next s5 (Ptr.sent kval) (Ptr.blk s5.base)
    let m := (s6.avail kval).next
    let s7 := set_tag s6 m c.BLOCK_AVAIL
    let s8 := set_kval s7 m kval
    let s9 := set_prev s8 m (Ptr.sent kval)
    some (set_next s9 m (Ptr.sent kval))

/-- The hypotheses on the constants of `lab.h` under which the allocator is
analysed: the two tags a block can carry differ, a header is smaller than the
smallest block, and `1 << MAX_K` does not overflow. -/
def Consts.ok (c : Consts) : Prop :=
  c.BLOCK_AVAIL ≠ c.BLOCK_RESERVED ∧ c.header_size < 2 ^ c.SMALLEST_K ∧ c.MAX_K < 64

instance (c : Consts) : Decidable c.ok := by unfold Consts.ok; infer_instance

/-- Following `next` from `p` visits exactly the blocks at the addresses `l`,
in this order, and then reaches `q`; following `prev` from `q` goes back the
same way. -/
def Chain (s : State) : Ptr → List Nat → Ptr → Prop
  | p, [], q => (rd s p).next = q ∧ (rd s q).prev = p
  | p, a :: l, q =>
    (rd s p).next = Ptr.blk a ∧ (rd s (Ptr.blk a)).prev = p ∧ Chain s (Ptr.blk a) l q

/-- The first pointer of the chain `l` that ends at `q`. -/
def chain_head (l : List Nat) (q : Ptr) : Ptr :=
  match l with
  | [] => q
  | a :: _ => Ptr.blk a

/-- The last pointer of the chain that starts at `p` and goes through `l`. -/
def chain_last (p : Ptr) : List Nat → Ptr
  | [] => p
  | a :: l => chain_last (Ptr.blk a) l

/-- The circular list headed by the sentinel `avail[k]` holds exactly the
blocks at the addresses `l`, in this order from `avail[k].next`. -/
def free_list (s : State) (k : Nat) (l : List Nat) : Prop :=
  Chain s (Ptr.sent k) l (Ptr.sent k)

/-- Deciding `Chain` on a given list. -/
def Chain.dec (s : State) (q : Ptr) : (l : List Nat) → (p : Ptr) → Decidable (Chain s p l q)
  | [], p => inferInstanceAs (Decidable ((rd s p).next = q ∧ (rd s q).prev = p))
  | a :: l, p =>
    have := Chain.dec s q l (Ptr.blk a)
    inferInstanceAs (Decidable ((rd s p).next = Ptr.blk a ∧ (rd s (Ptr.blk a)).prev = p ∧
      Chain s (Ptr.blk a) l q))

instance (s : State) (p : Ptr) (l : List Nat) (q : Ptr) : Decidable (Chain s p l q) :=
  Chain.dec s q l p

instance (s : State) (k : Nat) (l : List Nat) : Decidable (free_list s k l) := by
  unfold free_list; infer_instance

/-- The address of the buddy of the block at `a` of size `2^k`, in a pool
starting at `base`: `base + ((a - base) XOR 2^k)`. -/
def buddy_addr (base a k : Nat) : Nat :=
  base + ((a - base) ^^^ 2 ^ k)

/-- The set `S` of blocks (address, exponent) tiles the region
`[base, base + 2^m)`: every block is aligned relative to `base` and lies in the
region, two different blocks do not overlap, and every byte of the region
belongs to a block. -/
structure Part (base m : Nat) (S : Nat → Nat → Prop) : Prop where
  geom : ∀ a k, S a k → k ≤ m ∧ base ≤ a ∧ 2 ^ k ∣ (a - base) ∧ a + 2 ^ k ≤ base + 2 ^ m
  disj : ∀ a k a' k', S a k → S a' k' → (a ≠ a' ∨ k ≠ k') →
    a + 2 ^ k ≤ a' ∨ a' + 2 ^ k' ≤ a
  cover : ∀ x, base ≤ x → x < base + 2 ^ m → ∃ a k, S a k ∧ a ≤ x ∧ x < a + 2 ^ k

/-- The live blocks described by the free lists `F`, the reserved blocks `R`
and the block `fl` an operation is holding in its hands. -/
def Live (F : Nat → List Nat) (R : List (Nat × Nat)) (fl : Option (Nat × Nat))
    (a k : Nat) : Prop :=
  a ∈ F k ∨ (a, k) ∈ R ∨ fl = some (a, k)

/-- The invariant of the allocator.  `F k` lists the addresses of the blocks
on `avail[k]`, `R` the reserved blocks with their exponents; `fl` is the block
that `buddy_malloc` or `buddy_free` has taken off the lists and not yet put
back (`none` between calls). -/
structure PInv (c : Consts) (s : State) (F : Nat → List Nat) (R : List (Nat × Nat))
    (fl : Option (Nat × Nat)) : Prop where
  bnd : s.kval_m < 64 ∧ 0 < s.base ∧ s.base + 2 ^ s.kval_m ≤ WORD
  sen : ∀ i, i ≤ s.kval_m →
    (rd s (Ptr.sent i)).tag = c.BLOCK_UNUSED ∧ (rd s (Ptr.sent i)).kval = i
  ring : ∀ i, i ≤ s.kval_m → free_list s i (F i)
  ndF : ∀ i, (F i).Nodup
  ndR : R.Nodup
  hdF : ∀ i a, a ∈ F i →
    (rd s (Ptr.blk a)).tag = c.BLOCK_AVAIL ∧ (rd s (Ptr.blk a)).kval = i
  hdR : ∀ a k, (a, k) ∈ R →
    (rd s (Ptr.blk a)).tag = c.BLOCK_RESERVED ∧ (rd s (Ptr.blk a)).kval = k ∧
      c.SMALLEST_K ≤ k
  part : Part s.base s.kval_m (Live F R fl)
  i5 : ∀ k a, k < s.kval_m → a ∈ F k → buddy_addr s.base a k ∉ F k
  flx : ∀ a k, fl = some (a, k) → a ∉ F k ∧ (a, k) ∉ R

/-- The pool is full (the condition `check_buddy_pool_full` of the tests
asserts, completed with the fields it does not look at): every list below
`kval_m` is an empty, self-linked sentinel, and `avail[kval_m]` holds exactly
one block, at `base`, free and of exponent `kval_m`. -/
def is_full (c : Consts) (s : State) : Prop :=
  (∀ i, i < s.kval_m →
    (s.avail i).next = Ptr.sent i ∧ (s.avail i).prev = Ptr.sent i ∧
    (s.avail i).kval = i ∧ (s.avail i).tag = c.BLOCK_UNUSED) ∧
  (s.avail s.kval_m).next = Ptr.blk s.base ∧
  (s.avail s.kval_m).prev = Ptr.blk s.base ∧
  (s.avail s.kval_m).kval = s.kval_m ∧
  (s.avail s.kval_m).tag = c.BLOCK_UNUSED ∧
  (s.mem s.base).tag = c.BLOCK_AVAIL ∧
  (s.mem s.base).kval = s.kval_m ∧
  (s.mem s.base).next = Ptr.sent s.kval_m ∧
  (s.mem s.base).prev = Ptr.sent s.kval_m

instance (c : Consts) (s : State) : Decidable (is_full c s) := by
  unfold is_full; infer_instance

/-- The states a pool goes through, starting from `s0`, when the caller calls
`buddy_malloc` (with any size) and `buddy_free` (on `NULL` or on a pointer it
once got from `buddy_malloc`, possibly freed already).  The two lists are
ghost records: the live pointers (returned non-`NULL` and not freed since) and
all the pointers ever returned non-`NULL`. -/
inductive Reach (c : Consts) (s0 : State) : State → List Nat → List Nat → Prop
  | init : Reach c s0 s0 [] []
  | malloc {s s' : State} {L E : List Nat} {fuel size p : Nat} :
      Reach c s0 s L E → size < WORD →
      buddy_malloc c fuel false s size = some (p, s') →
      Reach c s0 s' (if p = 0 then L else p :: L) (if p = 0 then E else p :: E)
  | free {s : State} {L E : List Nat} {p : Nat} :
      Reach c s0 s L E → p = 0 ∨ p ∈ E →
      Reach c s0 (buddy_free c false s p) (L.erase p) E

/-! ### A concrete instance

`lab.h` is not part of the sources.  The values below are one admissible
choice of its constants (the tests need `SMALLEST_K ≤ 6`, `MIN_K ≤ DEFAULT_K`
and a pool of `2^24` bytes below `2^MAX_K`); they are used only to run the
model on concrete inputs. -/

/-- One choice of the constants of `lab.h`. -/
def lab_consts : Consts :=
  { MIN_K := 20, MAX_K := 48, DEFAULT_K := 30, SMALLEST_K := 6,
    BLOCK_AVAIL := 1, BLOCK_RESERVED := 0, BLOCK_UNUSED := 3,
    header_size := 24, ENOMEM := 12 }

/-- A machine state before `buddy_init`: zeroed memory, `errno = 0`. -/
def blank : State :=
  { kval_m := 0, numbytes := 0, base := 0, mem := fun _ => zero_avail,
    avail := fun _ => zero_avail, errno := 0, avail_addr := fun i => 4096 + 24 * i }

/-- An address for `mmap` to return. -/
def sample_base : Nat := 268435456

/-- The pool `buddy_init(&pool, 1 << 20)` sets up in `blank`, at `sample_base`. -/
def sample_init : Option State :=
  buddy_init lab_consts 65 blank (2 ^ 20) sample_base

/-- The pool of `sample_init`. -/
def sample_pool : State := sample_init.getD blank

/-- The result of `buddy_malloc(&pool, size)` on `sample_pool`. -/
def sample_malloc (size : Nat) : Nat × State :=
  (buddy_malloc lab_consts 65 false sample_pool size).getD (0, blank)

/-- The result of `buddy_malloc(&pool, size2)` right after
`buddy_malloc(&pool, size1)` on `sample_pool`. -/
def sample_malloc2 (size1 size2 : Nat) : Nat × State :=
  (buddy_malloc lab_consts 65 false (sample_malloc size1).2 size2).getD (0, blank)

/-- The address `a` with the low `t` bits of its offset from `base` cleared:
the start of the aligned region of `2^t` bytes that contains `a`. -/
def align_down (base a t : Nat) : Nat :=
  base + (a - base) / 2 ^ t * 2 ^ t

/-- The sum of `g t * 2^t` over the levels `t = 0 .. n`. -/
def weighted (g : Nat → Nat) : Nat → Nat
  | 0 => g 0 * 2 ^ 0
  | n + 1 => weighted g n + g (n + 1) * 2 ^ (n + 1)

/-- The number of bytes on the free lists `F 0 .. F n`. -/
def free_bytes (F : Nat → List Nat) (n : Nat) : Nat :=
  weighted (fun t => (F t).length) n

/-- The number of bytes in the reserved blocks `R`. -/
def reserved_bytes (R : List (Nat × Nat)) : Nat :=
  (R.map fun b => 2 ^ b.2).sum

/-- The free lists after `buddy_malloc` took the block at `a`, the head of
`avail[j]` with tail `l`, for a request of level `K`: the upper halves
`a + 2^t` are at the heads of the lists `K ≤ t < j`. -/
def lists_after_malloc (F : Nat → List Nat) (a K j : Nat) (l : List Nat) : Nat → List Nat :=
  fun t => if t = j then l else if K ≤ t ∧ t < j then (a + 2 ^ t) :: F t else F t

/-- The free lists after `buddy_free` released the block at `a` of level `k`
and merged it up to level `k2`: the buddies met on the way are gone from the
lists `k ≤ t < k2` and the merged block is at the head of `avail[k2]`. -/
def lists_after_free (F : Nat → List Nat) (base a k k2 : Nat) : Nat → List Nat :=
  fun t =>
    if t = k2 then align_down base a k2 :: F k2
    else if k ≤ t ∧ t < k2 then (F t).erase (buddy_addr base (align_down base a t) t)
    else F t

/-! ## Lemmas and theorems -/

theorem WORD_eq : WORD = 18446744073709551616 := by
  unfold WORD; norm_num

/-- From size `0` the loop of `btok` never exits. -/
theorem btok_loop_zero (bytes : Nat) (hb : 0 < bytes) :
    ∀ fuel k, btok_loop bytes fuel 0 k = none := by
  intro fuel
  induction fuel with
  | zero => intro k; rfl
  | succ n ih =>
    intro k
    simp only [btok_loop, hb, if_true]
    simpa using ih _

/-- Partial correctness of the loop of `btok`, started at `size = 2^k`. -/
theorem btok_loop_sound (bytes r : Nat) :
    ∀ fuel k, k ≤ 63 → (k = 0 ∨ 2 ^ (k - 1) < bytes) →
      btok_loop bytes fuel (2 ^ k) k = some r →
      r ≤ 63 ∧ bytes ≤ 2 ^ r ∧ (r = 0 ∨ 2 ^ (r - 1) < bytes) := by
  intro fuel
  induction fuel with
  | zero => intro k _ _ h; simp [btok_loop] at h
  | succ n ih =>
    intro k hk hpre h
    rw [btok_loop] at h
    split at h
    · rename_i hlt
      rcases Nat.lt_or_ge k 63 with hk' | hk'
      · have e1 : (2 ^ k * 2) % WORD = 2 ^ (k + 1) := by
          rw [← pow_succ]
          apply Nat.mod_eq_of_lt
          unfold WORD
          exact Nat.pow_lt_pow_right (by norm_num) (by omega)
        have e2 : (k + 1) % WORD = k + 1 := by
          apply Nat.mod_eq_of_lt; rw [WORD_eq]; omega
        rw [e1, e2] at h
        exact ih (k + 1) (by omega) (Or.inr (by simpa using hlt)) h
      · have hk63 : k = 63 := by omega
        subst hk63
        have e1 : (2 ^ 63 * 2) % WORD = 0 := by rw [WORD_eq]; norm_num
        rw [e1, btok_loop_zero bytes (by omega)] at h
        exact absurd h (by simp)
    · rename_i hge
      simp only [Option.some.injEq] at h
      subst h
      exact ⟨hk, by omega, hpre⟩

/-- Termination of the loop of `btok` for `bytes ≤ 2^63`. -/
theorem btok_loop_total (bytes : Nat) (hb : bytes ≤ 2 ^ 63) :
    ∀ fuel k, k ≤ 63 → 64 ≤ fuel + k → ∃ r, btok_loop bytes fuel (2 ^ k) k = some r := by
  intro fuel
  induction fuel with
  | zero => intro k hk hf; omega
  | succ n ih =>
    intro k hk hf
    rw [btok_loop]
    split
    · rename_i hlt
      have hk' : k < 63 := by
        by_contra hc
        have : k = 63 := by omega
        subst this; omega
      have e1 : (2 ^ k * 2) % WORD = 2 ^ (k + 1) := by
        rw [← pow_succ]
        apply Nat.mod_eq_of_lt
        unfold WORD
        exact Nat.pow_lt_pow_right (by norm_num) (by omega)
      have e2 : (k + 1) % WORD = k + 1 := by
        apply Nat.mod_eq_of_lt; rw [WORD_eq]; omega
      rw [e1, e2]
      exact ih (k + 1) (by omega) (by omega)
    · exact ⟨k, rfl⟩

/-- What `btok` returns, whenever it returns. -/
theorem btok_sound {fuel bytes r : Nat} (h : btok fuel bytes = some r) :
    r ≤ 63 ∧ bytes ≤ 2 ^ r ∧ (r = 0 ∨ 2 ^ (r - 1) < bytes) :=
  btok_loop_sound bytes r fuel 0 (by omega) (Or.inl rfl) (by simpa [btok] using h)

/-- With 64 units of fuel `btok` returns on every `bytes ≤ 2^63`. -/
theorem btok_total {fuel bytes : Nat} (hb : bytes ≤ 2 ^ 63) (hf : 64 ≤ fuel) :
    ∃ r, btok fuel bytes = some r := by
  have := btok_loop_total bytes hb fuel 0 (by omega) (by omega)
  simpa [btok] using this

/-- Above `2^63` the loop of `btok` never exits, whatever the fuel. -/
theorem btok_loop_diverges (bytes : Nat) (hb : 2 ^ 63 < bytes) :
    ∀ fuel k j, j ≤ 63 → btok_loop bytes fuel (2 ^ j) k = none := by
  intro fuel
  induction fuel with
  | zero => intro k j _; rfl
  | succ n ih =>
    intro k j hj
    have hlt : 2 ^ j < bytes := lt_of_le_of_lt (Nat.pow_le_pow_right (by norm_num) hj) hb
    rw [btok_loop, if_pos hlt]
    rcases Nat.lt_or_ge j 63 with hj' | hj'
    · have e1 : (2 ^ j * 2) % WORD = 2 ^ (j + 1) := by
        rw [← pow_succ]
        apply Nat.mod_eq_of_lt
        unfold WORD
        exact Nat.pow_lt_pow_right (by norm_num) (by omega)
      rw [e1]
      exact ih _ (j + 1) (by omega)
    · have hj63 : j = 63 := by omega
      subst hj63
      have e1 : (2 ^ 63 * 2) % WORD = 0 := by rw [WORD_eq]; norm_num
      rw [e1]
      exact btok_loop_zero bytes (by omega) _ _

theorem btok_diverges {bytes : Nat} (hb : 2 ^ 63 < bytes) (fuel : Nat) :
    btok fuel bytes = none := by
  have := btok_loop_diverges bytes hb fuel 0 0 (by omega)
  simpa [btok] using this

/-- The value of `btok` does not depend on the fuel. -/
theorem btok_unique {f1 f2 bytes r1 r2 : Nat} (h1 : btok f1 bytes = some r1)
    (h2 : btok f2 bytes = some r2) : r1 = r2 := by
  obtain ⟨_, a1, b1⟩ := btok_sound h1
  obtain ⟨_, a2, b2⟩ := btok_sound h2
  by_contra hne
  rcases Nat.lt_or_gt_of_ne hne with hlt | hlt
  · rcases b2 with b2 | b2
    · omega
    · have : 2 ^ r1 ≤ 2 ^ (r2 - 1) := Nat.pow_le_pow_right (by norm_num) (by omega)
      omega
  · rcases b1 with b1 | b1
    · omega
    · have : 2 ^ r2 ≤ 2 ^ (r1 - 1) := Nat.pow_le_pow_right (by norm_num) (by omega)
      omega

theorem btok_pow (k : Nat) (hk : k ≤ 63) {fuel : Nat} (hf : 64 ≤ fuel) : btok fuel (2 ^ k) = some k := by
  obtain ⟨r, hr⟩ := @btok_total fuel (2 ^ k) (Nat.pow_le_pow_right (by norm_num) hk) hf
  obtain ⟨_, a, b⟩ := btok_sound hr
  have h1 : k ≤ r := (Nat.pow_le_pow_iff_right (by norm_num)).mp a
  rcases b with b | b
  · subst b; rw [hr]; congr 1; omega
  · have h2 : r - 1 < k := (Nat.pow_lt_pow_iff_right (by norm_num)).mp b
    rw [hr]; congr 1; omega

/-! ### Reading after writing -/

@[simp] theorem upd_apply {β : Type} (f : Nat → β) (a : Nat) (v : β) (x : Nat) :
    upd f a v x = if x = a then v else f x := rfl

theorem rd_wr (s : State) (p q : Ptr) (h : avail) :
    rd (wr s p h) q = if q = p then h else rd s q := by
  cases p <;> cases q <;> simp [rd, wr]

@[simp] theorem wr_kval_m (s : State) (p : Ptr) (h : avail) : (wr s p h).kval_m = s.kval_m := by
  cases p <;> rfl

@[simp] theorem wr_base (s : State) (p : Ptr) (h : avail) : (wr s p h).base = s.base := by
  cases p <;> rfl

@[simp] theorem wr_errno (s : State) (p : Ptr) (h : avail) : (wr s p h).errno = s.errno := by
  cases p <;> rfl

@[simp] theorem wr_numbytes (s : State) (p : Ptr) (h : avail) :
    (wr s p h).numbytes = s.numbytes := by
  cases p <;> rfl

@[simp] theorem wr_avail_addr (s : State) (p : Ptr) (h : avail) :
    (wr s p h).avail_addr = s.avail_addr := by
  cases p <;> rfl

@[simp] theorem addr_wr (s : State) (p : Ptr) (h : avail) (x : Ptr) :
    addr (wr s p h) x = addr s x := by
  cases x <;> simp [addr]

theorem avail_eq_rd (s : State) (i : Nat) : s.avail i = rd s (Ptr.sent i) := rfl

theorem mem_eq_rd (s : State) (a : Nat) : s.mem a = rd s (Ptr.blk a) := rfl

section setters
variable (s : State) (p q x : Ptr) (t : Nat)

@[simp] theorem set_tag_kval_m : (set_tag s p t).kval_m = s.kval_m := by simp [set_tag]
@[simp] theorem set_kval_kval_m : (set_kval s p t).kval_m = s.kval_m := by simp [set_kval]
@[simp] theorem set_next_kval_m : (set_next s p q).kval_m = s.kval_m := by simp [set_next]
@[simp] theorem set_prev_kval_m : (set_prev s p q).kval_m = s.kval_m := by simp [set_prev]
@[simp] theorem set_tag_base : (set_tag s p t).base = s.base := by simp [set_tag]
@[simp] theorem set_kval_base : (set_kval s p t).base = s.base := by simp [set_kval]
@[simp] theorem set_next_base : (set_next s p q).base = s.base := by simp [set_next]
@[simp] theorem set_prev_base : (set_prev s p q).base = s.base := by simp [set_prev]
@[simp] theorem set_tag_errno : (set_tag s p t).errno = s.errno := by simp [set_tag]
@[simp] theorem set_kval_errno : (set_kval s p t).errno = s.errno := by simp [set_kval]
@[simp] theorem set_next_errno : (set_next s p q).errno = s.errno := by simp [set_next]
@[simp] theorem set_prev_errno : (set_prev s p q).errno = s.errno := by simp [set_prev]
@[simp] theorem addr_set_tag : addr (set_tag s p t) x = addr s x := by simp [set_tag]
@[simp] theorem addr_set_kval : addr (set_kval s p t) x = addr s x := by simp [set_kval]
@[simp] theorem addr_set_next : addr (set_next s p q) x = addr s x := by simp [set_next]
@[simp] theorem addr_set_prev : addr (set_prev s p q) x = addr s x := by simp [set_prev]

@[simp] theorem tag_set_tag :
    (rd (set_tag s p t) x).tag = if x = p then t else (rd s x).tag := by
  simp only [set_tag, rd_wr]; split <;> simp
@[simp] theorem kval_set_tag : (rd (set_tag s p t) x).kval = (rd s x).kval := by
  simp only [set_tag, rd_wr]; split <;> simp_all
@[simp] theorem next_set_tag : (rd (set_tag s p t) x).next = (rd s x).next := by
  simp only [set_tag, rd_wr]; split <;> simp_all
@[simp] theorem prev_set_tag : (rd (set_tag s p t) x).prev = (rd s x).prev := by
  simp only [set_tag, rd_wr]; split <;> simp_all

@[simp] theorem tag_set_kval : (rd (set_kval s p t) x).tag = (rd s x).tag := by
  simp only [set_kval, rd_wr]; split <;> simp_all
@[simp] theorem kval_set_kval :
    (rd (set_kval s p t) x).kval = if x = p then t else (rd s x).kval := by
  simp only [set_kval, rd_wr]; split <;> simp
@[simp] theorem next_set_kval : (rd (set_kval s p t) x).next = (rd s x).next := by
  simp only [set_kval, rd_wr]; split <;> simp_all
@[simp] theorem prev_set_kval : (rd (set_kval s p t) x).prev = (rd s x).prev := by
  simp only [set_kval, rd_wr]; split <;> simp_all

@[simp] theorem tag_set_next : (rd (set_next s p q) x).tag = (rd s x).tag := by
  simp only [set_next, rd_wr]; split <;> simp_all
@[simp] theorem kval_set_next : (rd (set_next s p q) x).kval = (rd s x).kval := by
  simp only [set_next, rd_wr]; split <;> simp_all
@[simp] theorem next_set_next :
    (rd (set_next s p q) x).next = if x = p then q else (rd s x).next := by
  simp only [set_next, rd_wr]; split <;> simp
@[simp] theorem prev_set_next : (rd (set_next s p q) x).prev = (rd s x).prev := by
  simp only [set_next, rd_wr]; split <;> simp_all

@[simp] theorem tag_set_prev : (rd (set_prev s p q) x).tag = (rd s x).tag := by
  simp only [set_prev, rd_wr]; split <;> simp_all
@[simp] theorem kval_set_prev : (rd (set_prev s p q) x).kval = (rd s x).kval := by
  simp only [set_prev, rd_wr]; split <;> simp_all
@[simp] theorem next_set_prev : (rd (set_prev s p q) x).next = (rd s x).next := by
  simp only [set_prev, rd_wr]; split <;> simp_all
@[simp] theorem prev_set_prev :
    (rd (set_prev s p q) x).prev = if x = p then q else (rd s x).prev := by
  simp only [set_prev, rd_wr]; split <;> simp

end setters

/-! ### `unlink` and `push_front` -/

section ops
variable (s : State) (b x : Ptr) (j : Nat)

@[simp] theorem unlink_kval_m : (unlink s b).kval_m = s.kval_m := by simp [unlink]
@[simp] theorem unlink_base : (unlink s b).base = s.base := by simp [unlink]
@[simp] theorem addr_unlink : addr (unlink s b) x = addr s x := by simp [unlink]
@[simp] theorem tag_unlink : (rd (unlink s b) x).tag = (rd s x).tag := by simp [unlink]
@[simp] theorem kval_unlink : (rd (unlink s b) x).kval = (rd s x).kval := by simp [unlink]

theorem next_unlink :
    (rd (unlink s b) x).next = if x = (rd s b).prev then (rd s b).next else (rd s x).next := by
  simp only [unlink, next_set_next, prev_set_prev, next_set_prev, ite_self]

theorem prev_unlink :
    (rd (unlink s b) x).prev = if x = (rd s b).next then (rd s b).prev else (rd s x).prev := by
  simp only [unlink, prev_set_next, prev_set_prev]

@[simp] theorem push_front_kval_m : (push_front s j b).kval_m = s.kval_m := by
  simp [push_front]
@[simp] theorem push_front_base : (push_front s j b).base = s.base := by simp [push_front]
@[simp] theorem addr_push_front : addr (push_front s j b) x = addr s x := by
  simp [push_front]
@[simp] theorem tag_push_front : (rd (push_front s j b) x).tag = (rd s x).tag := by
  simp [push_front]
@[simp] theorem kval_push_front : (rd (push_front s j b) x).kval = (rd s x).kval := by
  simp [push_front]

theorem next_push_front :
    (rd (push_front s j b) x).next =
      if x = Ptr.sent j then b else if x = b then (rd s (Ptr.sent j)).next
      else (rd s x).next := by
  simp only [push_front, next_set_next, next_set_prev, avail_eq_rd]

theorem prev_push_front (hb : b ≠ Ptr.sent j) :
    (rd (push_front s j b) x).prev =
      if x = (rd s (Ptr.sent j)).next then b else if x = b then Ptr.sent j
      else (rd s x).prev := by
  simp only [push_front, prev_set_next, prev_set_prev, next_set_prev, next_set_next,
    avail_eq_rd, if_neg (Ne.symm hb)]

end ops

/-! ### Chains of headers -/

theorem chain_head_cases (l : List Nat) (q : Ptr) :
    chain_head l q = q ∨ ∃ y ∈ l, chain_head l q = Ptr.blk y := by
  cases l with
  | nil => exact Or.inl rfl
  | cons a l => exact Or.inr ⟨a, by simp, rfl⟩

theorem chain_last_cases (l : List Nat) (p : Ptr) :
    chain_last p l = p ∨ ∃ y ∈ l, chain_last p l = Ptr.blk y := by
  induction l generalizing p with
  | nil => exact Or.inl rfl
  | cons a l ih =>
    rcases ih (Ptr.blk a) with h | ⟨y, hy, h⟩
    · exact Or.inr ⟨a, by simp, h⟩
    · exact Or.inr ⟨y, by simp [hy], h⟩

theorem Chain.next_head {s : State} {p q : Ptr} {l : List Nat} (h : Chain s p l q) :
    (rd s p).next = chain_head l q := by
  cases l with
  | nil => exact h.1
  | cons a l => exact h.1

theorem Chain.congr {s s' : State} {q : Ptr} :
    ∀ (l : List Nat) (p : Ptr),
      (∀ x, (x = p ∨ ∃ a ∈ l, x = Ptr.blk a) → (rd s' x).next = (rd s x).next) →
      (∀ x, (x = q ∨ ∃ a ∈ l, x = Ptr.blk a) → (rd s' x).prev = (rd s x).prev) →
      Chain s p l q → Chain s' p l q := by
  intro l
  induction l with
  | nil =>
    intro p hn hp h
    exact ⟨by rw [hn p (Or.inl rfl)]; exact h.1, by rw [hp q (Or.inl rfl)]; exact h.2⟩
  | cons a l ih =>
    intro p hn hp h
    obtain ⟨h1, h2, h3⟩ := h
    refine ⟨by rw [hn p (Or.inl rfl)]; exact h1, ?_, ?_⟩
    · rw [hp (Ptr.blk a) (Or.inr ⟨a, by simp, rfl⟩)]; exact h2
    · apply ih (Ptr.blk a) _ _ h3
      · intro x hx
        apply hn
        rcases hx with hx | ⟨y, hy, hx⟩
        · exact Or.inr ⟨a, by simp, hx⟩
        · exact Or.inr ⟨y, by simp [hy], hx⟩
      · intro x hx
        apply hp
        rcases hx with hx | ⟨y, hy, hx⟩
        · exact Or.inl hx
        · exact Or.inr ⟨y, by simp [hy], hx⟩

/-- A list headed by a sentinel determines its sequence of blocks. -/
theorem Chain.unique {s : State} {k : Nat} :
    ∀ (l l' : List Nat) (p : Ptr), Chain s p l (Ptr.sent k) → Chain s p l' (Ptr.sent k) →
      l = l' := by
  intro l
  induction l with
  | nil =>
    intro l' p h h'
    cases l' with
    | nil => rfl
    | cons a l' =>
      have := h.1.symm.trans h'.1
      exact absurd this (by simp)
  | cons a l ih =>
    intro l' p h h'
    cases l' with
    | nil =>
      have := h.1.symm.trans h'.1
      exact absurd this (by simp)
    | cons a' l' =>
      have e := h.1.symm.trans h'.1
      simp only [Ptr.blk.injEq] at e
      subst e
      rw [ih l' (Ptr.blk a) h.2.2 h'.2.2]

theorem free_list_unique {s : State} {k : Nat} {l l' : List Nat}
    (h : free_list s k l) (h' : free_list s k l') : l = l' :=
  Chain.unique l l' _ h h'

/-- The neighbours of a block inside a chain. -/
theorem Chain.mid {s : State} {q : Ptr} {b : Nat} {l2 : List Nat} :
    ∀ (l1 : List Nat) (p : Ptr), Chain s p (l1 ++ b :: l2) q →
      (rd s (Ptr.blk b)).prev = chain_last p l1 ∧
      (rd s (Ptr.blk b)).next = chain_head l2 q := by
  intro l1
  induction l1 with
  | nil =>
    intro p h
    exact ⟨h.2.1, h.2.2.next_head⟩
  | cons z l1 ih =>
    intro p h
    exact ih (Ptr.blk z) h.2.2

/-- Unlinking a block of a chain leaves the chain of the other blocks. -/
theorem Chain.unlink {s : State} {q : Ptr} {b : Nat} {l2 : List Nat} :
    ∀ (l1 : List Nat) (p : Ptr), Chain s p (l1 ++ b :: l2) q →
      (l1 ++ b :: l2).Nodup →
      (∀ y ∈ l1 ++ b :: l2, p ≠ Ptr.blk y) → (∀ y ∈ l1 ++ b :: l2, q ≠ Ptr.blk y) →
      Chain (Buddy.unlink s (Ptr.blk b)) p (l1 ++ l2) q := by
  intro l1
  induction l1 with
  | nil =>
    intro p h nd hp hq
    have hm := Chain.mid [] p h
    simp only [chain_last] at hm
    obtain ⟨hpv, hnx⟩ := hm
    simp only [List.nil_append] at h nd hp hq ⊢
    obtain ⟨h1, h2, h3⟩ := h
    cases l2 with
    | nil =>
      simp only [chain_head] at hnx
      refine ⟨?_, ?_⟩
      · rw [next_unlink, hpv, hnx]; simp
      · rw [prev_unlink, hpv, hnx]; simp
    | cons y l2 =>
      simp only [chain_head] at hnx
      have nd' : b ∉ y :: l2 ∧ y ∉ l2 ∧ l2.Nodup := by
        simpa [List.nodup_cons, and_assoc] using nd
      refine ⟨?_, ?_, ?_⟩
      · rw [next_unlink, hpv, hnx]; simp
      · rw [prev_unlink, hpv, hnx]; simp
      · apply Chain.congr l2 (Ptr.blk y) _ _ h3.2.2
        · intro x hx
          rw [next_unlink, hpv, if_neg]
          rcases hx with hx | ⟨z, hz, hx⟩
          · rw [hx]; exact (hp y (by simp)).symm
          · rw [hx]; exact (hp z (by simp [hz])).symm
        · intro x hx
          rw [prev_unlink, hnx, if_neg]
          rcases hx with hx | ⟨z, hz, hx⟩
          · rw [hx]; exact hq y (by simp)
          · rw [hx]; intro e; simp only [Ptr.blk.injEq] at e
            subst e; exact nd'.2.1 hz
  | cons z l1 ih =>
    intro p h nd hp hq
    have hm := Chain.mid (z :: l1) p h
    obtain ⟨hpv, hnx⟩ := hm
    simp only [chain_last] at hpv
    simp only [List.cons_append] at h nd hp hq ⊢
    obtain ⟨h1, h2, h3⟩ := h
    have ndz : z ∉ l1 ++ b :: l2 := (List.nodup_cons.mp nd).1
    have nd' : (l1 ++ b :: l2).Nodup := (List.nodup_cons.mp nd).2
    have ih' := ih (Ptr.blk z) h3 nd'
      (by intro y hy e; simp only [Ptr.blk.injEq] at e; subst e; exact ndz hy)
      (by intro y hy; exact hq y (by simp [hy]))
    refine ⟨?_, ?_, ih'⟩
    · rw [next_unlink, hpv, if_neg, h1]
      rcases chain_last_cases l1 (Ptr.blk z) with e | ⟨y, hy, e⟩
      · rw [e]; exact hp z (by simp)
      · rw [e]; exact hp y (by simp [hy])
    · rw [prev_unlink, hnx, if_neg, h2]
      rcases chain_head_cases l2 q with e | ⟨y, hy, e⟩
      · rw [e]; exact (hq z (by simp)).symm
      · rw [e]; intro e'; simp only [Ptr.blk.injEq] at e'
        subst e'; exact ndz (by simp [hy])

/-- Unlinking a block of `avail[k]`. -/
theorem free_list_unlink {s : State} {k b : Nat} {l1 l2 : List Nat}
    (h : free_list s k (l1 ++ b :: l2)) (nd : (l1 ++ b :: l2).Nodup) :
    free_list (unlink s (Ptr.blk b)) k (l1 ++ l2) :=
  Chain.unlink l1 _ h nd (by intro y _; simp) (by intro y _; simp)

/-- Pushing a new block at the head of `avail[j]`. -/
theorem free_list_push {s : State} {j a : Nat} {l : List Nat}
    (h : free_list s j l) (nd : l.Nodup) (ha : a ∉ l) :
    free_list (push_front s j (Ptr.blk a)) j (a :: l) := by
  have hb : Ptr.blk a ≠ Ptr.sent j := by simp
  have hh := h.next_head
  refine ⟨?_, ?_, ?_⟩
  · rw [next_push_front]; simp
  · rw [prev_push_front _ _ _ _ hb, hh, if_neg, if_pos rfl]
    rcases chain_head_cases l (Ptr.sent j) with e | ⟨y, hy, e⟩
    · rw [e]; simp
    · rw [e]; intro e'; simp only [Ptr.blk.injEq] at e'
      subst e'; exact ha hy
  · cases l with
    | nil =>
      simp only [chain_head] at hh
      refine ⟨?_, ?_⟩
      · rw [next_push_front, if_neg hb, if_pos rfl, hh]
      · rw [prev_push_front _ _ _ _ hb, hh, if_pos rfl]
    | cons y l =>
      simp only [chain_head] at hh
      have nd' : y ∉ l ∧ l.Nodup := List.nodup_cons.mp nd
      obtain ⟨h1, h2, h3⟩ := h
      refine ⟨?_, ?_, ?_⟩
      · rw [next_push_front, if_neg hb, if_pos rfl, hh]
      · rw [prev_push_front _ _ _ _ hb, hh, if_pos rfl]
      · apply Chain.congr l (Ptr.blk y) _ _ h3
        · intro x hx
          rw [next_push_front, if_neg, if_neg]
          · rcases hx with hx | ⟨z, hz, hx⟩
            · rw [hx]; intro e; simp only [Ptr.blk.injEq] at e
              subst e; exact ha (by simp)
            · rw [hx]; intro e; simp only [Ptr.blk.injEq] at e
              subst e; exact ha (by simp [hz])
          · rcases hx with hx | ⟨z, hz, hx⟩ <;> rw [hx] <;> simp
        · intro x hx
          rw [prev_push_front _ _ _ _ hb, hh, if_neg, if_neg]
          · rcases hx with hx | ⟨z, hz, hx⟩
            · rw [hx]; simp
            · rw [hx]; intro e; simp only [Ptr.blk.injEq] at e
              subst e; exact ha (by simp [hz])
          · rcases hx with hx | ⟨z, hz, hx⟩
            · rw [hx]; simp
            · rw [hx]; intro e; simp only [Ptr.blk.injEq] at e
              subst e; exact nd'.1 hz

/-- A list is not disturbed by writes to the links of another list and of
blocks it does not contain. -/
theorem free_list_frame {s s' : State} {i k : Nat} {l lk : List Nat}
    (h : free_list s i l) (hik : i ≠ k) (hd : ∀ y ∈ l, y ∉ lk)
    (hn : ∀ x, (rd s' x).next ≠ (rd s x).next → x = Ptr.sent k ∨ ∃ y ∈ lk, x = Ptr.blk y)
    (hp : ∀ x, (rd s' x).prev ≠ (rd s x).prev → x = Ptr.sent k ∨ ∃ y ∈ lk, x = Ptr.blk y) :
    free_list s' i l := by
  apply Chain.congr l _ _ _ h
  · intro x hx
    by_contra hne
    rcases hn x hne with e | ⟨y, hy, e⟩
    · rcases hx with hx | ⟨z, hz, hx⟩
      · rw [hx] at e; simp only [Ptr.sent.injEq] at e; exact hik e
      · rw [hx] at e; simp at e
    · rcases hx with hx | ⟨z, hz, hx⟩
      · rw [hx] at e; simp at e
      · rw [hx] at e; simp only [Ptr.blk.injEq] at e
        subst e; exact hd z hz hy
  · intro x hx
    by_contra hne
    rcases hp x hne with e | ⟨y, hy, e⟩
    · rcases hx with hx | ⟨z, hz, hx⟩
      · rw [hx] at e; simp only [Ptr.sent.injEq] at e; exact hik e
      · rw [hx] at e; simp at e
    · rcases hx with hx | ⟨z, hz, hx⟩
      · rw [hx] at e; simp at e
      · rw [hx] at e; simp only [Ptr.blk.injEq] at e
        subst e; exact hd z hz hy

/-! ### Arithmetic of aligned blocks -/

theorem xor_pow_mul (k q : Nat) : (2 ^ k * q) ^^^ 2 ^ k = 2 ^ k * (q ^^^ 1) := by
  induction k with
  | zero => simp
  | succ k ih =>
    have h1 : ((2 ^ (k + 1) * q) ^^^ 2 ^ (k + 1)) / 2 = 2 ^ k * (q ^^^ 1) := by
      rw [Nat.xor_div_two, ← ih]
      congr 1
      · rw [pow_succ, mul_assoc, mul_comm 2 q, ← mul_assoc]; simp
      · rw [pow_succ]; simp
    have h2 : ((2 ^ (k + 1) * q) ^^^ 2 ^ (k + 1)) % 2 = 0 := by
      rw [Nat.xor_mod_two_eq]
      have : 2 ^ (k + 1) * q + 2 ^ (k + 1) = 2 * (2 ^ k * q + 2 ^ k) := by ring
      rw [this]; simp
    have := Nat.div_add_mod ((2 ^ (k + 1) * q) ^^^ 2 ^ (k + 1)) 2
    rw [h1, h2] at this
    rw [← this, pow_succ]; ring

theorem xor_one_cases (q : Nat) :
    (q % 2 = 0 ∧ q ^^^ 1 = q + 1) ∨ (q % 2 = 1 ∧ (q ^^^ 1) + 1 = q) := by
  have h1 : (q ^^^ 1) / 2 = q / 2 := by rw [Nat.xor_div_two]; simp
  have h2 : (q ^^^ 1) % 2 = (q + 1) % 2 := Nat.xor_mod_two_eq
  omega

/-- The buddy of an aligned offset: either the offset starts an aligned pair
and the buddy is the upper half, or the buddy starts the pair. -/
theorem xor_pow_cases {k o : Nat} (h : 2 ^ k ∣ o) :
    (2 ^ (k + 1) ∣ o ∧ o ^^^ 2 ^ k = o + 2 ^ k) ∨
    (2 ^ (k + 1) ∣ (o ^^^ 2 ^ k) ∧ o = (o ^^^ 2 ^ k) + 2 ^ k) := by
  obtain ⟨q, rfl⟩ := h
  rw [xor_pow_mul]
  rcases xor_one_cases q with ⟨h0, h1⟩ | ⟨h0, h1⟩
  · left
    refine ⟨?_, by rw [h1]; ring⟩
    obtain ⟨t, ht⟩ : 2 ∣ q := Nat.dvd_of_mod_eq_zero h0
    exact ⟨t, by rw [ht, pow_succ]; ring⟩
  · right
    have hq : q = (q ^^^ 1) + 1 := h1.symm
    have h0' : (q ^^^ 1) % 2 = 0 := by omega
    refine ⟨?_, ?_⟩
    · obtain ⟨t, ht⟩ : 2 ∣ (q ^^^ 1) := Nat.dvd_of_mod_eq_zero h0'
      exact ⟨t, by rw [ht, pow_succ]; ring⟩
    · conv_lhs => rw [hq]
      ring

theorem mult_gap {P x y : Nat} (hx : P ∣ x) (hy : P ∣ y) (h : x < y) : x + P ≤ y := by
  obtain ⟨u, rfl⟩ := hx
  obtain ⟨v, rfl⟩ := hy
  have huv : u < v := lt_of_mul_lt_mul_left h (Nat.zero_le P)
  calc P * u + P = P * (u + 1) := by ring
    _ ≤ P * v := Nat.mul_le_mul_left P huv

theorem pow2_pos (k : Nat) : 0 < 2 ^ k := Nat.pow_pos (by norm_num)

theorem pow_dvd_pow_two {j k : Nat} (h : j ≤ k) : 2 ^ j ∣ 2 ^ k := pow_dvd_pow 2 h

/-- An aligned block that starts inside the region fits in it. -/
theorem aligned_fits {j m o : Nat} (hj : j ≤ m) (ho : 2 ^ j ∣ o) (hlt : o < 2 ^ m) :
    o + 2 ^ j ≤ 2 ^ m :=
  mult_gap ho (pow_dvd_pow_two hj) hlt

theorem buddy_addr_cases {base a k : Nat} (hb : base ≤ a) (h : 2 ^ k ∣ (a - base)) :
    (2 ^ (k + 1) ∣ (a - base) ∧ buddy_addr base a k = a + 2 ^ k) ∨
    (base ≤ buddy_addr base a k ∧ 2 ^ (k + 1) ∣ (buddy_addr base a k - base) ∧
      a = buddy_addr base a k + 2 ^ k) := by
  unfold buddy_addr
  rcases xor_pow_cases h with ⟨h1, h2⟩ | ⟨h1, h2⟩
  · left; exact ⟨h1, by rw [h2]; omega⟩
  · right
    refine ⟨by omega, by rw [Nat.add_sub_cancel_left]; exact h1, by omega⟩

theorem buddy_addr_invol {base a k : Nat} (hb : base ≤ a) :
    buddy_addr base (buddy_addr base a k) k = a := by
  unfold buddy_addr
  rw [Nat.add_sub_cancel_left, Nat.xor_cancel_right]; omega

theorem buddy_addr_ne {base a k : Nat} (hb : base ≤ a) (h : 2 ^ k ∣ (a - base)) :
    buddy_addr base a k ≠ a := by
  have := pow2_pos k
  rcases buddy_addr_cases hb h with ⟨_, h2⟩ | ⟨_, _, h2⟩ <;> omega

/-! ### Tilings of the region by blocks -/

theorem Part.addr_unique {base m : Nat} {S : Nat → Nat → Prop} (hP : Part base m S)
    {a k k' : Nat} (h : S a k) (h' : S a k') : k = k' := by
  by_contra hne
  have h1 := pow2_pos k
  have h2 := pow2_pos k'
  rcases hP.disj a k a k' h h' (Or.inr hne) with h3 | h3 <;> omega

theorem Part.of_iff {base m : Nat} {S S' : Nat → Nat → Prop} (hP : Part base m S)
    (h : ∀ a k, S' a k ↔ S a k) : Part base m S' where
  geom := fun a k hs => hP.geom a k ((h a k).mp hs)
  disj := fun a k a' k' hs hs' hne => hP.disj a k a' k' ((h a k).mp hs) ((h a' k').mp hs') hne
  cover := fun x hx hx' => by
    obtain ⟨a, k, hs, h1, h2⟩ := hP.cover x hx hx'
    exact ⟨a, k, (h a k).mpr hs, h1, h2⟩

/-- The header found at the buddy address of a live block belongs to a live
block that is not larger. -/
theorem Part.buddy_live {base m : Nat} {S : Nat → Nat → Prop} (hP : Part base m S)
    {a k : Nat} (h : S a k) (hk : k < m) :
    ∃ k', k' ≤ k ∧ S (buddy_addr base a k) k' := by
  obtain ⟨_, hba, hal, hfit⟩ := hP.geom a k h
  have hpk := pow2_pos k
  have hpm : 2 ^ (k + 1) ∣ 2 ^ m := pow_dvd_pow_two (by omega)
  -- the aligned pair `[c, c + 2^(k+1))` holding the block and its buddy
  obtain ⟨c, hbc, hcal, hcfit, hac⟩ : ∃ c, base ≤ c ∧ 2 ^ (k + 1) ∣ (c - base) ∧
      c + 2 ^ (k + 1) ≤ base + 2 ^ m ∧
      ((a = c ∧ buddy_addr base a k = c + 2 ^ k) ∨
       (a = c + 2 ^ k ∧ buddy_addr base a k = c)) := by
    rcases buddy_addr_cases hba hal with ⟨h1, h2⟩ | ⟨h0, h1, h2⟩
    · refine ⟨a, hba, h1, ?_, Or.inl ⟨rfl, h2⟩⟩
      have := aligned_fits (j := k + 1) (m := m) (by omega) h1 (by omega)
      omega
    · refine ⟨buddy_addr base a k, h0, h1, ?_, Or.inr ⟨h2, rfl⟩⟩
      have := aligned_fits (j := k + 1) (m := m) (by omega) h1 (by omega)
      omega
  have hp1 : 2 ^ (k + 1) = 2 * 2 ^ k := by rw [pow_succ]; ring
  set b := buddy_addr base a k with hb
  have hbb : base ≤ b := by rcases hac with ⟨_, e⟩ | ⟨_, e⟩ <;> omega
  have hbal : 2 ^ k ∣ (b - base) := by
    have hck : 2 ^ k ∣ (c - base) := dvd_trans (pow_dvd_pow_two (by omega)) hcal
    rcases hac with ⟨_, e⟩ | ⟨_, e⟩
    · have : b - base = (c - base) + 2 ^ k := by omega
      rw [this]; exact dvd_add hck (dvd_refl _)
    · rw [e]; exact hck
  obtain ⟨a', k', hs', hle, hlt⟩ := hP.cover b hbb (by rcases hac with ⟨_, e⟩ | ⟨_, e⟩ <;> omega)
  obtain ⟨_, hba', hal', hfit'⟩ := hP.geom a' k' hs'
  refine ⟨k', ?_⟩
  rcases Nat.lt_or_ge k k' with hgt | hge
  · -- a larger block at the buddy address would contain the block itself
    exfalso
    have hd : 2 ^ (k + 1) ∣ 2 ^ k' := pow_dvd_pow_two (by omega)
    have hal1 : 2 ^ (k + 1) ∣ (a' - base) := dvd_trans hd hal'
    have h1 : a' ≤ c := by
      by_contra hc
      have := mult_gap hcal hal1 (by omega)
      rcases hac with ⟨_, e⟩ | ⟨_, e⟩ <;> omega
    have h2 : c + 2 ^ (k + 1) ≤ a' + 2 ^ k' := by
      by_contra hc
      have e1 : 2 ^ (k + 1) ∣ (a' - base) + 2 ^ k' := dvd_add hal1 hd
      have e2 : 2 ^ (k + 1) ∣ (c - base) + 2 ^ (k + 1) := dvd_add hcal (dvd_refl _)
      have := mult_gap e1 e2 (by omega)
      rcases hac with ⟨_, e⟩ | ⟨_, e⟩ <;> omega
    have hne : a ≠ a' ∨ k ≠ k' := Or.inr (by omega)
    rcases hP.disj a k a' k' h hs' hne with h3 | h3 <;>
      rcases hac with ⟨e0, e⟩ | ⟨e0, e⟩ <;> omega
  · refine ⟨hge, ?_⟩
    have hal2 : 2 ^ k' ∣ (b - base) := dvd_trans (pow_dvd_pow_two hge) hbal
    have : a' = b := by
      by_contra hne
      have := mult_gap hal' hal2 (by omega)
      omega
    rw [← this]; exact hs'

/-- Splitting a block in two halves keeps the tiling. -/
theorem Part.split {base m : Nat} {S : Nat → Nat → Prop} (hP : Part base m S)
    {a k : Nat} (h : S a (k + 1)) :
    Part base m (fun x i => (S x i ∧ ¬ (x = a ∧ i = k + 1)) ∨ (x = a ∧ i = k) ∨
      (x = a + 2 ^ k ∧ i = k)) := by
  obtain ⟨hkm, hba, hal, hfit⟩ := hP.geom a (k + 1) h
  have hpk := pow2_pos k
  have hp1 : 2 ^ (k + 1) = 2 * 2 ^ k := by rw [pow_succ]; ring
  have halk : 2 ^ k ∣ (a - base) := dvd_trans (pow_dvd_pow_two (by omega)) hal
  constructor
  · intro x i hx
    rcases hx with ⟨hx, _⟩ | ⟨rfl, rfl⟩ | ⟨rfl, rfl⟩
    · exact hP.geom x i hx
    · exact ⟨by omega, hba, halk, by omega⟩
    · refine ⟨by omega, by omega, ?_, by omega⟩
      have : a + 2 ^ i - base = (a - base) + 2 ^ i := by omega
      rw [this]; exact dvd_add halk (dvd_refl _)
  · intro x i x' i' hx hx' hne
    have hpi := pow2_pos i
    have hpi' := pow2_pos i'
    rcases hx with ⟨hx, hn⟩ | ⟨rfl, rfl⟩ | ⟨rfl, rfl⟩ <;>
      rcases hx' with ⟨hx', hn'⟩ | ⟨rfl, rfl⟩ | ⟨rfl, rfl⟩
    · exact hP.disj x i x' i' hx hx' hne
    · have := hP.disj x i x' (i' + 1) hx h (by
        by_contra hc; push_neg at hc; exact hn ⟨hc.1, hc.2⟩)
      omega
    · have := hP.disj x i a (i' + 1) hx h (by
        by_contra hc; push_neg at hc; exact hn ⟨hc.1, hc.2⟩)
      omega
    · have := hP.disj x (i + 1) x' i' h hx' (by
        by_contra hc; push_neg at hc; exact hn' ⟨hc.1.symm, hc.2.symm⟩)
      omega
    · omega
    · omega
    · have := hP.disj a (i + 1) x' i' h hx' (by
        by_contra hc; push_neg at hc; exact hn' ⟨hc.1.symm, hc.2.symm⟩)
      omega
    · omega
    · omega
  · intro x hx hx'
    obtain ⟨y, i, hs, h1, h2⟩ := hP.cover x hx hx'
    by_cases hy : y = a ∧ i = k + 1
    · obtain ⟨rfl, rfl⟩ := hy
      rcases Nat.lt_or_ge x (y + 2 ^ k) with hlt | hge
      · exact ⟨y, k, Or.inr (Or.inl ⟨rfl, rfl⟩), h1, hlt⟩
      · exact ⟨y + 2 ^ k, k, Or.inr (Or.inr ⟨rfl, rfl⟩), hge, by omega⟩
    · exact ⟨y, i, Or.inl ⟨hs, hy⟩, h1, h2⟩

/-- Merging a block with its buddy keeps the tiling. -/
theorem Part.merge {base m : Nat} {S : Nat → Nat → Prop} (hP : Part base m S)
    {a k : Nat} (h : S a k) (h' : S (a + 2 ^ k) k) (hal : 2 ^ (k + 1) ∣ (a - base)) :
    Part base m (fun x i => (S x i ∧ ¬ (x = a ∧ i = k) ∧ ¬ (x = a + 2 ^ k ∧ i = k)) ∨
      (x = a ∧ i = k + 1)) := by
  obtain ⟨hkm, hba, _, hfit⟩ := hP.geom a k h
  obtain ⟨_, _, _, hfit'⟩ := hP.geom (a + 2 ^ k) k h'
  have hpk := pow2_pos k
  have hp1 : 2 ^ (k + 1) = 2 * 2 ^ k := by rw [pow_succ]; ring
  have hk1 : k + 1 ≤ m := by
    by_contra hc
    have : k = m := by omega
    subst this; omega
  constructor
  · intro x i hx
    rcases hx with ⟨hx, _⟩ | ⟨rfl, rfl⟩
    · exact hP.geom x i hx
    · exact ⟨hk1, hba, hal, by omega⟩
  · intro x i x' i' hx hx' hne
    have hpi := pow2_pos i
    have hpi' := pow2_pos i'
    rcases hx with ⟨hx, hn1, hn2⟩ | ⟨rfl, rfl⟩ <;>
      rcases hx' with ⟨hx', hn1', hn2'⟩ | ⟨rfl, rfl⟩
    · exact hP.disj x i x' i' hx hx' hne
    · have e1 := hP.disj x i x' k hx h (by
        by_contra hc; push_neg at hc; exact hn1 ⟨hc.1, hc.2⟩)
      have e2 := hP.disj x i (x' + 2 ^ k) k hx h' (by
        by_contra hc; push_neg at hc; exact hn2 ⟨hc.1, hc.2⟩)
      omega
    · have e1 := hP.disj x k x' i' h hx' (by
        by_contra hc; push_neg at hc; exact hn1' ⟨hc.1.symm, hc.2.symm⟩)
      have e2 := hP.disj (x + 2 ^ k) k x' i' h' hx' (by
        by_contra hc; push_neg at hc; exact hn2' ⟨hc.1.symm, hc.2.symm⟩)
      omega
    · omega
  · intro x hx hx'
    obtain ⟨y, i, hs, h1, h2⟩ := hP.cover x hx hx'
    by_cases hy : y = a ∧ i = k
    · obtain ⟨rfl, rfl⟩ := hy
      exact ⟨y, i + 1, Or.inr ⟨rfl, rfl⟩, h1, by omega⟩
    · by_cases hy' : y = a + 2 ^ k ∧ i = k
      · obtain ⟨rfl, rfl⟩ := hy'
        exact ⟨a, i + 1, Or.inr ⟨rfl, rfl⟩, by omega, by omega⟩
      · exact ⟨y, i, Or.inl ⟨hs, hy, hy'⟩, h1, h2⟩

/-! ### Consequences of the invariant -/

section derived
variable {c : Consts} {s : State} {F : Nat → List Nat} {R : List (Nat × Nat)}
  {fl : Option (Nat × Nat)}

theorem PInv.liveF (_h : PInv c s F R fl) {a k : Nat} (ha : a ∈ F k) : Live F R fl a k :=
  Or.inl ha

theorem PInv.liveR (_h : PInv c s F R fl) {a k : Nat} (ha : (a, k) ∈ R) : Live F R fl a k :=
  Or.inr (Or.inl ha)

theorem PInv.liveFl (_h : PInv c s F R (some (a, k))) : Live F R (some (a, k)) a k :=
  Or.inr (Or.inr rfl)

theorem PInv.fnil (h : PInv c s F R fl) {i : Nat} (hi : s.kval_m < i) : F i = [] := by
  apply List.eq_nil_iff_forall_not_mem.mpr
  intro a ha
  have := (h.part.geom a i (Or.inl ha)).1
  omega

theorem PInv.sepFF (h : PInv c s F R fl) {a i j : Nat} (hi : a ∈ F i) (hj : a ∈ F j) :
    i = j :=
  h.part.addr_unique (Or.inl hi) (Or.inl hj)

theorem PInv.sepFR (h : PInv c s F R fl) (hc : c.ok) {a i k : Nat} (hi : a ∈ F i) :
    (a, k) ∉ R := by
  intro hr
  have h1 := (h.hdF i a hi).1
  have h2 := (h.hdR a k hr).1
  exact hc.1 (h1.symm.trans h2)

theorem PInv.sepFlF (h : PInv c s F R (some (a, k))) {i : Nat} : a ∉ F i := by
  intro hi
  have := h.part.addr_unique (Or.inl hi) (Or.inr (Or.inr rfl) : Live F R (some (a, k)) a k)
  subst this
  exact (h.flx a i rfl).1 hi

theorem PInv.sepFlR (h : PInv c s F R (some (a, k))) {k' : Nat} : (a, k') ∉ R := by
  intro hi
  have := h.part.addr_unique (Or.inr (Or.inl hi))
    (Or.inr (Or.inr rfl) : Live F R (some (a, k)) a k)
  subst this
  exact (h.flx a k' rfl).2 hi

theorem PInv.sepRR (h : PInv c s F R fl) {a k k' : Nat} (h1 : (a, k) ∈ R)
    (h2 : (a, k') ∈ R) : k = k' :=
  h.part.addr_unique (Or.inr (Or.inl h1)) (Or.inr (Or.inl h2))

/-- A live block lies below `2^64`, header included. -/
theorem PInv.live_bound (h : PInv c s F R fl) {a k : Nat} (hl : Live F R fl a k) :
    s.base ≤ a ∧ a + 2 ^ k ≤ WORD ∧ k < 64 := by
  obtain ⟨h1, h2, _, h4⟩ := h.part.geom a k hl
  have := h.bnd
  exact ⟨h2, by omega, by omega⟩

end derived

/-! ### How the ghost lists change -/

theorem upd_same {β : Type} (f : Nat → β) (a : Nat) (v : β) : upd f a v a = v := by simp

theorem upd_other {β : Type} (f : Nat → β) (a : Nat) (v : β) {x : Nat} (h : x ≠ a) :
    upd f a v x = f x := by simp [h]

theorem live_take {F : Nat → List Nat} {R : List (Nat × Nat)} {j a : Nat} {l : List Nat}
    (hF : F j = a :: l) (x i : Nat) :
    Live (upd F j l) R (some (a, j)) x i ↔ Live F R none x i := by
  unfold Live
  by_cases hij : i = j
  · subst hij
    simp only [upd_same, hF, List.mem_cons, Option.some.injEq, Prod.mk.injEq, and_true]
    constructor
    · rintro (h | h | h)
      · exact Or.inl (Or.inr h)
      · exact Or.inr (Or.inl h)
      · exact Or.inl (Or.inl h.symm)
    · rintro (h | h | h)
      · rcases h with h | h
        · exact Or.inr (Or.inr h.symm)
        · exact Or.inl h
      · exact Or.inr (Or.inl h)
      · exact absurd h (by simp)
  · simp only [upd_other _ _ _ hij, Option.some.injEq, Prod.mk.injEq]
    constructor
    · rintro (h | h | h)
      · exact Or.inl h
      · exact Or.inr (Or.inl h)
      · exact absurd h.2.symm hij
    · rintro (h | h | h)
      · exact Or.inl h
      · exact Or.inr (Or.inl h)
      · exact absurd h (by simp)

theorem live_put {F : Nat → List Nat} {R : List (Nat × Nat)} {k a : Nat} (x i : Nat) :
    Live (upd F k (a :: F k)) R none x i ↔ Live F R (some (a, k)) x i := by
  unfold Live
  by_cases hij : i = k
  · subst hij
    simp only [upd_same, List.mem_cons, Option.some.injEq, Prod.mk.injEq, and_true]
    constructor
    · rintro (h | h | h)
      · rcases h with h | h
        · exact Or.inr (Or.inr h.symm)
        · exact Or.inl h
      · exact Or.inr (Or.inl h)
      · exact absurd h (by simp)
    · rintro (h | h | h)
      · exact Or.inl (Or.inr h)
      · exact Or.inr (Or.inl h)
      · exact Or.inl (Or.inl h.symm)
  · simp only [upd_other _ _ _ hij, Option.some.injEq, Prod.mk.injEq]
    constructor
    · rintro (h | h | h)
      · exact Or.inl h
      · exact Or.inr (Or.inl h)
      · exact absurd h (by simp)
    · rintro (h | h | h)
      · exact Or.inl h
      · exact Or.inr (Or.inl h)
      · exact absurd h.2.symm hij

theorem live_reserve {F : Nat → List Nat} {R : List (Nat × Nat)} {k a : Nat} (x i : Nat) :
    Live F ((a, k) :: R) none x i ↔ Live F R (some (a, k)) x i := by
  unfold Live
  simp only [List.mem_cons, Prod.mk.injEq, Option.some.injEq]
  constructor
  · rintro (h | h | h)
    · exact Or.inl h
    · rcases h with h | h
      · exact Or.inr (Or.inr ⟨h.1.symm, h.2.symm⟩)
      · exact Or.inr (Or.inl h)
    · exact absurd h (by simp)
  · rintro (h | h | h)
    · exact Or.inl h
    · exact Or.inr (Or.inl (Or.inr h))
    · exact Or.inr (Or.inl (Or.inl ⟨h.1.symm, h.2.symm⟩))

theorem live_unreserve {F : Nat → List Nat} {R : List (Nat × Nat)} {k a : Nat}
    (hR : (a, k) ∈ R) (x i : Nat) :
    Live F (R.erase (a, k)) (some (a, k)) x i ↔ Live F R none x i := by
  unfold Live
  simp only [Option.some.injEq, Prod.mk.injEq]
  constructor
  · rintro (h | h | h)
    · exact Or.inl h
    · exact Or.inr (Or.inl (List.mem_of_mem_erase h))
    · obtain ⟨rfl, rfl⟩ := h
      exact Or.inr (Or.inl hR)
  · rintro (h | h | h)
    · exact Or.inl h
    · by_cases e : (x, i) = (a, k)
      · simp only [Prod.mk.injEq] at e
        exact Or.inr (Or.inr ⟨e.1.symm, e.2.symm⟩)
      · exact Or.inr (Or.inl ((List.mem_erase_of_ne e).mpr h))
    · exact absurd h (by simp)

/-! ### The free lists under `unlink` and `push_front` -/

theorem rings_unlink {s : State} {F : Nat → List Nat} {m k b : Nat}
    (hr : ∀ i, i ≤ m → free_list s i (F i)) (nd : (F k).Nodup)
    (hsep : ∀ i y, y ∈ F i → y ∈ F k → i = k) (hk : k ≤ m) (hb : b ∈ F k) :
    ∀ i, i ≤ m → free_list (unlink s (Ptr.blk b)) i (upd F k ((F k).erase b) i) := by
  obtain ⟨l1, l2, e⟩ := List.append_of_mem hb
  have hbl1 : b ∉ l1 := by
    rw [e] at nd
    have := (List.nodup_append.mp nd).2.2
    intro hb1
    exact this hb1 (by simp)
  have he : (F k).erase b = l1 ++ l2 := by
    rw [e, List.erase_append_right _ hbl1, List.erase_cons_head]
  have hk' := hr k hk
  rw [e] at hk'
  obtain ⟨hpv, hnx⟩ := Chain.mid l1 _ hk'
  intro i hi
  by_cases hik : i = k
  · subst hik
    rw [upd_same, he]
    exact free_list_unlink hk' (by rw [← e]; exact nd)
  · rw [upd_other _ _ _ hik]
    apply @free_list_frame _ _ _ _ _ (F k) (hr i hi) hik
      (fun y hy hy' => hik (hsep i y hy hy'))
    · intro x hx
      rw [next_unlink] at hx
      by_cases hxp : x = (rd s (Ptr.blk b)).prev
      · rw [hxp, hpv]
        rcases chain_last_cases l1 (Ptr.sent k) with e1 | ⟨y, hy, e1⟩
        · exact Or.inl e1
        · exact Or.inr ⟨y, by rw [e]; simp [hy], e1⟩
      · rw [if_neg hxp] at hx; exact absurd rfl hx
    · intro x hx
      rw [prev_unlink] at hx
      by_cases hxp : x = (rd s (Ptr.blk b)).next
      · rw [hxp, hnx]
        rcases chain_head_cases l2 (Ptr.sent k) with e1 | ⟨y, hy, e1⟩
        · exact Or.inl e1
        · exact Or.inr ⟨y, by rw [e]; simp [hy], e1⟩
      · rw [if_neg hxp] at hx; exact absurd rfl hx

theorem rings_push {s : State} {F : Nat → List Nat} {m k a : Nat}
    (hr : ∀ i, i ≤ m → free_list s i (F i)) (nd : (F k).Nodup)
    (ha : ∀ i, a ∉ F i)
    (hsep : ∀ i y, y ∈ F i → y ∈ F k → i = k) (hk : k ≤ m) :
    ∀ i, i ≤ m → free_list (push_front s k (Ptr.blk a)) i (upd F k (a :: F k) i) := by
  have hb : Ptr.blk a ≠ Ptr.sent k := by simp
  intro i hi
  by_cases hik : i = k
  · subst hik
    rw [upd_same]
    exact free_list_push (hr i hi) nd (ha i)
  · rw [upd_other _ _ _ hik]
    apply @free_list_frame _ _ _ _ _ (a :: F k) (hr i hi) hik
    · intro y hy hy'
      rcases List.mem_cons.mp hy' with e | e
      · subst e; exact ha i hy
      · exact hik (hsep i y hy e)
    · intro x hx
      rw [next_push_front] at hx
      by_cases h1 : x = Ptr.sent k
      · exact Or.inl h1
      · rw [if_neg h1] at hx
        by_cases h2 : x = Ptr.blk a
        · exact Or.inr ⟨a, by simp, h2⟩
        · rw [if_neg h2] at hx; exact absurd rfl hx
    · intro x hx
      rw [prev_push_front _ _ _ _ hb] at hx
      by_cases h1 : x = (rd s (Ptr.sent k)).next
      · rw [h1, (hr k hk).next_head]
        rcases chain_head_cases (F k) (Ptr.sent k) with e1 | ⟨y, hy, e1⟩
        · exact Or.inl e1
        · exact Or.inr ⟨y, by simp [hy], e1⟩
      · rw [if_neg h1] at hx
        by_cases h2 : x = Ptr.blk a
        · exact Or.inr ⟨a, by simp, h2⟩
        · rw [if_neg h2] at hx; exact absurd rfl hx

theorem rings_links {s s' : State} {F : Nat → List Nat} {m : Nat}
    (hn : ∀ x, (rd s' x).next = (rd s x).next) (hp : ∀ x, (rd s' x).prev = (rd s x).prev)
    (hr : ∀ i, i ≤ m → free_list s i (F i)) : ∀ i, i ≤ m → free_list s' i (F i) :=
  fun i hi => Chain.congr _ _ (fun x _ => hn x) (fun x _ => hp x) (hr i hi)

theorem mem_upd_sub {F : Nat → List Nat} {j : Nat} {l : List Nat}
    (hsub : ∀ y, y ∈ l → y ∈ F j) {i y : Nat} (hy : y ∈ upd F j l i) : y ∈ F i := by
  by_cases hij : i = j
  · subst hij; rw [upd_same] at hy; exact hsub y hy
  · rw [upd_other _ _ _ hij] at hy; exact hy

theorem i5_sub {base m : Nat} {F F' : Nat → List Nat}
    (hsub : ∀ i y, y ∈ F' i → y ∈ F i)
    (h : ∀ k a, k < m → a ∈ F k → buddy_addr base a k ∉ F k) :
    ∀ k a, k < m → a ∈ F' k → buddy_addr base a k ∉ F' k :=
  fun k a hk ha hb => h k a hk (hsub k a ha) (hsub k _ hb)

/-! ### The elementary steps of `buddy_malloc` and `buddy_free` -/

section steps
variable {c : Consts} {s : State} {F : Nat → List Nat} {R : List (Nat × Nat)}

/-- Step R2 of `buddy_malloc`: the first block of `avail[j]` is taken off. -/
theorem PInv.take_head (h : PInv c s F R none) (hc : c.ok) {j a : Nat} {l : List Nat}
    (hj : j ≤ s.kval_m) (hF : F j = a :: l) :
    PInv c (unlink s (Ptr.blk a)) (upd F j l) R (some (a, j)) := by
  have haF : a ∈ F j := by rw [hF]; simp
  have hnd : (a :: l).Nodup := by rw [← hF]; exact h.ndF j
  have hsub : ∀ y, y ∈ l → y ∈ F j := fun y hy => by rw [hF]; simp [hy]
  have he : (F j).erase a = l := by rw [hF, List.erase_cons_head]
  refine ⟨by simpa using h.bnd, ?_, ?_, ?_, h.ndR, ?_, ?_, ?_, ?_, ?_⟩
  · intro i hi
    simpa using h.sen i (by simpa using hi)
  · intro i hi
    have := rings_unlink h.ring (h.ndF j) (fun i y hy hy' => h.sepFF hy hy') hj haF i
      (by simpa using hi)
    rwa [he] at this
  · intro i
    by_cases hij : i = j
    · subst hij; rw [upd_same]; exact (List.nodup_cons.mp hnd).2
    · rw [upd_other _ _ _ hij]; exact h.ndF i
  · intro i y hy
    simpa using h.hdF i y (mem_upd_sub hsub hy)
  · intro y k hy
    simpa using h.hdR y k hy
  · simpa using h.part.of_iff (live_take hF)
  · simpa using i5_sub (fun i y hy => mem_upd_sub hsub hy) h.i5
  · intro x i e
    simp only [Option.some.injEq, Prod.mk.injEq] at e
    obtain ⟨rfl, rfl⟩ := e
    rw [upd_same]
    exact ⟨(List.nodup_cons.mp hnd).1, h.sepFR hc haF⟩

/-- The end of `buddy_malloc`: the block in hand is marked reserved. -/
theorem PInv.reserve {a k : Nat} (h : PInv c s F R (some (a, k)))
    (hk : c.SMALLEST_K ≤ k) :
    PInv c (set_kval (set_tag s (Ptr.blk a) c.BLOCK_RESERVED) (Ptr.blk a) k) F
      ((a, k) :: R) none := by
  refine ⟨by simpa using h.bnd, ?_, ?_, h.ndF, ?_, ?_, ?_, ?_, ?_, ?_⟩
  · intro i hi
    simpa using h.sen i (by simpa using hi)
  · intro i hi
    exact rings_links (by simp) (by simp) h.ring i (by simpa using hi)
  · exact List.nodup_cons.mpr ⟨(h.flx a k rfl).2, h.ndR⟩
  · intro i y hy
    have hne : y ≠ a := by rintro rfl; exact h.sepFlF hy
    simpa [hne] using h.hdF i y hy
  · intro y k' hy
    rcases List.mem_cons.mp hy with e | e
    · simp only [Prod.mk.injEq] at e
      obtain ⟨rfl, rfl⟩ := e
      simpa using hk
    · have hne : y ≠ a := by rintro rfl; exact h.sepFlR e
      simpa [hne] using h.hdR y k' e
  · simpa using h.part.of_iff live_reserve
  · simpa using h.i5
  · intro x i e; exact absurd e (by simp)

/-- The start of `buddy_free`: a reserved block is marked available. -/
theorem PInv.unreserve {a k : Nat} (h : PInv c s F R none) (hc : c.ok)
    (hR : (a, k) ∈ R) :
    PInv c (set_tag s (Ptr.blk a) c.BLOCK_AVAIL) F (R.erase (a, k)) (some (a, k)) := by
  refine ⟨by simpa using h.bnd, ?_, ?_, h.ndF, h.ndR.erase _, ?_, ?_, ?_, ?_, ?_⟩
  · intro i hi
    simpa using h.sen i (by simpa using hi)
  · intro i hi
    exact rings_links (by simp) (by simp) h.ring i (by simpa using hi)
  · intro i y hy
    have hne : y ≠ a := by rintro rfl; exact h.sepFR hc hy hR
    simpa [hne] using h.hdF i y hy
  · intro y k' hy
    have hy' := List.mem_of_mem_erase hy
    have hne : y ≠ a := by
      rintro rfl
      have := h.sepRR hy' hR
      subst this
      exact (List.Nodup.mem_erase_iff h.ndR).mp hy |>.1 rfl
    simpa [hne] using h.hdR y k' hy'
  · simpa using h.part.of_iff (live_unreserve hR)
  · simpa using h.i5
  · intro x i e
    simp only [Option.some.injEq, Prod.mk.injEq] at e
    obtain ⟨rfl, rfl⟩ := e
    exact ⟨fun hx => h.sepFR hc hx hR, fun hx => ((List.Nodup.mem_erase_iff h.ndR).mp hx).1 rfl⟩

/-- The end of `buddy_free`: the block in hand goes to the head of
`avail[k]`. -/
theorem PInv.put {a k : Nat} (h : PInv c s F R (some (a, k)))
    (hh : (rd s (Ptr.blk a)).tag = c.BLOCK_AVAIL ∧ (rd s (Ptr.blk a)).kval = k)
    (hbud : k < s.kval_m → buddy_addr s.base a k ∉ F k) :
    PInv c (push_front s k (Ptr.blk a)) (upd F k (a :: F k)) R none := by
  obtain ⟨hkm, hba, hal, _⟩ := h.part.geom a k (Or.inr (Or.inr rfl))
  refine ⟨by simpa using h.bnd, ?_, ?_, ?_, h.ndR, ?_, ?_, ?_, ?_, ?_⟩
  · intro i hi
    simpa using h.sen i (by simpa using hi)
  · intro i hi
    exact rings_push h.ring (h.ndF k) (fun i => h.sepFlF)
      (fun i y hy hy' => h.sepFF hy hy') hkm i (by simpa using hi)
  · intro i
    by_cases hik : i = k
    · subst hik; rw [upd_same]; exact List.nodup_cons.mpr ⟨h.sepFlF, h.ndF i⟩
    · rw [upd_other _ _ _ hik]; exact h.ndF i
  · intro i y hy
    by_cases hik : i = k
    · subst hik
      rw [upd_same] at hy
      rcases List.mem_cons.mp hy with e | e
      · subst e; simpa using hh
      · simpa using h.hdF i y e
    · rw [upd_other _ _ _ hik] at hy
      simpa using h.hdF i y hy
  · intro y k' hy
    simpa using h.hdR y k' hy
  · simpa using h.part.of_iff live_put
  · intro t x ht hx hb
    simp only [push_front_kval_m, push_front_base] at ht hb
    by_cases htk : t = k
    · subst htk
      rw [upd_same] at hx hb
      rcases List.mem_cons.mp hx with e | e
      · subst e
        rcases List.mem_cons.mp hb with e' | e'
        · exact buddy_addr_ne hba hal e'
        · exact hbud ht e'
      · rcases List.mem_cons.mp hb with e' | e'
        · have hbx := (h.part.geom x t (Or.inl e)).2.1
          have := buddy_addr_invol (k := t) hbx
          rw [e'] at this
          have hx' := hbud ht
          rw [this] at hx'
          exact hx' e
        · exact h.i5 t x ht e e'
    · rw [upd_other _ _ _ htk] at hx hb
      exact h.i5 t x ht hx hb
  · intro x i e; exact absurd e (by simp)

end steps

theorem buddy_addr_lower {base a i : Nat} (hb : base ≤ a) (h : 2 ^ (i + 1) ∣ (a - base)) :
    buddy_addr base a i = a + 2 ^ i ∧ buddy_addr base (a + 2 ^ i) i = a := by
  have hk : 2 ^ i ∣ (a - base) := dvd_trans (pow_dvd_pow_two (by omega)) h
  have h1 : buddy_addr base a i = a + 2 ^ i := by
    rcases buddy_addr_cases hb hk with ⟨_, h2⟩ | ⟨h0, h1, h2⟩
    · exact h2
    · exfalso
      have e : a - base = (buddy_addr base a i - base) + 2 ^ i := by omega
      rw [e] at h
      have h3 : 2 ^ (i + 1) ∣ 2 ^ i := (Nat.dvd_add_right h1).mp h
      have := Nat.le_of_dvd (pow2_pos i) h3
      have : 2 ^ (i + 1) = 2 * 2 ^ i := by rw [pow_succ]; ring
      have := pow2_pos i
      omega
  refine ⟨h1, ?_⟩
  rw [← h1]; exact buddy_addr_invol hb

theorem live_split {F : Nat → List Nat} {R : List (Nat × Nat)} {a i b : Nat}
    (hF : a ∉ F (i + 1)) (hR : (a, i + 1) ∉ R) (x t : Nat) :
    Live (upd F i (b :: F i)) R (some (a, i)) x t ↔
      ((Live F R (some (a, i + 1)) x t ∧ ¬ (x = a ∧ t = i + 1)) ∨ (x = a ∧ t = i) ∨
        (x = b ∧ t = i)) := by
  unfold Live
  simp only [Option.some.injEq, Prod.mk.injEq]
  constructor
  · rintro (h | h | h)
    · by_cases hti : t = i
      · subst hti
        rw [upd_same] at h
        rcases List.mem_cons.mp h with e | e
        · exact Or.inr (Or.inr ⟨e, rfl⟩)
        · exact Or.inl ⟨Or.inl e, by omega⟩
      · rw [upd_other _ _ _ hti] at h
        refine Or.inl ⟨Or.inl h, ?_⟩
        rintro ⟨rfl, rfl⟩; exact hF h
    · refine Or.inl ⟨Or.inr (Or.inl h), ?_⟩
      rintro ⟨rfl, rfl⟩; exact hR h
    · exact Or.inr (Or.inl ⟨h.1.symm, h.2.symm⟩)
  · rintro (⟨h, hn⟩ | ⟨rfl, rfl⟩ | ⟨rfl, rfl⟩)
    · rcases h with h | h | h
      · left
        by_cases hti : t = i
        · subst hti; rw [upd_same]; exact List.mem_cons_of_mem _ h
        · rw [upd_other _ _ _ hti]; exact h
      · exact Or.inr (Or.inl h)
      · exact absurd ⟨h.1.symm, h.2.symm⟩ hn
    · exact Or.inr (Or.inr ⟨rfl, rfl⟩)
    · left; rw [upd_same]; simp

theorem live_merge {F : Nat → List Nat} {R : List (Nat × Nat)} {a b k lo : Nat}
    (nd : (F k).Nodup) (haF : a ∉ F k) (haR : (a, k) ∉ R) (hbR : (b, k) ∉ R)
    (hlo1 : lo ∉ F (k + 1)) (hpair : (lo = a ∧ lo + 2 ^ k = b) ∨ (lo = b ∧ lo + 2 ^ k = a))
    (x t : Nat) :
    Live (upd F k ((F k).erase b)) R (some (lo, k + 1)) x t ↔
      ((Live F R (some (a, k)) x t ∧ ¬ (x = lo ∧ t = k) ∧ ¬ (x = lo + 2 ^ k ∧ t = k)) ∨
        (x = lo ∧ t = k + 1)) := by
  have hnot : ∀ y, (y, k) ∉ R ∨ True := fun _ => Or.inr trivial
  have key : ∀ y, (¬ (y = lo ∧ t = k) ∧ ¬ (y = lo + 2 ^ k ∧ t = k)) ↔
      (¬ (y = a ∧ t = k) ∧ ¬ (y = b ∧ t = k)) := by
    intro y
    rcases hpair with ⟨e1, e2⟩ | ⟨e1, e2⟩
    · rw [e2, e1]
    · rw [e2, e1]; exact and_comm
  rw [key]
  unfold Live
  simp only [Option.some.injEq, Prod.mk.injEq]
  constructor
  · rintro (h | h | h)
    · by_cases htk : t = k
      · subst htk
        rw [upd_same] at h
        have h' := (List.Nodup.mem_erase_iff nd).mp h
        refine Or.inl ⟨Or.inl h'.2, ?_, ?_⟩
        · rintro ⟨rfl, _⟩; exact haF h'.2
        · rintro ⟨rfl, _⟩; exact h'.1 rfl
      · rw [upd_other _ _ _ htk] at h
        exact Or.inl ⟨Or.inl h, fun e => htk e.2, fun e => htk e.2⟩
    · refine Or.inl ⟨Or.inr (Or.inl h), ?_, ?_⟩
      · rintro ⟨rfl, rfl⟩; exact haR h
      · rintro ⟨rfl, rfl⟩; exact hbR h
    · exact Or.inr ⟨h.1.symm, h.2.symm⟩
  · rintro (⟨h, hn1, hn2⟩ | ⟨rfl, rfl⟩)
    · rcases h with h | h | h
      · left
        by_cases htk : t = k
        · subst htk
          rw [upd_same]
          exact (List.Nodup.mem_erase_iff nd).mpr ⟨fun e => hn2 ⟨e, rfl⟩, h⟩
        · rw [upd_other _ _ _ htk]; exact h
      · exact Or.inr (Or.inl h)
      · exact absurd ⟨h.1.symm, h.2.symm⟩ hn1
    · exact Or.inr (Or.inr ⟨rfl, rfl⟩)

section steps
variable {c : Consts} {s : State} {F : Nat → List Nat} {R : List (Nat × Nat)}

/-- One round of the split loop of `buddy_malloc`: the block in hand is
halved and its upper half goes to the head of `avail[i]`. -/
theorem PInv.split_step {a i : Nat} (h : PInv c s F R (some (a, i + 1))) :
    PInv c (push_front (set_tag (set_kval s (Ptr.blk (a + 2 ^ i)) i) (Ptr.blk (a + 2 ^ i))
      c.BLOCK_AVAIL) i (Ptr.blk (a + 2 ^ i))) (upd F i ((a + 2 ^ i) :: F i)) R
      (some (a, i)) := by
  have hl : Live F R (some (a, i + 1)) a (i + 1) := Or.inr (Or.inr rfl)
  obtain ⟨hkm, hba, hal, hfit⟩ := h.part.geom a (i + 1) hl
  have hpi := pow2_pos i
  have hp1 : 2 ^ (i + 1) = 2 * 2 ^ i := by rw [pow_succ]; ring
  have hnl : ∀ k', ¬ Live F R (some (a, i + 1)) (a + 2 ^ i) k' := by
    intro k' hl'
    have := pow2_pos k'
    rcases h.part.disj _ _ _ _ hl' hl (Or.inl (by omega)) with h1 | h1 <;> omega
  have hbF : ∀ t, a + 2 ^ i ∉ F t := fun t ht => hnl t (Or.inl ht)
  have hbR : ∀ t, (a + 2 ^ i, t) ∉ R := fun t ht => hnl t (Or.inr (Or.inl ht))
  have haF : ∀ t, a ∉ F t := fun t => h.sepFlF
  have hbud := buddy_addr_lower hba hal
  refine ⟨by simpa using h.bnd, ?_, ?_, ?_, h.ndR, ?_, ?_, ?_, ?_, ?_⟩
  · intro t ht
    simpa using h.sen t (by simpa using ht)
  · intro t ht
    apply rings_push (m := s.kval_m) _ (h.ndF i) hbF (fun i y hy hy' => h.sepFF hy hy')
      (by omega) t (by simpa using ht)
    exact rings_links (by simp) (by simp) h.ring
  · intro t
    by_cases hti : t = i
    · subst hti; rw [upd_same]; exact List.nodup_cons.mpr ⟨hbF t, h.ndF t⟩
    · rw [upd_other _ _ _ hti]; exact h.ndF t
  · intro t y hy
    by_cases hti : t = i
    · subst hti
      rw [upd_same] at hy
      rcases List.mem_cons.mp hy with e | e
      · subst e; simp
      · have hne : y ≠ a + 2 ^ t := by rintro rfl; exact hbF t e
        simpa [hne] using h.hdF t y e
    · rw [upd_other _ _ _ hti] at hy
      have hne : y ≠ a + 2 ^ i := by rintro rfl; exact hbF t hy
      simpa [hne] using h.hdF t y hy
  · intro y k' hy
    have hne : y ≠ a + 2 ^ i := by rintro rfl; exact hbR k' hy
    simpa [hne] using h.hdR y k' hy
  · have := (h.part.split hl).of_iff (live_split (haF (i + 1)) h.sepFlR)
    simpa using this
  · intro t x ht hx hb
    simp only [push_front_kval_m, push_front_base, set_tag_kval_m, set_tag_base,
      set_kval_kval_m, set_kval_base] at ht hb
    by_cases hti : t = i
    · subst hti
      rw [upd_same] at hx hb
      rcases List.mem_cons.mp hx with e | e
      · subst e
        rw [hbud.2] at hb
        rcases List.mem_cons.mp hb with e' | e'
        · omega
        · exact haF t e'
      · rcases List.mem_cons.mp hb with e' | e'
        · have hbx := (h.part.geom x t (Or.inl e)).2.1
          have := buddy_addr_invol (k := t) hbx
          rw [e', hbud.2] at this
          rw [← this] at e
          exact haF t e
        · exact h.i5 t x ht e e'
    · rw [upd_other _ _ _ hti] at hx hb
      exact h.i5 t x ht hx hb
  · intro x t e
    simp only [Option.some.injEq, Prod.mk.injEq] at e
    obtain ⟨rfl, rfl⟩ := e
    rw [upd_same]
    refine ⟨?_, h.sepFlR⟩
    intro hx
    rcases List.mem_cons.mp hx with e | e
    · omega
    · exact haF i e

/-- The split loop of `buddy_malloc`. -/
theorem split_loop_inv {a kval : Nat} :
    ∀ (j : Nat) (s : State) (F : Nat → List Nat), kval ≤ j → PInv c s F R (some (a, j)) →
      ∃ F', PInv c (split_loop c (Ptr.blk a) kval j s) F' R (some (a, kval)) ∧
        ∀ t, F' t = if kval ≤ t ∧ t < j then (a + 2 ^ t) :: F t else F t := by
  intro j
  induction j with
  | zero =>
    intro s F hk h
    have : kval = 0 := by omega
    subst this
    exact ⟨F, h, by intro t; simp⟩
  | succ j ih =>
    intro s F hk h
    rw [split_loop]
    by_cases hj : j + 1 > kval
    · rw [if_pos hj]
      obtain ⟨_, hfit, hj64⟩ := h.live_bound (Or.inr (Or.inr rfl) : Live F R _ a (j + 1))
      have hp1 : 2 ^ (j + 1) = 2 * 2 ^ j := by rw [pow_succ]; ring
      have hpj := pow2_pos j
      have e1 : (addr s (Ptr.blk a) + 2 ^ j % WORD) % WORD = a + 2 ^ j := by
        simp only [addr]
        rw [Nat.mod_eq_of_lt (a := 2 ^ j) (by omega), Nat.mod_eq_of_lt (by omega)]
      simp only [e1]
      obtain ⟨F', hF', hdesc⟩ := ih _ _ (by omega) h.split_step
      refine ⟨F', hF', ?_⟩
      intro t
      rw [hdesc t]
      by_cases htj : t = j
      · subst htj
        simp [show ¬ (kval ≤ t ∧ t < t) by omega, show kval ≤ t ∧ t < t + 1 by omega]
      · rw [upd_other _ _ _ htj]
        by_cases hc1 : kval ≤ t ∧ t < j
        · rw [if_pos hc1, if_pos (by omega)]
        · rw [if_neg hc1, if_neg (by omega)]
    · rw [if_neg hj]
      have : kval = j + 1 := by omega
      subst this
      exact ⟨F, h, by intro t; rw [if_neg (by omega)]⟩

/-- Under the invariant `buddy_calc` computes the buddy address. -/
theorem PInv.buddy_calc_eq {fl : Option (Nat × Nat)} (h : PInv c s F R fl) {a k : Nat}
    (hl : Live F R fl a k) (hkv : (rd s (Ptr.blk a)).kval = k) (hk : k < s.kval_m) :
    buddy_calc s (Ptr.blk a) = Ptr.blk (buddy_addr s.base a k) := by
  obtain ⟨k', _, hl'⟩ := h.part.buddy_live hl hk
  obtain ⟨hb1, hb2, _⟩ := h.live_bound hl'
  obtain ⟨ha1, ha2, hk64⟩ := h.live_bound hl
  have hpk := pow2_pos k
  have hpk' := pow2_pos k'
  have hW : (2 : Nat) ^ k < WORD := by
    unfold WORD; exact Nat.pow_lt_pow_right (by norm_num) hk64
  unfold buddy_calc
  simp only [hkv, addr]
  have e0 : s.base % WORD = s.base := Nat.mod_eq_of_lt (by omega)
  have e1 : (a + WORD - s.base % WORD) % WORD = a - s.base := by
    rw [e0]
    have : a + WORD - s.base = (a - s.base) + WORD := by omega
    rw [this, Nat.add_mod_right]
    exact Nat.mod_eq_of_lt (by omega)
  have e2 : 2 ^ k % WORD = 2 ^ k := Nat.mod_eq_of_lt hW
  rw [e1, e2]
  unfold buddy_addr at hb2 ⊢
  rw [Nat.mod_eq_of_lt (by omega)]

/-- One round of the coalescing loop of `buddy_free`: the buddy is free, it is
unlinked and merged with the block in hand. -/
theorem PInv.merge_step {a k : Nat} (h : PInv c s F R (some (a, k))) (hc : c.ok)
    (hb : buddy_addr s.base a k ∈ F k)
    (hh : (rd s (Ptr.blk a)).tag = c.BLOCK_AVAIL) :
    let b := buddy_addr s.base a k
    let lo := if b < a then b else a
    PInv c (set_kval (unlink s (Ptr.blk b)) (Ptr.blk lo) (k + 1))
        (upd F k ((F k).erase b)) R (some (lo, k + 1)) ∧
      (rd (set_kval (unlink s (Ptr.blk b)) (Ptr.blk lo) (k + 1)) (Ptr.blk lo)).tag =
        c.BLOCK_AVAIL ∧
      (rd (set_kval (unlink s (Ptr.blk b)) (Ptr.blk lo) (k + 1)) (Ptr.blk lo)).kval = k + 1 := by
  intro b lo
  have hla : Live F R (some (a, k)) a k := Or.inr (Or.inr rfl)
  have hlb : Live F R (some (a, k)) b k := Or.inl hb
  obtain ⟨hkm, hba, hal, hfit⟩ := h.part.geom a k hla
  have hpk := pow2_pos k
  have hp1 : 2 ^ (k + 1) = 2 * 2 ^ k := by rw [pow_succ]; ring
  have hpair : (lo = a ∧ lo + 2 ^ k = b) ∨ (lo = b ∧ lo + 2 ^ k = a) := by
    rcases buddy_addr_cases hba hal with ⟨_, h2⟩ | ⟨_, _, h2⟩
    · left
      have : ¬ b < a := by show ¬ buddy_addr s.base a k < a; omega
      simp only [lo, if_neg this, true_and]
      exact h2.symm
    · right
      have : b < a := by show buddy_addr s.base a k < a; omega
      simp only [lo, if_pos this, true_and]
      exact h2.symm
  have hloal : s.base ≤ lo ∧ 2 ^ (k + 1) ∣ (lo - s.base) := by
    rcases buddy_addr_cases hba hal with ⟨h1, h2⟩ | ⟨h0, h1, h2⟩
    · have : ¬ b < a := by show ¬ buddy_addr s.base a k < a; omega
      simp only [lo, if_neg this]
      exact ⟨hba, h1⟩
    · have : b < a := by show buddy_addr s.base a k < a; omega
      simp only [lo, if_pos this]
      exact ⟨h0, h1⟩
  have hlo_live : Live F R (some (a, k)) lo k ∧ Live F R (some (a, k)) (lo + 2 ^ k) k := by
    rcases hpair with ⟨e1, e2⟩ | ⟨e1, e2⟩
    · rw [e2, e1]; exact ⟨hla, hlb⟩
    · rw [e2, e1]; exact ⟨hlb, hla⟩
  have haF : ∀ t, a ∉ F t := fun t => h.sepFlF
  have haR : ∀ t, (a, t) ∉ R := fun t => h.sepFlR
  have hbR : ∀ t, (b, t) ∉ R := fun t => h.sepFR hc hb
  have hlo1 : lo ∉ F (k + 1) := by
    intro hx
    have := h.part.addr_unique (Or.inl hx) hlo_live.1
    omega
  have hsub : ∀ y, y ∈ (F k).erase b → y ∈ F k := fun y hy => List.mem_of_mem_erase hy
  have hne_lo : ∀ t y, y ∈ upd F k ((F k).erase b) t → y ≠ lo := by
    intro t y hy e
    subst e
    rcases hpair with ⟨e1, _⟩ | ⟨e1, _⟩
    · rw [e1] at hy; exact haF t (mem_upd_sub hsub hy)
    · by_cases htk : t = k
      · subst htk
        rw [upd_same] at hy
        exact ((List.Nodup.mem_erase_iff (h.ndF t)).mp hy).1 e1
      · rw [upd_other _ _ _ htk] at hy
        rw [e1] at hy
        exact htk (h.sepFF hy hb)
  have hloR : ∀ t, (lo, t) ∉ R := by
    intro t
    rcases hpair with ⟨e1, _⟩ | ⟨e1, _⟩
    · rw [e1]; exact haR t
    · rw [e1]; exact hbR t
  refine ⟨⟨by simpa using h.bnd, ?_, ?_, ?_, h.ndR, ?_, ?_, ?_, ?_, ?_⟩, ?_, by simp⟩
  · intro t ht
    simpa using h.sen t (by simpa using ht)
  · intro t ht
    apply rings_links (s := unlink s (Ptr.blk b)) (by simp) (by simp) _ t (by simpa using ht)
    intro t ht
    have := rings_unlink h.ring (h.ndF k) (fun i y hy hy' => h.sepFF hy hy') hkm hb t
      (by simpa using ht)
    simpa using this
  · intro t
    by_cases htk : t = k
    · subst htk; rw [upd_same]; exact (h.ndF t).erase _
    · rw [upd_other _ _ _ htk]; exact h.ndF t
  · intro t y hy
    have hne := hne_lo t y hy
    simpa [hne] using h.hdF t y (mem_upd_sub hsub hy)
  · intro y k' hy
    have hne : y ≠ lo := by rintro rfl; exact hloR k' hy
    simpa [hne] using h.hdR y k' hy
  · have hm := h.part.merge hlo_live.1 hlo_live.2 hloal.2
    have := hm.of_iff (live_merge (h.ndF k) (haF k) (haR k) (hbR k) hlo1 hpair)
    simpa using this
  · have := @i5_sub s.base s.kval_m F (upd F k ((F k).erase b))
      (fun i y hy => mem_upd_sub hsub hy) h.i5
    simpa using this
  · intro x t e
    simp only [Option.some.injEq, Prod.mk.injEq] at e
    obtain ⟨rfl, rfl⟩ := e
    rw [upd_other _ _ _ (by omega)]
    exact ⟨hlo1, hloR _⟩
  · simp only [tag_set_kval, tag_unlink]
    rcases hpair with ⟨e1, _⟩ | ⟨e1, _⟩
    · rw [e1]; exact hh
    · rw [e1]; exact (h.hdF k b hb).1

end steps

section loops
variable {c : Consts} {R : List (Nat × Nat)}

theorem rd_errno (s : State) (e : Nat) (x : Ptr) : rd { s with errno := e } x = rd s x := by
  cases x <;> rfl

theorem PInv.errno {s : State} {F : Nat → List Nat} {fl : Option (Nat × Nat)}
    (h : PInv c s F R fl) (e : Nat) : PInv c { s with errno := e } F R fl :=
  ⟨h.bnd, h.sen,
    fun i hi => @Chain.congr s { s with errno := e } _ _ _
      (fun x _ => by rw [rd_errno]) (fun x _ => by rw [rd_errno]) (h.ring i hi),
    h.ndF, h.ndR, h.hdF, h.hdR, h.part, h.i5, h.flx⟩

/-- The coalescing loop of `buddy_free`. -/
theorem coalesce_inv (hc : c.ok) :
    ∀ (n : Nat) (s : State) (F : Nat → List Nat) (a k : Nat), n = s.kval_m - k →
      PInv c s F R (some (a, k)) →
      (rd s (Ptr.blk a)).tag = c.BLOCK_AVAIL ∧ (rd s (Ptr.blk a)).kval = k →
      ∃ F' a' k', (coalesce c n s (Ptr.blk a) k).2.1 = Ptr.blk a' ∧
        (coalesce c n s (Ptr.blk a) k).2.2 = k' ∧
        PInv c (coalesce c n s (Ptr.blk a) k).1 F' R (some (a', k')) ∧
        ((rd (coalesce c n s (Ptr.blk a) k).1 (Ptr.blk a')).tag = c.BLOCK_AVAIL ∧
          (rd (coalesce c n s (Ptr.blk a) k).1 (Ptr.blk a')).kval = k') ∧
        (k' < (coalesce c n s (Ptr.blk a) k).1.kval_m →
          buddy_addr (coalesce c n s (Ptr.blk a) k).1.base a' k' ∉ F' k') := by
  intro n
  induction n with
  | zero =>
    intro s F a k hn h hh
    refine ⟨F, a, k, rfl, rfl, h, hh, ?_⟩
    intro hk
    simp only [coalesce] at hk
    omega
  | succ n ih =>
    intro s F a k hn h hh
    have hk : k < s.kval_m := by omega
    have hla : Live F R (some (a, k)) a k := Or.inr (Or.inr rfl)
    have hbc := h.buddy_calc_eq hla hh.2 hk
    obtain ⟨hkm, hba, hal, _⟩ := h.part.geom a k hla
    rw [coalesce]
    simp only [hbc]
    by_cases hcond : (rd s (Ptr.blk (buddy_addr s.base a k))).tag ≠ c.BLOCK_AVAIL ∨
        (rd s (Ptr.blk (buddy_addr s.base a k))).kval ≠ k
    · rw [if_pos hcond]
      refine ⟨F, a, k, rfl, rfl, h, hh, ?_⟩
      intro _ hb
      have := h.hdF k _ hb
      rcases hcond with h1 | h1
      · exact h1 this.1
      · exact h1 this.2
    · rw [if_neg hcond]
      push_neg at hcond
      have hb : buddy_addr s.base a k ∈ F k := by
        obtain ⟨k', hk', hl'⟩ := h.part.buddy_live hla hk
        rcases hl' with h1 | h1 | h1
        · have := (h.hdF k' _ h1).2
          rw [hcond.2] at this
          rw [← this] at h1; exact h1
        · have := (h.hdR _ _ h1).1
          rw [hcond.1] at this
          exact absurd this hc.1
        · simp only [Option.some.injEq, Prod.mk.injEq] at h1
          exact absurd h1.1.symm (buddy_addr_ne hba hal)
      obtain ⟨hP, ht, hkv⟩ := h.merge_step hc hb hh.1
      have hlo : (if addr s (Ptr.blk (buddy_addr s.base a k)) < addr s (Ptr.blk a) then
          Ptr.blk (buddy_addr s.base a k) else Ptr.blk a) =
          Ptr.blk (if buddy_addr s.base a k < a then buddy_addr s.base a k else a) := by
        simp only [addr]; split <;> rfl
      rw [hlo]
      have := ih _ _ _ (k + 1) (by simp; omega) hP ⟨ht, hkv⟩
      exact this

/-- The search loop of `buddy_malloc` returns the first non-empty list at or
above the level it starts from. -/
theorem find_block_spec {s : State} {F : Nat → List Nat}
    (hr : ∀ i, i ≤ s.kval_m → free_list s i (F i)) :
    ∀ (n j : Nat), n = s.kval_m + 1 - j →
      (∃ a l, j ≤ (find_block s n j).1 ∧ (find_block s n j).1 ≤ s.kval_m ∧
        F (find_block s n j).1 = a :: l ∧ (find_block s n j).2 = Ptr.blk a ∧
        ∀ t, j ≤ t → t < (find_block s n j).1 → F t = []) ∨
      (s.kval_m < (find_block s n j).1 ∧ (find_block s n j).2 = NULL ∧
        ∀ t, j ≤ t → t ≤ s.kval_m → F t = []) := by
  intro n
  induction n with
  | zero =>
    intro j hn
    right
    refine ⟨?_, rfl, ?_⟩
    · show s.kval_m < j
      omega
    · intro t h1 h2; omega
  | succ n ih =>
    intro j hn
    have hj : j ≤ s.kval_m := by omega
    have hnx := (hr j hj).next_head
    rw [← avail_eq_rd] at hnx
    rw [find_block]
    cases hF : F j with
    | nil =>
      rw [hF] at hnx
      simp only [chain_head] at hnx
      rw [if_neg (by simp [hnx])]
      rcases ih (j + 1) (by omega) with ⟨a, l, h1, h2, h3, h4, h5⟩ | ⟨h1, h2, h3⟩
      · left
        refine ⟨a, l, by omega, h2, h3, h4, ?_⟩
        intro t ht1 ht2
        by_cases e : t = j
        · rw [e]; exact hF
        · exact h5 t (by omega) ht2
      · right
        refine ⟨h1, h2, ?_⟩
        intro t ht1 ht2
        by_cases e : t = j
        · rw [e]; exact hF
        · exact h3 t (by omega) ht2
    | cons a l =>
      rw [hF] at hnx
      simp only [chain_head] at hnx
      rw [if_pos (by simp [hnx])]
      left
      exact ⟨a, l, le_refl _, hj, hF, hnx, by intro t h1 h2; simp at h2; omega⟩

end loops

/-! ### What the calls leave alone -/

theorem split_loop_frame (c : Consts) (block : Ptr) (kval : Nat) :
    ∀ (j : Nat) (s : State),
      (split_loop c block kval j s).kval_m = s.kval_m ∧
      (split_loop c block kval j s).base = s.base := by
  intro j
  induction j with
  | zero => intro s; exact ⟨rfl, rfl⟩
  | succ j ih =>
    intro s
    rw [split_loop]
    split
    · obtain ⟨h1, h2⟩ := ih (push_front (set_tag (set_kval s
          (Ptr.blk ((addr s block + 2 ^ j % WORD) % WORD)) j)
          (Ptr.blk ((addr s block + 2 ^ j % WORD) % WORD)) c.BLOCK_AVAIL) j
          (Ptr.blk ((addr s block + 2 ^ j % WORD) % WORD)))
      rw [h1, h2]; simp
    · exact ⟨rfl, rfl⟩

theorem coalesce_frame (c : Consts) :
    ∀ (n : Nat) (s : State) (block : Ptr) (kval : Nat),
      (coalesce c n s block kval).1.kval_m = s.kval_m ∧
      (coalesce c n s block kval).1.base = s.base := by
  intro n
  induction n with
  | zero => intro s block kval; exact ⟨rfl, rfl⟩
  | succ n ih =>
    intro s block kval
    rw [coalesce]
    split
    · exact ⟨rfl, rfl⟩
    · obtain ⟨h1, h2⟩ := ih (set_kval (unlink s (buddy_calc s block))
        (if addr s (buddy_calc s block) < addr s block then buddy_calc s block else block)
        (kval + 1))
        (if addr s (buddy_calc s block) < addr s block then buddy_calc s block else block)
        (kval + 1)
      rw [h1, h2]; simp

/-- A call of `buddy_malloc` does not change `kval_m` and `base`. -/
theorem malloc_frame {c : Consts} {fuel : Nat} {pn : Bool} {s s' : State} {size p : Nat}
    (hm : buddy_malloc c fuel pn s size = some (p, s')) :
    s'.kval_m = s.kval_m ∧ s'.base = s.base := by
  unfold buddy_malloc at hm
  by_cases h1 : pn = true ∨ size = 0
  · rw [if_pos h1] at hm
    simp only [Option.some.injEq, Prod.mk.injEq] at hm
    rw [← hm.2]; exact ⟨rfl, rfl⟩
  · rw [if_neg h1] at hm
    cases hbt : btok fuel ((size + c.header_size) % WORD) with
    | none => simp [hbt] at hm
    | some k0 =>
      simp only [hbt] at hm
      generalize (if k0 < c.SMALLEST_K then c.SMALLEST_K else k0) = K at hm
      generalize find_block s (s.kval_m + 1 - K) K = jb at hm
      by_cases h2 : jb.1 > s.kval_m ∨ jb.2 = NULL
      · rw [if_pos h2] at hm
        simp only [Option.some.injEq, Prod.mk.injEq] at hm
        rw [← hm.2]; exact ⟨rfl, rfl⟩
      · rw [if_neg h2] at hm
        simp only [Option.some.injEq, Prod.mk.injEq] at hm
        rw [← hm.2]
        simp only [set_kval_kval_m, set_tag_kval_m, set_kval_base, set_tag_base]
        obtain ⟨e1, e2⟩ := split_loop_frame c jb.2 K jb.1 (unlink s jb.2)
        rw [e1, e2]; simp

/-- A call of `buddy_free` does not change `kval_m` and `base`. -/
theorem free_frame (c : Consts) (pn : Bool) (s : State) (p : Nat) :
    (buddy_free c pn s p).kval_m = s.kval_m ∧ (buddy_free c pn s p).base = s.base := by
  unfold buddy_free
  by_cases h1 : pn = true ∨ p = 0
  · rw [if_pos h1]; exact ⟨rfl, rfl⟩
  · rw [if_neg h1]
    by_cases h2 : (rd s (Ptr.blk ((p + WORD - c.header_size % WORD) % WORD))).tag ≠
        c.BLOCK_RESERVED
    · rw [if_pos h2]; exact ⟨rfl, rfl⟩
    · rw [if_neg h2]
      simp only [push_front_kval_m, push_front_base]
      obtain ⟨e1, e2⟩ := coalesce_frame c
        ((set_tag s (Ptr.blk ((p + WORD - c.header_size % WORD) % WORD)) c.BLOCK_AVAIL).kval_m -
          (rd s (Ptr.blk ((p + WORD - c.header_size % WORD) % WORD))).kval)
        (set_tag s (Ptr.blk ((p + WORD - c.header_size % WORD) % WORD)) c.BLOCK_AVAIL)
        (Ptr.blk ((p + WORD - c.header_size % WORD) % WORD))
        (rd s (Ptr.blk ((p + WORD - c.header_size % WORD) % WORD))).kval
      rw [e1, e2]; simp

/-! ### Which tags the calls touch -/

theorem split_loop_tag (c : Consts) (block : Ptr) (kval : Nat) :
    ∀ (j : Nat) (s : State) (x : Ptr),
      (rd (split_loop c block kval j s) x).tag = (rd s x).tag ∨
      (rd (split_loop c block kval j s) x).tag = c.BLOCK_AVAIL := by
  intro j
  induction j with
  | zero => intro s x; exact Or.inl rfl
  | succ j ih =>
    intro s x
    rw [split_loop]
    split
    · rcases ih (push_front (set_tag (set_kval s
          (Ptr.blk ((addr s block + 2 ^ j % WORD) % WORD)) j)
          (Ptr.blk ((addr s block + 2 ^ j % WORD) % WORD)) c.BLOCK_AVAIL) j
          (Ptr.blk ((addr s block + 2 ^ j % WORD) % WORD))) x with h | h
      · rw [h]
        simp only [tag_push_front, tag_set_tag, tag_set_kval]
        split
        · exact Or.inr rfl
        · exact Or.inl rfl
      · exact Or.inr h
    · exact Or.inl rfl

theorem coalesce_tag (c : Consts) :
    ∀ (n : Nat) (s : State) (block : Ptr) (kval : Nat) (x : Ptr),
      (rd (coalesce c n s block kval).1 x).tag = (rd s x).tag := by
  intro n
  induction n with
  | zero => intro s block kval x; rfl
  | succ n ih =>
    intro s block kval x
    rw [coalesce]
    split
    · rfl
    · rw [ih]; simp

/-- A call of `buddy_free` changes no tag, except to `BLOCK_AVAIL`. -/
theorem free_tag (c : Consts) (pn : Bool) (s : State) (p : Nat) (x : Ptr) :
    (rd (buddy_free c pn s p) x).tag = (rd s x).tag ∨
    (rd (buddy_free c pn s p) x).tag = c.BLOCK_AVAIL := by
  unfold buddy_free
  by_cases h1 : pn = true ∨ p = 0
  · rw [if_pos h1]; exact Or.inl rfl
  · rw [if_neg h1]
    by_cases h2 : (rd s (Ptr.blk ((p + WORD - c.header_size % WORD) % WORD))).tag ≠
        c.BLOCK_RESERVED
    · rw [if_pos h2]; exact Or.inl rfl
    · rw [if_neg h2]
      simp only [tag_push_front, coalesce_tag, tag_set_tag]
      split
      · exact Or.inr rfl
      · exact Or.inl rfl

section calls
variable {c : Consts} {s : State} {F : Nat → List Nat} {R : List (Nat × Nat)}

/-- What a call of `buddy_malloc` does to a pool that satisfies the
invariant. -/
theorem malloc_inv (hc : c.ok) (h : PInv c s F R none) {fuel size p : Nat} {s' : State}
    (hsz : 0 < size)
    (hm : buddy_malloc c fuel false s size = some (p, s')) :
    ∃ k0, btok fuel ((size + c.header_size) % WORD) = some k0 ∧
      ((p = 0 ∧ s' = { s with errno := c.ENOMEM } ∧
          ∀ t, max k0 c.SMALLEST_K ≤ t → t ≤ s.kval_m → F t = []) ∨
       (∃ a j l F', p = a + c.header_size ∧ p ≠ 0 ∧ p < WORD ∧
          max k0 c.SMALLEST_K ≤ j ∧ j ≤ s.kval_m ∧ F j = a :: l ∧
          (∀ t, max k0 c.SMALLEST_K ≤ t → t < j → F t = []) ∧
          (∀ t, F' t = if max k0 c.SMALLEST_K ≤ t ∧ t < j then (a + 2 ^ t) :: upd F j l t
            else upd F j l t) ∧
          (∀ x, x ≠ a → (rd s' (Ptr.blk x)).tag = (rd s (Ptr.blk x)).tag ∨
            (rd s' (Ptr.blk x)).tag = c.BLOCK_AVAIL) ∧
          PInv c s' F' ((a, max k0 c.SMALLEST_K) :: R) none)) := by
  unfold buddy_malloc at hm
  rw [if_neg (by simp; omega)] at hm
  cases hbt : btok fuel ((size + c.header_size) % WORD) with
  | none => simp [hbt] at hm
  | some k0 =>
    refine ⟨k0, rfl, ?_⟩
    simp only [hbt] at hm
    have hkv : (if k0 < c.SMALLEST_K then c.SMALLEST_K else k0) = max k0 c.SMALLEST_K := by
      split <;> omega
    rw [hkv] at hm
    rcases find_block_spec h.ring (s.kval_m + 1 - max k0 c.SMALLEST_K) (max k0 c.SMALLEST_K) rfl
      with ⟨a, l, h1, h2, h3, h4, h5⟩ | ⟨h1, h2, h3⟩
    · right
      have hla : Live F R none a _ := Or.inl (by rw [h3]; simp : a ∈ F _)
      obtain ⟨hba, _, _⟩ := h.live_bound hla
      have hbpos := h.bnd.2.1
      have hnn : ¬ ((find_block s (s.kval_m + 1 - max k0 c.SMALLEST_K)
          (max k0 c.SMALLEST_K)).1 > s.kval_m ∨
          (find_block s (s.kval_m + 1 - max k0 c.SMALLEST_K) (max k0 c.SMALLEST_K)).2 = NULL) := by
        rw [h4]
        simp only [NULL, Ptr.blk.injEq]
        omega
      rw [if_neg hnn] at hm
      simp only [Option.some.injEq, Prod.mk.injEq] at hm
      obtain ⟨hp, hs'⟩ := hm
      rw [h4] at hp hs'
      have hP1 := h.take_head hc h2 h3
      obtain ⟨F', hP2, hdesc⟩ := split_loop_inv (c := c) _ _ _ h1 hP1
      have hP3 := hP2.reserve (le_max_right _ _)
      rw [hs'] at hP3
      obtain ⟨_, hfit, _⟩ := hP3.live_bound (Or.inr (Or.inl (by simp)) :
        Live F' ((a, max k0 c.SMALLEST_K) :: R) none a (max k0 c.SMALLEST_K))
      have hle : 2 ^ c.SMALLEST_K ≤ 2 ^ (max k0 c.SMALLEST_K) :=
        Nat.pow_le_pow_right (by norm_num) (le_max_right _ _)
      have hlt := hc.2.1
      have hpe : p = a + c.header_size := by
        rw [← hp]; simp only [addr]
        exact Nat.mod_eq_of_lt (by omega)
      refine ⟨a, _, l, F', hpe, by omega, by omega, h1, h2, h3, h5, hdesc, ?_, hP3⟩
      intro x hx
      rw [← hs']
      simp only [tag_set_kval, tag_set_tag, Ptr.blk.injEq, if_neg hx]
      rcases split_loop_tag c (Ptr.blk a) (max k0 c.SMALLEST_K)
        (find_block s (s.kval_m + 1 - max k0 c.SMALLEST_K) (max k0 c.SMALLEST_K)).1
        (unlink s (Ptr.blk a)) (Ptr.blk x) with e | e
      · left; rw [e]; simp
      · right; exact e
    · left
      rw [if_pos (Or.inl h1)] at hm
      simp only [Option.some.injEq, Prod.mk.injEq] at hm
      exact ⟨hm.1.symm, hm.2.symm, h3⟩

/-- What a call of `buddy_free` on a live pointer does to a pool that
satisfies the invariant. -/
theorem free_inv (hc : c.ok) (h : PInv c s F R none) {a k : Nat} (hR : (a, k) ∈ R) :
    (∃ F', PInv c (buddy_free c false s (a + c.header_size)) F' (R.erase (a, k)) none) ∧
    (rd (buddy_free c false s (a + c.header_size)) (Ptr.blk a)).tag = c.BLOCK_AVAIL := by
  obtain ⟨hba, hfit, _⟩ := h.live_bound (Or.inr (Or.inl hR) : Live F R none a k)
  have hbpos := h.bnd.2.1
  have hpk := pow2_pos k
  obtain ⟨htag, hkv, hsk⟩ := h.hdR a k hR
  have hle : 2 ^ c.SMALLEST_K ≤ 2 ^ k := Nat.pow_le_pow_right (by norm_num) hsk
  have hlt := hc.2.1
  have e0 : c.header_size % WORD = c.header_size := Nat.mod_eq_of_lt (by omega)
  have e1 : (a + c.header_size + WORD - c.header_size % WORD) % WORD = a := by
    rw [e0]
    have : a + c.header_size + WORD - c.header_size = a + WORD := by omega
    rw [this, Nat.add_mod_right]
    exact Nat.mod_eq_of_lt (by omega)
  unfold buddy_free
  rw [if_neg (by simp; omega)]
  simp only [e1]
  rw [if_neg (by simp [htag])]
  simp only [hkv]
  refine ⟨?_, by simp [coalesce_tag]⟩
  have hP1 := h.unreserve hc hR
  obtain ⟨F', a', k', h1, h2, hP2, hh, hbud⟩ := coalesce_inv hc
    ((set_tag s (Ptr.blk a) c.BLOCK_AVAIL).kval_m - k) _ F a k rfl hP1
    (by simp [hkv])
  rw [h1, h2]
  exact ⟨_, hP2.put hh hbud⟩

/-- A call of `buddy_free` on a pointer whose header is not tagged reserved
changes nothing. -/
theorem free_rejected (c : Consts) (pn : Bool) (s : State) (p : Nat)
    (h : pn = true ∨ p = 0 ∨
      (rd s (Ptr.blk ((p + WORD - c.header_size % WORD) % WORD))).tag ≠ c.BLOCK_RESERVED) :
    buddy_free c pn s p = s := by
  unfold buddy_free
  by_cases h1 : pn = true ∨ p = 0
  · rw [if_pos h1]
  · rw [if_neg h1]
    have h2 : (rd s (Ptr.blk ((p + WORD - c.header_size % WORD) % WORD))).tag ≠
        c.BLOCK_RESERVED := by
      rcases h with h | h | h
      · exact absurd (Or.inl h) h1
      · exact absurd (Or.inr h) h1
      · exact h
    rw [if_pos h2]

end calls

/-! ### `buddy_init` -/

theorem init_loop_spec (c : Consts) :
    ∀ (n i : Nat) (s : State),
      (init_loop c n i s).kval_m = s.kval_m ∧ (init_loop c n i s).base = s.base ∧
      (init_loop c n i s).mem = s.mem ∧ (init_loop c n i s).errno = s.errno ∧
      (init_loop c n i s).numbytes = s.numbytes ∧
      (init_loop c n i s).avail_addr = s.avail_addr ∧
      ∀ t, (init_loop c n i s).avail t =
        if i ≤ t ∧ t < i + n then ⟨c.BLOCK_UNUSED, t, Ptr.sent t, Ptr.sent t⟩ else s.avail t := by
  intro n
  induction n with
  | zero =>
    intro i s
    refine ⟨rfl, rfl, rfl, rfl, rfl, rfl, ?_⟩
    intro t
    rw [if_neg (by omega)]; rfl
  | succ n ih =>
    intro i s
    rw [init_loop]
    obtain ⟨h1, h2, h3, h4, h5, h6, h7⟩ := ih (i + 1)
      (set_tag (set_kval (set_next (set_prev s (Ptr.sent i) (Ptr.sent i)) (Ptr.sent i)
        (Ptr.sent i)) (Ptr.sent i) i) (Ptr.sent i) c.BLOCK_UNUSED)
    refine ⟨by rw [h1]; simp, by rw [h2]; simp, by rw [h3]; rfl, by rw [h4]; simp,
      by rw [h5]; rfl, by rw [h6]; rfl, ?_⟩
    intro t
    rw [h7]
    by_cases hti : t = i
    · subst hti
      rw [if_neg (by omega), if_pos (by omega)]
      simp [set_tag, set_kval, set_next, set_prev, wr, rd]
    · by_cases hc1 : i + 1 ≤ t ∧ t < i + 1 + n
      · rw [if_pos hc1, if_pos (by omega)]
      · rw [if_neg hc1, if_neg (by omega)]
        simp [set_tag, set_kval, set_next, set_prev, wr, rd, hti]

/-- The pool `buddy_init` produces, whenever it returns. -/
theorem buddy_init_spec {c : Consts} {fuel size base : Nat} {w s : State}
    (h : buddy_init c fuel w size base = some s) :
    ∃ kval, init_kval c fuel size = some kval ∧ s.kval_m = kval ∧ s.base = base ∧
      s.numbytes = 2 ^ kval % WORD ∧ is_full c s ∧ s.errno = w.errno := by
  unfold buddy_init at h
  cases hk : init_kval c fuel size with
  | none => simp [hk] at h
  | some kval =>
    simp only [hk, Option.some.injEq] at h
    refine ⟨kval, rfl, ?_⟩
    obtain ⟨h1, h2, h3, h4, h5, h6, h7⟩ := init_loop_spec c (kval + 1) 0
      { kval_m := kval, numbytes := 2 ^ kval % WORD, base := base, mem := w.mem,
        avail := fun _ => zero_avail, errno := w.errno, avail_addr := w.avail_addr }
    subst h
    simp only [set_next_kval_m, set_prev_kval_m, set_kval_kval_m, set_tag_kval_m,
      set_next_base, set_prev_base, set_kval_base, set_tag_base, set_next_errno,
      set_prev_errno, set_kval_errno, set_tag_errno, h1, h2, h4, true_and]
    refine ⟨?_, ?_⟩
    · simp [set_next, set_prev, set_kval, set_tag, wr, h5]
    · unfold is_full
      simp only [set_next_kval_m, set_prev_kval_m, set_kval_kval_m, set_tag_kval_m,
        set_next_base, set_prev_base, set_kval_base, set_tag_base, h1, h2]
      simp only [avail_eq_rd, mem_eq_rd, next_set_next, next_set_prev, next_set_kval,
        next_set_tag, prev_set_next, prev_set_prev, prev_set_kval, prev_set_tag,
        kval_set_next, kval_set_prev, kval_set_kval, kval_set_tag, tag_set_next,
        tag_set_prev, tag_set_kval, tag_set_tag, set_prev_base, h2]
      simp only [← avail_eq_rd, h7]
      simp
      intro i hi
      simp [show i < kval + 1 by omega, show i ≠ kval by omega]

/-! ### The full pool and the invariant -/

theorem PInv.of_full {c : Consts} {s : State} (hf : is_full c s)
    (hb : s.kval_m < 64 ∧ 0 < s.base ∧ s.base + 2 ^ s.kval_m ≤ WORD) :
    PInv c s (fun i => if i = s.kval_m then [s.base] else []) [] none := by
  obtain ⟨hlow, h1, h2, h3, h4, h5, h6, h7, h8⟩ := hf
  have hlive : ∀ a k, Live (fun i => if i = s.kval_m then [s.base] else []) [] none a k ↔
      (a = s.base ∧ k = s.kval_m) := by
    intro a k
    unfold Live
    by_cases hk : k = s.kval_m <;> simp [hk]
  refine ⟨hb, ?_, ?_, ?_, List.nodup_nil, ?_, ?_, ?_, ?_, ?_⟩
  · intro i hi
    rcases Nat.lt_or_ge i s.kval_m with hlt | hge
    · exact ⟨(hlow i hlt).2.2.2, (hlow i hlt).2.2.1⟩
    · have : i = s.kval_m := by omega
      subst this; exact ⟨h4, h3⟩
  · intro i hi
    rcases Nat.lt_or_ge i s.kval_m with hlt | hge
    · simp only [if_neg (show i ≠ s.kval_m by omega)]
      exact ⟨(hlow i hlt).1, (hlow i hlt).2.1⟩
    · have : i = s.kval_m := by omega
      subst this
      simp only [if_true]
      exact ⟨h1, h8, h7, h2⟩
  · intro i; split <;> simp
  · intro i a ha
    by_cases hi : i = s.kval_m
    · simp only [hi, if_true, List.mem_singleton] at ha
      subst ha; rw [hi]; exact ⟨h5, h6⟩
    · simp [hi] at ha
  · intro a k ha; simp at ha
  · constructor
    · intro a k hl
      obtain ⟨rfl, rfl⟩ := (hlive a k).mp hl
      exact ⟨le_refl _, le_refl _, by simp, le_refl _⟩
    · intro a k a' k' hl hl' hne
      obtain ⟨rfl, rfl⟩ := (hlive a k).mp hl
      obtain ⟨rfl, rfl⟩ := (hlive a' k').mp hl'
      simp at hne
    · intro x hx hx'
      exact ⟨s.base, s.kval_m, (hlive _ _).mpr ⟨rfl, rfl⟩, hx, hx'⟩
  · intro k a hk ha
    simp [show k ≠ s.kval_m by omega] at ha
  · intro a k e; exact absurd e (by simp)

theorem list_eq_singleton {l : List Nat} {b : Nat} (nd : l.Nodup) (hall : ∀ y ∈ l, y = b)
    (hb : b ∈ l) : l = [b] := by
  cases l with
  | nil => simp at hb
  | cons x l =>
    have hx : x = b := hall x (by simp)
    subst hx
    cases l with
    | nil => rfl
    | cons y l =>
      have hy : y = x := hall y (by simp)
      subst hy
      simp at nd

/-- With no reserved block left, a pool that satisfies the invariant is
full. -/
theorem PInv.full {c : Consts} {s : State} {F : Nat → List Nat}
    (h : PInv c s F [] none) : is_full c s := by
  have hlive : ∀ a k, Live F [] none a k → a ∈ F k := by
    intro a k hl
    rcases hl with h1 | h1 | h1
    · exact h1
    · simp at h1
    · simp at h1
  have hempty : ∀ k, k < s.kval_m → F k = [] := by
    intro k
    induction k using Nat.strong_induction_on with
    | _ k ih =>
      intro hk
      apply List.eq_nil_iff_forall_not_mem.mpr
      intro a ha
      obtain ⟨k', hk', hl'⟩ := h.part.buddy_live (Or.inl ha) hk
      have hb := hlive _ _ hl'
      rcases Nat.lt_or_ge k' k with hlt | hge
      · rw [ih k' hlt (by omega)] at hb; simp at hb
      · have : k' = k := by omega
        subst this
        exact h.i5 k' a hk ha hb
  have hpm := pow2_pos s.kval_m
  have htop : ∀ y, y ∈ F s.kval_m → y = s.base := by
    intro y hy
    obtain ⟨_, h1, _, h2⟩ := h.part.geom y s.kval_m (Or.inl hy)
    omega
  have hbase : s.base ∈ F s.kval_m := by
    obtain ⟨a, k, hl, h1, h2⟩ := h.part.cover s.base (le_refl _) (by omega)
    have ha := hlive a k hl
    obtain ⟨hkm, _, _, _⟩ := h.part.geom a k hl
    rcases Nat.lt_or_ge k s.kval_m with hlt | hge
    · rw [hempty k hlt] at ha; simp at ha
    · have : k = s.kval_m := by omega
      subst this
      rw [← htop a ha]; exact ha
  have hF : F s.kval_m = [s.base] := list_eq_singleton (h.ndF _) htop hbase
  have hring := h.ring s.kval_m (le_refl _)
  rw [hF] at hring
  obtain ⟨r1, r2, r3, r4⟩ := hring
  have hhd := h.hdF s.kval_m s.base hbase
  have hsen := h.sen s.kval_m (le_refl _)
  refine ⟨?_, r1, r4, hsen.2, hsen.1, hhd.1, hhd.2, r3, r2⟩
  intro i hi
  have hr := h.ring i (by omega)
  rw [hempty i hi] at hr
  have hs := h.sen i (by omega)
  exact ⟨hr.1, hr.2, hs.2, hs.1⟩

/-! ### Reachable states -/

/-- Every reachable state satisfies the invariant, the ghost list of live
pointers lists exactly the user pointers of the reserved blocks, and the
header of a pointer that was returned once and is not live is tagged
available. -/
theorem reach_inv {c : Consts} (hc : c.ok) {s0 : State} {F0 : Nat → List Nat}
    (h0 : PInv c s0 F0 [] none) {s : State} {L E : List Nat} (hr : Reach c s0 s L E) :
    ∃ F R, PInv c s F R none ∧ L.Nodup ∧
      (∀ p, p ∈ L ↔ ∃ a k, (a, k) ∈ R ∧ p = a + c.header_size) ∧
      (∀ p, p ∈ E → ∃ a, p = a + c.header_size ∧ p < WORD ∧
        (p ∈ L ∨ (rd s (Ptr.blk a)).tag = c.BLOCK_AVAIL)) := by
  induction hr with
  | init => exact ⟨F0, [], h0, List.nodup_nil, by simp, by simp⟩
  | @malloc s s' L E fuel size p _ hsz hm ih =>
    obtain ⟨F, R, hP, hnd, hL, hE⟩ := ih
    rcases Nat.eq_zero_or_pos size with hz | hpos
    · subst hz
      simp only [buddy_malloc, or_true, if_true, Option.some.injEq, Prod.mk.injEq] at hm
      obtain ⟨rfl, rfl⟩ := hm
      exact ⟨F, R, hP, by simpa using hnd, by simpa using hL, by simpa using hE⟩
    · obtain ⟨k0, _, hcase⟩ := malloc_inv hc hP hpos hm
      rcases hcase with ⟨hp0, hs', _⟩ | ⟨a, j, l, F', hp, hp0, hpW, _, _, hFj, _, _, htag, hP'⟩
      · subst hp0
        rw [hs']
        refine ⟨F, R, hP.errno _, by simpa using hnd, by simpa using hL, ?_⟩
        intro q hq
        obtain ⟨a, h1, h2, h3⟩ := hE q (by simpa using hq)
        exact ⟨a, h1, h2, by simpa [rd_errno] using h3⟩
      · have haR : ∀ k', (a, k') ∉ R := fun k' => hP.sepFR hc (by rw [hFj]; simp)
        rw [if_neg hp0, if_neg hp0]
        refine ⟨F', _, hP', ?_, ?_, ?_⟩
        · refine List.nodup_cons.mpr ⟨?_, hnd⟩
          intro hin
          obtain ⟨a', k', hR', e⟩ := (hL p).mp hin
          have : a' = a := by omega
          subst this
          exact haR k' hR'
        · intro q
          simp only [List.mem_cons, Prod.mk.injEq]
          constructor
          · rintro (e | e)
            · exact ⟨a, _, Or.inl ⟨rfl, rfl⟩, by rw [e, hp]⟩
            · obtain ⟨a', k', hR', e'⟩ := (hL q).mp e
              exact ⟨a', k', Or.inr hR', e'⟩
          · rintro ⟨a', k', hR' | hR', e⟩
            · left; rw [e, hp, hR'.1]
            · right; exact (hL q).mpr ⟨a', k', hR', e⟩
        · intro q hq
          rcases List.mem_cons.mp hq with e | e
          · exact ⟨a, by rw [e, hp], by rw [e]; exact hpW, Or.inl (by rw [e]; simp)⟩
          · obtain ⟨a', h1, h2, h3⟩ := hE q e
            refine ⟨a', h1, h2, ?_⟩
            rcases h3 with h3 | h3
            · exact Or.inl (List.mem_cons_of_mem _ h3)
            · by_cases ha : a' = a
              · left
                have : q = p := by rw [h1, hp, ha]
                rw [this]; simp
              · right
                rcases htag a' ha with e' | e'
                · rw [e']; exact h3
                · exact e'
  | @free s L E p _ hp ih =>
    obtain ⟨F, R, hP, hnd, hL, hE⟩ := ih
    have hbpos := hP.bnd.2.1
    have hzero : (0 : Nat) ∉ L := by
      intro h0L
      obtain ⟨a, k, hR, e⟩ := (hL 0).mp h0L
      obtain ⟨h1, _, _⟩ := hP.live_bound (Or.inr (Or.inl hR) : Live F R none a k)
      omega
    by_cases hpL : p ∈ L
    · obtain ⟨a, k, hR, e⟩ := (hL p).mp hpL
      subst e
      obtain ⟨⟨F', hP'⟩, htag'⟩ := free_inv hc hP hR
      refine ⟨F', _, hP', hnd.erase _, ?_, ?_⟩
      · intro q
        rw [List.Nodup.mem_erase_iff hnd]
        constructor
        · rintro ⟨hne, hq⟩
          obtain ⟨a', k', hR', e'⟩ := (hL q).mp hq
          refine ⟨a', k', ?_, e'⟩
          apply (List.Nodup.mem_erase_iff hP.ndR).mpr
          refine ⟨?_, hR'⟩
          intro epair
          simp only [Prod.mk.injEq] at epair
          apply hne; rw [e', epair.1]
        · rintro ⟨a', k', hR', e'⟩
          have hmem := (List.Nodup.mem_erase_iff hP.ndR).mp hR'
          refine ⟨?_, (hL q).mpr ⟨a', k', hmem.2, e'⟩⟩
          intro eq
          have : a' = a := by omega
          subst this
          have := hP.sepRR hmem.2 hR
          subst this
          exact hmem.1 rfl
      · intro q hq
        obtain ⟨a', h1, h2, h3⟩ := hE q hq
        refine ⟨a', h1, h2, ?_⟩
        by_cases hqp : q = a + c.header_size
        · right
          have : a' = a := by omega
          rw [this]; exact htag'
        · rcases h3 with h3 | h3
          · exact Or.inl ((List.Nodup.mem_erase_iff hnd).mpr ⟨hqp, h3⟩)
          · right
            rcases free_tag c false s (a + c.header_size) (Ptr.blk a') with e' | e'
            · rw [e']; exact h3
            · exact e'
    · have hrej : buddy_free c false s p = s := by
        apply free_rejected
        right
        rcases hp with hp | hp
        · exact Or.inl hp
        · right
          obtain ⟨a, h1, h2, h3⟩ := hE p hp
          rcases h3 with h3 | h3
          · exact absurd h3 hpL
          · have e1 : (p + WORD - c.header_size % WORD) % WORD = a := by
              have e0 : c.header_size % WORD = c.header_size :=
                Nat.mod_eq_of_lt (by omega)
              rw [e0]
              have : p + WORD - c.header_size = a + WORD := by omega
              rw [this, Nat.add_mod_right]
              exact Nat.mod_eq_of_lt (by omega)
            rw [e1, h3]
            exact hc.1
      rw [hrej, List.erase_of_not_mem hpL]
      exact ⟨F, R, hP, hnd, hL, hE⟩

/-! ### The pool after `buddy_init` -/

theorem init_kval_le {c : Consts} {fuel size k : Nat} (h : init_kval c fuel size = some k) :
    k ≤ c.MAX_K := by
  unfold init_kval at h
  split at h
  · simp at h
  · simp only [Option.some.injEq] at h
    subst h
    split_ifs <;> omega

/-- A pool fresh from `buddy_init` satisfies the invariant, provided `mmap`
returned a non-null region that ends below `2^64`. -/
theorem init_inv {c : Consts} (hc : c.ok) {fuel size base : Nat} {w s0 : State}
    (h0 : buddy_init c fuel w size base = some s0) (hb : 0 < base)
    (hfit : base + 2 ^ s0.kval_m ≤ WORD) :
    PInv c s0 (fun i => if i = s0.kval_m then [s0.base] else []) [] none := by
  obtain ⟨kval, hk, hkm, hbase, _, hfull, _⟩ := buddy_init_spec h0
  have := init_kval_le hk
  have := hc.2.2
  exact PInv.of_full hfull ⟨by omega, by omega, by rw [hbase]; exact hfit⟩

/-- Every state reachable from a fresh pool satisfies the invariant. -/
theorem reach_init_inv {c : Consts} (hc : c.ok) {fuel size base : Nat} {w s0 s : State}
    {L E : List Nat}
    (h0 : buddy_init c fuel w size base = some s0) (hb : 0 < base)
    (hfit : base + 2 ^ s0.kval_m ≤ WORD) (hr : Reach c s0 s L E) :
    ∃ F R, PInv c s F R none ∧ L.Nodup ∧
      (∀ p, p ∈ L ↔ ∃ a k, (a, k) ∈ R ∧ p = a + c.header_size) ∧
      (∀ p, p ∈ E → ∃ a, p = a + c.header_size ∧ p < WORD ∧
        (p ∈ L ∨ (rd s (Ptr.blk a)).tag = c.BLOCK_AVAIL)) :=
  reach_inv hc (init_inv hc h0 hb hfit) hr

theorem init_kval_ge {c : Consts} {fuel size k : Nat} (h : init_kval c fuel size = some k)
    (hmk : c.MIN_K < c.MAX_K) : c.MIN_K ≤ k := by
  unfold init_kval at h
  split at h
  · simp at h
  · simp only [Option.some.injEq] at h
    subst h
    split_ifs <;> omega

/-- Whenever `btok` returns, `buddy_malloc` returns. -/
theorem malloc_returns (c : Consts) (fuel : Nat) (s : State) (size k0 : Nat)
    (hbt : btok fuel ((size + c.header_size) % WORD) = some k0) :
    ∃ p s', buddy_malloc c fuel false s size = some (p, s') := by
  unfold buddy_malloc
  by_cases h1 : (false = true ∨ size = 0)
  · rw [if_pos h1]; exact ⟨_, _, rfl⟩
  · rw [if_neg h1]
    simp only [hbt]
    generalize (if k0 < c.SMALLEST_K then c.SMALLEST_K else k0) = K
    generalize find_block s (s.kval_m + 1 - K) K = jb
    by_cases h2 : jb.1 > s.kval_m ∨ jb.2 = NULL
    · rw [if_pos h2]; exact ⟨_, _, rfl⟩
    · rw [if_neg h2]; exact ⟨_, _, rfl⟩

/-- A request of at most `2^SMALLEST_K` bytes in all has level `SMALLEST_K`. -/
theorem btok_small {c : Consts} {fuel bytes k0 : Nat} (hb : bytes ≤ 2 ^ c.SMALLEST_K)
    (h : btok fuel bytes = some k0) : max k0 c.SMALLEST_K = c.SMALLEST_K := by
  obtain ⟨_, _, h2⟩ := btok_sound h
  apply max_eq_right
  rcases h2 with h2 | h2
  · omega
  · have : 2 ^ (k0 - 1) < 2 ^ c.SMALLEST_K := lt_of_lt_of_le h2 hb
    have := (Nat.pow_lt_pow_iff_right (a := 2) (by norm_num)).mp this
    omega

/-- The first `buddy_malloc` on a fresh pool, for a request of level
`SMALLEST_K`: the block at `base` is split down to `2^SMALLEST_K` bytes and
every level in between gets the upper half. -/
theorem first_malloc_small {c : Consts} (hc : c.ok) (hk : c.SMALLEST_K ≤ c.MIN_K)
    (hmk : c.MIN_K < c.MAX_K) {fuel0 size0 base : Nat} {w s0 : State}
    (h0 : buddy_init c fuel0 w size0 base = some s0) (hb : 0 < base)
    (hfit : base + 2 ^ s0.kval_m ≤ WORD) {fuel size : Nat} (hsz : 0 < size)
    (htot : (size + c.header_size) % WORD ≤ 2 ^ c.SMALLEST_K) (hf : 64 ≤ fuel) :
    ∃ p s F, buddy_malloc c fuel false s0 size = some (p, s) ∧ p = base + c.header_size ∧
      p ≠ 0 ∧ s.kval_m = s0.kval_m ∧ s.base = base ∧ c.SMALLEST_K ≤ s.kval_m ∧
      s.kval_m < 64 ∧
      PInv c s F [(base, c.SMALLEST_K)] none ∧
      ∀ t, F t = if c.SMALLEST_K ≤ t ∧ t < s0.kval_m then [base + 2 ^ t] else [] := by
  obtain ⟨kval, hkv, hkm, hbase, _, _, _⟩ := buddy_init_spec h0
  have hge := init_kval_ge hkv hmk
  have hle := init_kval_le hkv
  have hM := hc.2.2
  have hP := init_inv hc h0 hb hfit
  have hSK : c.SMALLEST_K ≤ 63 := by omega
  have hpow : (2 : Nat) ^ c.SMALLEST_K ≤ 2 ^ 63 := Nat.pow_le_pow_right (by norm_num) hSK
  obtain ⟨k0, hk0⟩ := @btok_total fuel ((size + c.header_size) % WORD) (by omega) hf
  obtain ⟨p, s, hm⟩ := malloc_returns c fuel s0 size k0 hk0
  obtain ⟨hf1, hf2⟩ := malloc_frame hm
  obtain ⟨k0', hk0', hcase⟩ := malloc_inv hc hP hsz hm
  rw [hk0] at hk0'
  simp only [Option.some.injEq] at hk0'
  subst hk0'
  have hmax := btok_small htot hk0
  rw [hmax] at hcase
  rcases hcase with ⟨_, _, hempty⟩ | ⟨a, j, l, F', hp, hp0, _, hkj, hj, hFj, _, hdesc, _, hP'⟩
  · have := hempty s0.kval_m (by omega) (le_refl _)
    simp at this
  · have hjm : j = s0.kval_m := by
      by_contra hne
      simp [hne] at hFj
    subst hjm
    simp only [if_true, List.cons.injEq] at hFj
    obtain ⟨ha, hl⟩ := hFj
    subst hl
    rw [hbase] at ha
    subst ha
    refine ⟨p, s, F', hm, hp, hp0, hf1, by rw [hf2, hbase], by omega, by omega, hP', ?_⟩
    intro t
    rw [hdesc t]
    by_cases ht : t = s0.kval_m
    · rw [ht, upd_same, if_neg (by omega)]
    · rw [upd_other _ _ _ ht]
      simp only [if_neg ht]

/-! ### The claims -/

/-- C1. After any sequence of `buddy_malloc` and `buddy_free` calls on a fresh
pool in which every pointer returned non-`NULL` has been freed exactly once
and nothing else has been freed (the ghost list of live pointers is empty
again), the pool is full, whatever the order of the calls. -/
theorem all_freed_pool_full (c : Consts) (hc : c.ok) (fuel size base : Nat) (w s0 s : State)
    (E : List Nat)
    (h0 : buddy_init c fuel w size base = some s0) (hb : 0 < base)
    (hfit : base + 2 ^ s0.kval_m ≤ WORD) (hr : Reach c s0 s [] E) : is_full c s := by
  obtain ⟨F, R, hP, _, hL, _⟩ := reach_init_inv hc h0 hb hfit hr
  have hR : R = [] := by
    apply List.eq_nil_iff_forall_not_mem.mpr
    rintro ⟨a, k⟩ hak
    have := (hL (a + c.header_size)).mpr ⟨a, k, hak, rfl⟩
    simp at this
  subst hR
  exact hP.full

/-- C2, as amended.  In any pool state, for a block header at an address
below `2^64` whose `kval` is `k < 64`: if the header found at
`buddy_calc(pool, B)` carries the same `kval`, then
`buddy_calc(pool, buddy_calc(pool, B)) = B`. -/
theorem buddy_calc_involution (s : State) (a : Nat) (ha : a < WORD) (hbase : s.base < WORD)
    (hk : (rd s (Ptr.blk a)).kval < 64)
    (hsame : (rd s (buddy_calc s (Ptr.blk a))).kval = (rd s (Ptr.blk a)).kval) :
    buddy_calc s (buddy_calc s (Ptr.blk a)) = Ptr.blk a := by
  have hW : (2 : Nat) ^ (rd s (Ptr.blk a)).kval < 2 ^ 64 :=
    Nat.pow_lt_pow_right (by norm_num) hk
  have e2 : 2 ^ (rd s (Ptr.blk a)).kval % WORD = 2 ^ (rd s (Ptr.blk a)).kval :=
    Nat.mod_eq_of_lt hW
  have hoff : (a + WORD - s.base % WORD) % WORD < 2 ^ 64 := Nat.mod_lt _ (by norm_num [WORD])
  have hx := Nat.xor_lt_two_pow hoff hW
  have hb : buddy_calc s (Ptr.blk a) = Ptr.blk ((s.base +
      ((a + WORD - s.base % WORD) % WORD ^^^ 2 ^ (rd s (Ptr.blk a)).kval)) % WORD) := by
    simp only [buddy_calc, addr, e2]
  rw [hb] at hsame ⊢
  simp only [buddy_calc, addr, hsame, e2]
  congr 1
  set x := (a + WORD - s.base % WORD) % WORD ^^^ 2 ^ (rd s (Ptr.blk a)).kval with hxdef
  have e3 : ((s.base + x) % WORD + WORD - s.base % WORD) % WORD = x := by
    rw [WORD_eq] at *; omega
  rw [e3, hxdef, Nat.xor_cancel_right]
  rw [WORD_eq] at *; omega

/-- C3.  On the byte count `2^63 + 1` the loop of `btok` never exits: there is
no amount of fuel with which `btok` returns. -/
theorem btok_hangs_above_half : ¬ ∃ fuel, btok fuel (2 ^ 63 + 1) ≠ none := by
  rintro ⟨fuel, h⟩
  exact h (btok_diverges (by norm_num) fuel)

/-- C5.  For a size of `2^MAX_K` bytes `buddy_init` sets `kval_m = MAX_K`, not
`MAX_K - 1`: the clamp `if (kval > MAX_K)` lets `MAX_K` itself through. -/
theorem init_kval_m_reaches_MAX_K (c : Consts) (w : State) (base : Nat)
    (h1 : c.MIN_K ≤ c.MAX_K) (h2 : c.MAX_K ≤ 63) :
    ∃ s, buddy_init c 64 w (2 ^ c.MAX_K) base = some s ∧ s.kval_m = c.MAX_K := by
  have hk : init_kval c 64 (2 ^ c.MAX_K) = some c.MAX_K := by
    unfold init_kval
    have hpos := pow2_pos c.MAX_K
    rw [if_neg (by omega), btok_pow c.MAX_K h2 (le_refl _)]
    simp [show ¬ c.MAX_K < c.MIN_K by omega]
  cases hi : buddy_init c 64 w (2 ^ c.MAX_K) base with
  | none =>
    unfold buddy_init at hi
    rw [hk] at hi
    simp at hi
  | some s =>
    obtain ⟨kval, hk', hkm, _⟩ := buddy_init_spec hi
    rw [hk] at hk'
    simp only [Option.some.injEq] at hk'
    exact ⟨s, rfl, by rw [hkm, ← hk']⟩

/-- C6.  Whenever `buddy_init` returns, the pool it produced is full; and it
does return, with 64 units of fuel for `btok`, on every size up to `2^63`. -/
theorem buddy_init_full (c : Consts) (fuel : Nat) (w : State) (size base : Nat) :
    (size ≤ 2 ^ 63 → 64 ≤ fuel → ∃ s, buddy_init c fuel w size base = some s) ∧
    (∀ s, buddy_init c fuel w size base = some s → is_full c s) := by
  refine ⟨?_, ?_⟩
  · intro hs hf
    have hk : ∃ k, init_kval c fuel size = some k := by
      unfold init_kval
      by_cases hz : size = 0
      · rw [if_pos hz]; exact ⟨_, rfl⟩
      · rw [if_neg hz]
        obtain ⟨r, hr⟩ := btok_total hs hf
        rw [hr]; exact ⟨_, rfl⟩
    obtain ⟨k, hk⟩ := hk
    unfold buddy_init
    rw [hk]
    exact ⟨_, rfl⟩
  · intro s hs
    obtain ⟨_, _, _, _, _, hfull, _⟩ := buddy_init_spec hs
    exact hfull

/-- C7.  In a pool reachable from `buddy_init`, when `buddy_malloc` returns a
non-`NULL` pointer `p` for a request of `size ≥ 1` bytes: `p` is the address of
the first block of one of the free lists plus `sizeof(struct avail)`, and the
header at `p - sizeof(struct avail)` has `tag = BLOCK_RESERVED` and
`kval = max(btok(size + sizeof(struct avail)), SMALLEST_K)`, the sum being
taken modulo `2^64` as the code does; in particular a request of exactly
`2^k - sizeof(struct avail)` bytes with `SMALLEST_K ≤ k ≤ kval_m` yields
`kval = k`. -/
theorem malloc_header (c : Consts) (hc : c.ok) (fuel0 size0 base : Nat) (w s0 s s' : State)
    (L E : List Nat) (fuel size p : Nat)
    (h0 : buddy_init c fuel0 w size0 base = some s0) (hb : 0 < base)
    (hfit : base + 2 ^ s0.kval_m ≤ WORD) (hr : Reach c s0 s L E)
    (hsz : 1 ≤ size)
    (hm : buddy_malloc c fuel false s size = some (p, s')) (hp : p ≠ 0) :
    ∃ a j k0, (s.avail j).next = Ptr.blk a ∧ p = a + c.header_size ∧
      btok fuel ((size + c.header_size) % WORD) = some k0 ∧
      (s'.mem (p - c.header_size)).tag = c.BLOCK_RESERVED ∧
      (s'.mem (p - c.header_size)).kval = max k0 c.SMALLEST_K ∧
      ∀ k, c.SMALLEST_K ≤ k → k ≤ s.kval_m → size = 2 ^ k - c.header_size →
        (s'.mem (p - c.header_size)).kval = k := by
  obtain ⟨F, R, hP, _, _⟩ := reach_init_inv hc h0 hb hfit hr
  obtain ⟨k0, hk0, hcase⟩ := malloc_inv hc hP (by omega) hm
  rcases hcase with ⟨hp0, _, _⟩ | ⟨a, j, l, F', hpa, _, _, _, hj, hFj, _, _, _, hP'⟩
  · exact absurd hp0 hp
  · have hnx := (hP.ring j hj).next_head
    rw [hFj] at hnx
    simp only [chain_head] at hnx
    have hhd := hP'.hdR a (max k0 c.SMALLEST_K) (by simp)
    have hpa' : p - c.header_size = a := by omega
    rw [hpa']
    refine ⟨a, j, k0, hnx, hpa, hk0, hhd.1, hhd.2.1, ?_⟩
    intro k hk1 hk2 hsize
    rw [mem_eq_rd, hhd.2.1]
    have hlt := hc.2.1
    have hle : 2 ^ c.SMALLEST_K ≤ 2 ^ k := Nat.pow_le_pow_right (by norm_num) hk1
    have hk64 : k < 64 := by have := hP.bnd.1; omega
    have hW : (2 : Nat) ^ k < WORD := by
      unfold WORD; exact Nat.pow_lt_pow_right (by norm_num) hk64
    have e : (size + c.header_size) % WORD = 2 ^ k := by
      have : size + c.header_size = 2 ^ k := by omega
      rw [this]; exact Nat.mod_eq_of_lt hW
    rw [e] at hk0
    obtain ⟨_, h1, h2⟩ := btok_sound hk0
    have h3 : k ≤ k0 := (Nat.pow_le_pow_iff_right (by norm_num)).mp h1
    have h4 : k0 = k := by
      rcases h2 with h2 | h2
      · omega
      · have := (Nat.pow_lt_pow_iff_right (a := 2) (by norm_num)).mp h2
        omega
    rw [h4]; exact max_eq_left hk1

/-- C8.  A request of `2^63` bytes makes `buddy_malloc` hang in `btok`, in any
pool: it does not return `NULL`, it does not return at all. -/
theorem malloc_hangs_on_huge_request (c : Consts) (s : State) (fuel : Nat)
    (h1 : 0 < c.header_size) (h2 : c.header_size < 2 ^ 63) :
    buddy_malloc c fuel false s (2 ^ 63) = none := by
  unfold buddy_malloc
  rw [if_neg (by simp)]
  have e : (2 ^ 63 + c.header_size) % WORD = 2 ^ 63 + c.header_size :=
    Nat.mod_eq_of_lt (by rw [WORD_eq]; omega)
  simp only [e]
  rw [btok_diverges (by omega) fuel]

/-- C10.  In every state reachable from `buddy_init` (in particular right
after a `buddy_free` returns) no free list `avail[k]`, `k < kval_m`, holds a
block together with its buddy. -/
theorem no_free_buddy_pair (c : Consts) (hc : c.ok) (fuel size base : Nat) (w s0 s : State)
    (L E : List Nat) (k : Nat) (l : List Nat) (x : Nat)
    (h0 : buddy_init c fuel w size base = some s0) (hb : 0 < base)
    (hfit : base + 2 ^ s0.kval_m ≤ WORD) (hr : Reach c s0 s L E)
    (hk : k < s.kval_m) (hl : free_list s k l) (hx : x ∈ l) :
    s.base + ((x - s.base) ^^^ 2 ^ k) ∉ l := by
  obtain ⟨F, R, hP, _, _⟩ := reach_init_inv hc h0 hb hfit hr
  have e := free_list_unique hl (hP.ring k (by omega))
  subst e
  exact hP.i5 k x hk hx

/-- C4.  On a fresh pool `buddy_malloc(&pool, SIZE_MAX)` succeeds, whatever
the constants of `lab.h`: the sum `size + sizeof(struct avail)` wraps to
`sizeof(struct avail) - 1`, and the caller gets a block of `2^SMALLEST_K`
bytes for a request of `2^64 - 1` bytes, which fits neither in the block nor
in the pool. -/
theorem wrapped_request_gets_small_block (c : Consts) (hc : c.ok) (hh : 1 ≤ c.header_size)
    (hk : c.SMALLEST_K ≤ c.MIN_K) (hmk : c.MIN_K < c.MAX_K) (fuel0 size0 base : Nat)
    (w s0 : State) (h0 : buddy_init c fuel0 w size0 base = some s0) (hb : 0 < base)
    (hfit : base + 2 ^ s0.kval_m ≤ WORD) :
    ∃ p s, buddy_malloc c 64 false s0 (2 ^ 64 - 1) = some (p, s) ∧ p ≠ 0 ∧
      (s.mem (p - c.header_size)).tag = c.BLOCK_RESERVED ∧
      (s.mem (p - c.header_size)).kval = c.SMALLEST_K ∧
      ¬ ((2 ^ 64 - 1) + c.header_size ≤ 2 ^ (s.mem (p - c.header_size)).kval) ∧
      ¬ (p + (2 ^ 64 - 1) ≤ s.base + 2 ^ s.kval_m) := by
  have hlt := hc.2.1
  have hM := hc.2.2
  have hSK : c.SMALLEST_K ≤ 63 := by omega
  have hpow : (2 : Nat) ^ c.SMALLEST_K ≤ 2 ^ 63 := Nat.pow_le_pow_right (by norm_num) hSK
  have htot : ((2 ^ 64 - 1) + c.header_size) % WORD ≤ 2 ^ c.SMALLEST_K := by
    rw [WORD_eq]; omega
  obtain ⟨p, s, F, hm, hp, hp0, hkm, hbase, _, hk64, hP, _⟩ :=
    first_malloc_small hc hk hmk h0 hb hfit (by norm_num) htot (le_refl 64)
  have hhd := hP.hdR base c.SMALLEST_K (by simp)
  have hpa : p - c.header_size = base := by omega
  have hpm : (2 : Nat) ^ s.kval_m ≤ 2 ^ 63 := Nat.pow_le_pow_right (by norm_num) (by omega)
  refine ⟨p, s, hm, hp0, ?_, ?_, ?_, ?_⟩
  · rw [hpa]; exact hhd.1
  · rw [hpa]; exact hhd.2.1
  · rw [hpa, mem_eq_rd, hhd.2.1]; omega
  · rw [hbase]; omega

/-- C9.  On a fresh pool, whatever the constants of `lab.h`,
`p1 = buddy_malloc(&pool, SIZE_MAX)` and `p2 = buddy_malloc(&pool, 1)` both
succeed, and the byte at `p2` lies inside the region `[p1, p1 + SIZE_MAX)` of
the first allocation, which is still live. -/
theorem live_regions_overlap (c : Consts) (hc : c.ok) (hh : 1 ≤ c.header_size)
    (hk : c.SMALLEST_K < c.MIN_K) (hmk : c.MIN_K < c.MAX_K) (fuel0 size0 base : Nat)
    (w s0 : State) (h0 : buddy_init c fuel0 w size0 base = some s0) (hb : 0 < base)
    (hfit : base + 2 ^ s0.kval_m ≤ WORD) :
    ∃ p1 s1 p2 s2, buddy_malloc c 64 false s0 (2 ^ 64 - 1) = some (p1, s1) ∧
      buddy_malloc c 64 false s1 1 = some (p2, s2) ∧
      Reach c s0 s2 [p2, p1] [p2, p1] ∧
      p1 ≠ 0 ∧ p2 ≠ 0 ∧ p1 ≠ p2 ∧ p1 ≤ p2 ∧ p2 < p1 + (2 ^ 64 - 1) := by
  have hlt := hc.2.1
  have hM := hc.2.2
  have hSK : c.SMALLEST_K ≤ 63 := by omega
  have hpow : (2 : Nat) ^ c.SMALLEST_K ≤ 2 ^ 63 := Nat.pow_le_pow_right (by norm_num) hSK
  have hpos := pow2_pos c.SMALLEST_K
  have htot : ((2 ^ 64 - 1) + c.header_size) % WORD ≤ 2 ^ c.SMALLEST_K := by
    rw [WORD_eq]; omega
  obtain ⟨kval, hkv, hkm0, _, _, _, _⟩ := buddy_init_spec h0
  have hge := init_kval_ge hkv hmk
  obtain ⟨p1, s1, F, hm1, hp1, hp10, hkm, hbase, _, hk64, hP, hF⟩ :=
    first_malloc_small hc (le_of_lt hk) hmk h0 hb hfit (by norm_num) htot (le_refl 64)
  have hFS : F c.SMALLEST_K = [base + 2 ^ c.SMALLEST_K] := by
    rw [hF, if_pos ⟨le_refl _, by omega⟩]
  have htot2 : (1 + c.header_size) % WORD = 1 + c.header_size :=
    Nat.mod_eq_of_lt (by rw [WORD_eq]; omega)
  obtain ⟨k0, hk0⟩ := @btok_total 64 ((1 + c.header_size) % WORD) (by rw [htot2]; omega)
    (le_refl _)
  obtain ⟨p2, s2, hm2⟩ := malloc_returns c 64 s1 1 k0 hk0
  obtain ⟨k0', hk0', hcase⟩ := malloc_inv hc hP (by norm_num) hm2
  rw [hk0] at hk0'
  simp only [Option.some.injEq] at hk0'
  subst hk0'
  have hmax := btok_small (c := c) (by rw [htot2]; omega) hk0
  rw [hmax] at hcase
  have hp2 : p2 = base + 2 ^ c.SMALLEST_K + c.header_size ∧ p2 ≠ 0 := by
    rcases hcase with ⟨_, _, hempty⟩ | ⟨a, j, l, F', hp, hp0, _, hkj, hj, hFj, hlow, _, _, _⟩
    · have := hempty c.SMALLEST_K (le_refl _) (by omega)
      rw [hFS] at this
      simp at this
    · have hjS : j = c.SMALLEST_K := by
        by_contra hne
        have := hlow c.SMALLEST_K (le_refl _) (by omega)
        rw [hFS] at this
        simp at this
      subst hjS
      rw [hFS] at hFj
      simp only [List.cons.injEq] at hFj
      exact ⟨by rw [hp, ← hFj.1], hp0⟩
  have r1 := @Reach.malloc c s0 _ _ _ _ 64 (2 ^ 64 - 1) _ Reach.init
    (by rw [WORD_eq]; norm_num) hm1
  rw [if_neg hp10] at r1
  have r2 := @Reach.malloc c s0 _ _ _ _ 64 1 _ r1 (by rw [WORD_eq]; norm_num) hm2
  rw [if_neg hp2.2] at r2
  exact ⟨p1, s1, p2, s2, hm1, hm2, r2, hp10, hp2.2, by omega, by omega, by omega⟩

set_option maxRecDepth 1000000

/-! ### Concrete runs -/

theorem some_getD {α : Type} {o : Option α} (d : α) (h : o.isSome = true) :
    o = some (o.getD d) := by
  cases o with
  | none => simp at h
  | some x => rfl

theorem sample_init_eq :
    buddy_init lab_consts 65 blank (2 ^ 20) sample_base = some sample_pool :=
  some_getD blank (by decide)

theorem sample_malloc_eq (size : Nat)
    (h : (buddy_malloc lab_consts 65 false sample_pool size).isSome = true) :
    buddy_malloc lab_consts 65 false sample_pool size =
      some ((sample_malloc size).1, (sample_malloc size).2) :=
  some_getD (0, blank) h

/-- C2, counterexample.  After `buddy_init(&pool, 1 << 20)` and
`buddy_malloc(&pool, 1)` the block at `base + 128` is the free block of
`avail[7]`, its header has `kval = 7 < kval_m`, and applying `buddy_calc`
twice leads to `base + 64`: the header at its buddy address `base` carries
`kval = 6`. -/
theorem buddy_calc_twice_moves :
    ∃ s0 p s, buddy_init lab_consts 65 blank (2 ^ 20) sample_base = some s0 ∧
      buddy_malloc lab_consts 65 false s0 1 = some (p, s) ∧
      Reach lab_consts s0 s [p] [p] ∧
      7 < s.kval_m ∧ free_list s 7 [sample_base + 128] ∧
      (s.mem (sample_base + 128)).kval = 7 ∧
      buddy_calc s (buddy_calc s (Ptr.blk (sample_base + 128))) ≠
        Ptr.blk (sample_base + 128) := by
  have hm := sample_malloc_eq 1 (by decide)
  refine ⟨sample_pool, (sample_malloc 1).1, (sample_malloc 1).2, sample_init_eq, hm,
    ?_, ?_, ?_, ?_, ?_⟩
  · have := @Reach.malloc lab_consts sample_pool _ _ _ _ 65 1 _ Reach.init
      (by decide) hm
    rw [if_neg (by decide)] at this
    exact this
  · decide
  · decide
  · decide
  · decide

theorem sample_malloc2_eq (size1 size2 : Nat)
    (h : (buddy_malloc lab_consts 65 false (sample_malloc size1).2 size2).isSome = true) :
    buddy_malloc lab_consts 65 false (sample_malloc size1).2 size2 =
      some ((sample_malloc2 size1 size2).1, (sample_malloc2 size1 size2).2) :=
  some_getD (0, blank) h

theorem sample_reach (size : Nat) (hs : size < WORD)
    (h : (buddy_malloc lab_consts 65 false sample_pool size).isSome = true)
    (hp : (sample_malloc size).1 ≠ 0) :
    Reach lab_consts sample_pool (sample_malloc size).2 [(sample_malloc size).1]
      [(sample_malloc size).1] := by
  have := @Reach.malloc lab_consts sample_pool _ _ _ _ 65 size _ Reach.init hs
    (sample_malloc_eq size h)
  rw [if_neg hp] at this
  exact this

/-- C1, witness: `buddy_init(&pool, 1 << 20)`, `p = buddy_malloc(&pool, 1)`,
`buddy_free(&pool, p)`. -/
theorem all_freed_pool_full_witness :
    lab_consts.ok ∧ (sample_malloc 1).1 ≠ 0 ∧
    is_full lab_consts (buddy_free lab_consts false (sample_malloc 1).2 (sample_malloc 1).1) := by
  refine ⟨by decide, by decide, ?_⟩
  have h1 := sample_reach 1 (by decide) (by decide) (by decide)
  have h2 := Reach.free h1 (Or.inr (List.mem_singleton.mpr rfl))
  rw [List.erase_cons_head] at h2
  exact all_freed_pool_full lab_consts (by decide) 65 (2 ^ 20) sample_base blank sample_pool _ _
    sample_init_eq (by decide) (by decide) h2

/-- C2, witness of the amended statement: the reserved block at `base + 64`
after `buddy_malloc(&pool, 1)` twice, whose buddy `base` has the same `kval`. -/
theorem buddy_calc_involution_witness :
    (rd (sample_malloc2 1 1).2 (buddy_calc (sample_malloc2 1 1).2
        (Ptr.blk (sample_base + 64)))).kval =
      (rd (sample_malloc2 1 1).2 (Ptr.blk (sample_base + 64))).kval ∧
    buddy_calc (sample_malloc2 1 1).2 (buddy_calc (sample_malloc2 1 1).2
      (Ptr.blk (sample_base + 64))) = Ptr.blk (sample_base + 64) :=
  ⟨by decide, buddy_calc_involution (sample_malloc2 1 1).2 (sample_base + 64) (by decide)
    (by decide) (by decide) (by decide)⟩

/-- C4, witness: the fresh pool of `sample_init`. -/
theorem wrapped_request_gets_small_block_witness :
    ∃ p s, buddy_malloc lab_consts 64 false sample_pool (2 ^ 64 - 1) = some (p, s) ∧ p ≠ 0 ∧
      (s.mem (p - lab_consts.header_size)).tag = lab_consts.BLOCK_RESERVED ∧
      (s.mem (p - lab_consts.header_size)).kval = lab_consts.SMALLEST_K ∧
      ¬ ((2 ^ 64 - 1) + lab_consts.header_size ≤ 2 ^ (s.mem (p - lab_consts.header_size)).kval) ∧
      ¬ (p + (2 ^ 64 - 1) ≤ s.base + 2 ^ s.kval_m) :=
  wrapped_request_gets_small_block lab_consts (by decide) (by decide) (by decide) (by decide)
    65 (2 ^ 20) sample_base blank sample_pool sample_init_eq (by decide) (by decide)

/-- C5, witness. -/
theorem init_kval_m_reaches_MAX_K_witness :
    ∃ s, buddy_init lab_consts 64 blank (2 ^ 48) sample_base = some s ∧ s.kval_m = 48 :=
  init_kval_m_reaches_MAX_K lab_consts blank sample_base (by decide) (by decide)

/-- C6, witness: `buddy_init(&pool, 1 << 20)` returns, and its pool is full. -/
theorem buddy_init_full_witness :
    (∃ s, buddy_init lab_consts 65 blank (2 ^ 20) sample_base = some s) ∧
    is_full lab_consts sample_pool :=
  ⟨(buddy_init_full lab_consts 65 blank (2 ^ 20) sample_base).1 (by norm_num) (by norm_num),
    (buddy_init_full lab_consts 65 blank (2 ^ 20) sample_base).2 sample_pool sample_init_eq⟩

/-- C7, witness: `buddy_malloc(&pool, 128 - 24)` on the fresh pool. -/
theorem malloc_header_witness :
    ∃ a j k0, (sample_pool.avail j).next = Ptr.blk a ∧
      (sample_malloc 104).1 = a + lab_consts.header_size ∧
      btok 65 ((104 + lab_consts.header_size) % WORD) = some k0 ∧
      ((sample_malloc 104).2.mem ((sample_malloc 104).1 - lab_consts.header_size)).tag =
        lab_consts.BLOCK_RESERVED ∧
      ((sample_malloc 104).2.mem ((sample_malloc 104).1 - lab_consts.header_size)).kval =
        max k0 lab_consts.SMALLEST_K ∧
      ∀ k, lab_consts.SMALLEST_K ≤ k → k ≤ sample_pool.kval_m →
        104 = 2 ^ k - lab_consts.header_size →
        ((sample_malloc 104).2.mem ((sample_malloc 104).1 - lab_consts.header_size)).kval = k :=
  malloc_header lab_consts (by decide) 65 (2 ^ 20) sample_base blank sample_pool sample_pool
    (sample_malloc 104).2 [] [] 65 104 (sample_malloc 104).1 sample_init_eq (by decide)
    (by decide) Reach.init (by decide) (sample_malloc_eq 104 (by decide)) (by decide)

/-- C8, witness. -/
theorem malloc_hangs_on_huge_request_witness :
    buddy_malloc lab_consts 1000 false sample_pool (2 ^ 63) = none :=
  malloc_hangs_on_huge_request lab_consts sample_pool 1000 (by decide) (by decide)

/-- C9, witness: the fresh pool of `sample_init`. -/
theorem live_regions_overlap_witness :
    ∃ p1 s1 p2 s2, buddy_malloc lab_consts 64 false sample_pool (2 ^ 64 - 1) = some (p1, s1) ∧
      buddy_malloc lab_consts 64 false s1 1 = some (p2, s2) ∧
      Reach lab_consts sample_pool s2 [p2, p1] [p2, p1] ∧
      p1 ≠ 0 ∧ p2 ≠ 0 ∧ p1 ≠ p2 ∧ p1 ≤ p2 ∧ p2 < p1 + (2 ^ 64 - 1) :=
  live_regions_overlap lab_consts (by decide) (by decide) (by decide) (by decide)
    65 (2 ^ 20) sample_base blank sample_pool sample_init_eq (by decide) (by decide)

/-- C10, witness: the list `avail[7]` after `buddy_malloc(&pool, 1)` on the
fresh pool. -/
theorem no_free_buddy_pair_witness :
    free_list (sample_malloc 1).2 7 [sample_base + 128] ∧
    (sample_malloc 1).2.base + ((sample_base + 128 - (sample_malloc 1).2.base) ^^^ 2 ^ 7) ∉
      [sample_base + 128] :=
  ⟨by decide, no_free_buddy_pair lab_consts (by decide) 65 (2 ^ 20) sample_base blank sample_pool
    (sample_malloc 1).2 [(sample_malloc 1).1] [(sample_malloc 1).1] 7 [sample_base + 128]
    (sample_base + 128)
    sample_init_eq (by decide) (by decide) (sample_reach 1 (by decide) (by decide) (by decide))
    (by decide) (by decide) (List.mem_singleton.mpr rfl)⟩

/-! ### Rounding an address down -/

theorem div_mul_add_lt {P x r : Nat} (hx : P ∣ x) (hr : r < P) : (x + r) / P * P = x := by
  obtain ⟨q, rfl⟩ := hx
  have hP : 0 < P := by omega
  rw [Nat.mul_add_div hP, Nat.div_eq_of_lt hr, Nat.add_zero, Nat.mul_comm]

theorem align_down_of_aligned {base a t : Nat} (hb : base ≤ a) (h : 2 ^ t ∣ (a - base)) :
    align_down base a t = a := by
  unfold align_down
  rw [Nat.div_mul_cancel h]; omega

theorem align_down_of_mem {base a lo t : Nat} (hb : base ≤ lo) (h : 2 ^ t ∣ (lo - base))
    (h1 : lo ≤ a) (h2 : a < lo + 2 ^ t) : align_down base a t = lo := by
  unfold align_down
  have e : a - base = (lo - base) + (a - lo) := by omega
  rw [e, div_mul_add_lt h (by omega)]; omega

theorem align_down_le (base a t : Nat) (hb : base ≤ a) :
    base ≤ align_down base a t ∧ align_down base a t ≤ a ∧
      a < align_down base a t + 2 ^ t ∧ 2 ^ t ∣ (align_down base a t - base) := by
  unfold align_down
  have hp := pow2_pos t
  have h1 := Nat.div_mul_le_self (a - base) (2 ^ t)
  have h2 := Nat.lt_div_mul_add (a := a - base) hp
  refine ⟨by omega, by omega, by omega, ?_⟩
  rw [Nat.add_sub_cancel_left]
  exact Nat.dvd_mul_left _ _

theorem align_down_align_down {base a j t : Nat} (hb : base ≤ a) (hjt : j ≤ t) :
    align_down base (align_down base a j) t = align_down base a t := by
  obtain ⟨h1, h2, h3, h4⟩ := align_down_le base a j hb
  obtain ⟨g1, g2, g3, g4⟩ := align_down_le base a t hb
  apply align_down_of_mem g1 g4
  · -- the coarser start is below the finer start
    by_contra hc
    have h5 : 2 ^ j ∣ (align_down base a t - base) := dvd_trans (pow_dvd_pow_two hjt) g4
    have := mult_gap h4 h5 (by omega)
    omega
  · omega

/-! ### Counting bytes -/

theorem weighted_congr {g g2 : Nat → Nat} :
    ∀ n, (∀ t, t ≤ n → g2 t = g t) → weighted g2 n = weighted g n := by
  intro n
  induction n with
  | zero => intro h; simp [weighted, h 0 (le_refl _)]
  | succ n ih =>
    intro h
    rw [weighted, weighted, ih (fun t ht => h t (by omega)), h (n + 1) (le_refl _)]

/-- Trading one block of level `j` for one block of each level `K .. j-1`
loses `2^K` bytes. -/
theorem weighted_split {g g2 : Nat → Nat} {K j : Nat} (hKj : K ≤ j)
    (hj : g2 j + 1 = g j) (hin : ∀ t, K ≤ t → t < j → g2 t = g t + 1)
    (hout : ∀ t, t < K ∨ j < t → g2 t = g t) :
    ∀ n, (n < K → weighted g2 n = weighted g n) ∧
      (K ≤ n → n < j → weighted g2 n + 2 ^ K = weighted g n + 2 ^ (n + 1)) ∧
      (j ≤ n → weighted g2 n + 2 ^ K = weighted g n) := by
  intro n
  induction n with
  | zero =>
    refine ⟨?_, ?_, ?_⟩
    · intro h; simp [weighted, hout 0 (Or.inl h)]
    · intro h1 h2
      have hK : K = 0 := by omega
      subst hK
      simp only [weighted, hin 0 (le_refl _) h2]
      omega
    · intro h
      have hj0 : j = 0 := by omega
      subst hj0
      have hK : K = 0 := by omega
      subst hK
      simp only [weighted, ← hj]
      omega
  | succ n ih =>
    obtain ⟨ih1, ih2, ih3⟩ := ih
    have hp : 2 ^ (n + 1 + 1) = 2 * 2 ^ (n + 1) := by rw [pow_succ]; ring
    refine ⟨?_, ?_, ?_⟩
    · intro h
      rw [weighted, weighted, ih1 (by omega), hout (n + 1) (Or.inl h)]
    · intro h1 h2
      rw [weighted, weighted, hin (n + 1) h1 h2, Nat.add_mul]
      rcases Nat.lt_or_ge n K with hlt | hge
      · have hK : K = n + 1 := by omega
        rw [ih1 hlt, hK]; omega
      · have := ih2 hge (by omega)
        omega
    · intro h
      rw [weighted, weighted]
      rcases Nat.lt_or_ge n j with hlt | hge
      · have hjn : j = n + 1 := by omega
        have e : g (n + 1) * 2 ^ (n + 1) = g2 (n + 1) * 2 ^ (n + 1) + 2 ^ (n + 1) := by
          rw [← hjn, ← hj, Nat.add_mul]; omega
        rw [e]
        rcases Nat.lt_or_ge n K with hlt2 | hge2
        · have hK : K = n + 1 := by omega
          rw [ih1 hlt2, hK]; omega
        · have := ih2 hge2 hlt
          omega
      · rw [hout (n + 1) (Or.inr (by omega))]
        have := ih3 hge
        omega

theorem reserved_bytes_cons (a k : Nat) (R : List (Nat × Nat)) :
    reserved_bytes ((a, k) :: R) = 2 ^ k + reserved_bytes R := by
  simp [reserved_bytes]

theorem reserved_bytes_erase {R : List (Nat × Nat)} {a k : Nat} (h : (a, k) ∈ R) :
    reserved_bytes (R.erase (a, k)) + 2 ^ k = reserved_bytes R := by
  induction R with
  | nil => simp at h
  | cons x R ih =>
    by_cases hx : x = (a, k)
    · subst hx
      rw [List.erase_cons_head, reserved_bytes_cons]; omega
    · have hmem : (a, k) ∈ R := by
        rcases List.mem_cons.mp h with e | e
        · exact absurd e.symm hx
        · exact e
      rw [List.erase_cons_tail (by simpa using hx)]
      obtain ⟨xa, xk⟩ := x
      rw [reserved_bytes_cons, reserved_bytes_cons]
      have := ih hmem
      omega

/-- The lower of a block and its buddy starts the aligned region of twice the
size. -/
theorem lower_of_pair {base a k : Nat} (hb : base ≤ a) (hal : 2 ^ k ∣ (a - base)) :
    (if buddy_addr base a k < a then buddy_addr base a k else a) = align_down base a (k + 1) := by
  have hpk := pow2_pos k
  have hp1 : 2 ^ (k + 1) = 2 * 2 ^ k := by rw [pow_succ]; ring
  rcases buddy_addr_cases hb hal with ⟨h1, h2⟩ | ⟨h0, h1, h2⟩
  · rw [if_neg (by omega)]
    exact (align_down_of_aligned hb h1).symm
  · rw [if_pos (by omega)]
    exact (align_down_of_mem h0 h1 (by omega) (by omega)).symm

section desc
variable {c : Consts} {R : List (Nat × Nat)}

/-- The coalescing loop of `buddy_free`, with the level it stops at and the
free lists it leaves. -/
theorem coalesce_desc (hc : c.ok) :
    ∀ (n : Nat) (s : State) (F : Nat → List Nat) (a k : Nat), n = s.kval_m - k →
      PInv c s F R (some (a, k)) →
      (rd s (Ptr.blk a)).tag = c.BLOCK_AVAIL ∧ (rd s (Ptr.blk a)).kval = k →
      ∃ k', k ≤ k' ∧ k' ≤ s.kval_m ∧
        (coalesce c n s (Ptr.blk a) k).2.1 = Ptr.blk (align_down s.base a k') ∧
        (coalesce c n s (Ptr.blk a) k).2.2 = k' ∧
        (∀ t, k ≤ t → t < k' → buddy_addr s.base (align_down s.base a t) t ∈ F t) ∧
        (k' < s.kval_m → buddy_addr s.base (align_down s.base a k') k' ∉ F k') ∧
        PInv c (coalesce c n s (Ptr.blk a) k).1
          (fun t => if k ≤ t ∧ t < k' then
            (F t).erase (buddy_addr s.base (align_down s.base a t) t) else F t)
          R (some (align_down s.base a k', k')) ∧
        (rd (coalesce c n s (Ptr.blk a) k).1 (Ptr.blk (align_down s.base a k'))).tag =
          c.BLOCK_AVAIL ∧
        (rd (coalesce c n s (Ptr.blk a) k).1 (Ptr.blk (align_down s.base a k'))).kval = k' := by
  intro n
  induction n with
  | zero =>
    intro s F a k hn h hh
    have hla : Live F R (some (a, k)) a k := Or.inr (Or.inr rfl)
    obtain ⟨hkm, hba, hal, _⟩ := h.part.geom a k hla
    have ea : align_down s.base a k = a := align_down_of_aligned hba hal
    have eF : (fun t => if k ≤ t ∧ t < k then
        (F t).erase (buddy_addr s.base (align_down s.base a t) t) else F t) = F := by
      funext t; rw [if_neg (by omega)]
    refine ⟨k, le_refl _, hkm, ?_, rfl, ?_, ?_, ?_, ?_, ?_⟩
    · rw [ea]; rfl
    · intro t h1 h2; omega
    · intro hk; omega
    · rw [eF, ea]; exact h
    · rw [ea]; exact hh.1
    · rw [ea]; exact hh.2
  | succ n ih =>
    intro s F a k hn h hh
    have hk : k < s.kval_m := by omega
    have hla : Live F R (some (a, k)) a k := Or.inr (Or.inr rfl)
    have hbc := h.buddy_calc_eq hla hh.2 hk
    obtain ⟨hkm, hba, hal, _⟩ := h.part.geom a k hla
    have ea : align_down s.base a k = a := align_down_of_aligned hba hal
    rw [coalesce]
    simp only [hbc]
    by_cases hcond : (rd s (Ptr.blk (buddy_addr s.base a k))).tag ≠ c.BLOCK_AVAIL ∨
        (rd s (Ptr.blk (buddy_addr s.base a k))).kval ≠ k
    · rw [if_pos hcond]
      have eF : (fun t => if k ≤ t ∧ t < k then
          (F t).erase (buddy_addr s.base (align_down s.base a t) t) else F t) = F := by
        funext t; rw [if_neg (by omega)]
      refine ⟨k, le_refl _, hkm, ?_, rfl, ?_, ?_, ?_, ?_, ?_⟩
      · rw [ea]
      · intro t h1 h2; omega
      · intro _ hb
        rw [ea] at hb
        have := h.hdF k _ hb
        rcases hcond with h1 | h1
        · exact h1 this.1
        · exact h1 this.2
      · rw [eF, ea]; exact h
      · rw [ea]; exact hh.1
      · rw [ea]; exact hh.2
    · rw [if_neg hcond]
      push_neg at hcond
      have hb : buddy_addr s.base a k ∈ F k := by
        obtain ⟨k', hk', hl'⟩ := h.part.buddy_live hla hk
        rcases hl' with h1 | h1 | h1
        · have := (h.hdF k' _ h1).2
          rw [hcond.2] at this
          rw [← this] at h1; exact h1
        · have := (h.hdR _ _ h1).1
          rw [hcond.1] at this
          exact absurd this hc.1
        · simp only [Option.some.injEq, Prod.mk.injEq] at h1
          exact absurd h1.1.symm (buddy_addr_ne hba hal)
      obtain ⟨hP, ht, hkv⟩ := h.merge_step hc hb hh.1
      have hlo : (if addr s (Ptr.blk (buddy_addr s.base a k)) < addr s (Ptr.blk a) then
          Ptr.blk (buddy_addr s.base a k) else Ptr.blk a) =
          Ptr.blk (if buddy_addr s.base a k < a then buddy_addr s.base a k else a) := by
        simp only [addr]; split <;> rfl
      rw [hlo]
      have elo := lower_of_pair hba hal
      rw [elo] at hP ht hkv ⊢
      obtain ⟨k', h1, h2, h3, h4, h5, h6, h7, h8, h9⟩ :=
        ih _ _ _ (k + 1) (by simp; omega) hP ⟨ht, hkv⟩
      have ebase : (set_kval (unlink s (Ptr.blk (buddy_addr s.base a k)))
          (Ptr.blk (align_down s.base a (k + 1))) (k + 1)).base = s.base := by simp
      have ekm : (set_kval (unlink s (Ptr.blk (buddy_addr s.base a k)))
          (Ptr.blk (align_down s.base a (k + 1))) (k + 1)).kval_m = s.kval_m := by simp
      rw [ebase] at h3 h5 h6 h7 h8 h9
      rw [ekm] at h2 h6
      have ead : ∀ t, k + 1 ≤ t →
          align_down s.base (align_down s.base a (k + 1)) t = align_down s.base a t :=
        fun t ht => align_down_align_down hba ht
      rw [ead k' h1] at h3 h6 h7 h8 h9
      refine ⟨k', by omega, h2, h3, h4, ?_, ?_, ?_, h8, h9⟩
      · intro t ht1 ht2
        by_cases e : t = k
        · rw [e, ea]; exact hb
        · have := h5 t (by omega) ht2
          rw [ead t (by omega), upd_other _ _ _ e] at this
          exact this
      · intro hk'
        have := h6 hk'
        rw [upd_other _ _ _ (by omega)] at this
        exact this
      · have eF : (fun t => if k + 1 ≤ t ∧ t < k' then
            (upd F k ((F k).erase (buddy_addr s.base a k)) t).erase
              (buddy_addr s.base (align_down s.base (align_down s.base a (k + 1)) t) t)
            else upd F k ((F k).erase (buddy_addr s.base a k)) t) =
            (fun t => if k ≤ t ∧ t < k' then
              (F t).erase (buddy_addr s.base (align_down s.base a t) t) else F t) := by
          funext t
          by_cases e : t = k
          · rw [e, if_neg (by omega), if_pos (by omega), upd_same, ea]
          · rw [upd_other _ _ _ e]
            by_cases hin : k + 1 ≤ t ∧ t < k'
            · rw [if_pos hin, if_pos (by omega), ead t hin.1]
            · rw [if_neg hin, if_neg (by omega)]
        rw [eF] at h7
        exact h7

variable {s : State} {F : Nat → List Nat}

/-- What a call of `buddy_free` on a live pointer does to the free lists of a
pool that satisfies the invariant. -/
theorem free_desc (hc : c.ok) (h : PInv c s F R none) {a k : Nat} (hR : (a, k) ∈ R) :
    ∃ k', k ≤ k' ∧ k' ≤ s.kval_m ∧
      (∀ t, k ≤ t → t < k' → buddy_addr s.base (align_down s.base a t) t ∈ F t) ∧
      (k' < s.kval_m → buddy_addr s.base (align_down s.base a k') k' ∉ F k') ∧
      PInv c (buddy_free c false s (a + c.header_size)) (lists_after_free F s.base a k k')
        (R.erase (a, k)) none := by
  obtain ⟨hba, hfit, _⟩ := h.live_bound (Or.inr (Or.inl hR) : Live F R none a k)
  have hbpos := h.bnd.2.1
  have hpk := pow2_pos k
  obtain ⟨htag, hkv, hsk⟩ := h.hdR a k hR
  have hle : 2 ^ c.SMALLEST_K ≤ 2 ^ k := Nat.pow_le_pow_right (by norm_num) hsk
  have hlt := hc.2.1
  have e0 : c.header_size % WORD = c.header_size := Nat.mod_eq_of_lt (by omega)
  have e1 : (a + c.header_size + WORD - c.header_size % WORD) % WORD = a := by
    rw [e0]
    have : a + c.header_size + WORD - c.header_size = a + WORD := by omega
    rw [this, Nat.add_mod_right]
    exact Nat.mod_eq_of_lt (by omega)
  unfold buddy_free
  rw [if_neg (by simp; omega)]
  simp only [e1]
  rw [if_neg (by simp [htag])]
  simp only [hkv]
  have hP1 := h.unreserve hc hR
  obtain ⟨k', h1, h2, h3, h4, h5, h6, h7, h8, h9⟩ := coalesce_desc hc
    ((set_tag s (Ptr.blk a) c.BLOCK_AVAIL).kval_m - k) _ F a k rfl hP1
    (by simp [hkv])
  have ebase : (set_tag s (Ptr.blk a) c.BLOCK_AVAIL).base = s.base := by simp
  have ekm : (set_tag s (Ptr.blk a) c.BLOCK_AVAIL).kval_m = s.kval_m := by simp
  rw [ebase] at h3 h5 h6 h7 h8 h9
  rw [ekm] at h2 h6
  refine ⟨k', h1, h2, h5, h6, ?_⟩
  rw [h3, h4]
  have hfr := coalesce_frame c ((set_tag s (Ptr.blk a) c.BLOCK_AVAIL).kval_m - k)
    (set_tag s (Ptr.blk a) c.BLOCK_AVAIL) (Ptr.blk a) k
  have hfr1 := hfr.1.trans ekm
  have hfr2 := hfr.2.trans ebase
  have hput := h7.put ⟨h8, h9⟩ (by
    intro hk'
    rw [hfr1] at hk'
    rw [hfr2, if_neg (by omega)]
    exact h6 hk')
  have eF : upd (fun t => if k ≤ t ∧ t < k' then
      (F t).erase (buddy_addr s.base (align_down s.base a t) t) else F t) k'
      (align_down s.base a k' :: (fun t => if k ≤ t ∧ t < k' then
        (F t).erase (buddy_addr s.base (align_down s.base a t) t) else F t) k') =
      lists_after_free F s.base a k k' := by
    funext t
    unfold lists_after_free
    by_cases e : t = k'
    · subst e
      simp
    · simp [e]
  rw [eF] at hput
  exact hput

end desc

theorem weighted_single (m : Nat) :
    ∀ n, weighted (fun t => (if t = m then [m] else ([] : List Nat)).length) n =
      if m ≤ n then 2 ^ m else 0 := by
  intro n
  induction n with
  | zero =>
    by_cases h : m = 0
    · subst h; simp [weighted]
    · have h' : ¬ (0 = m) := fun e => h e.symm
      simp [weighted, h, h']
  | succ n ih =>
    rw [weighted, ih]
    by_cases h : m ≤ n
    · have h' : ¬ (n + 1 = m) := by omega
      simp [h, h', show m ≤ n + 1 by omega]
    · by_cases e : n + 1 = m
      · subst e
        simp
      · simp [h, e, show ¬ (m ≤ n + 1) by omega]

/-- The free bytes of a full pool. -/
theorem free_bytes_full (base m : Nat) :
    free_bytes (fun i => if i = m then [base] else []) m = 2 ^ m := by
  have e : free_bytes (fun i => if i = m then [base] else []) m =
      weighted (fun t => (if t = m then [m] else ([] : List Nat)).length) m := by
    unfold free_bytes
    apply weighted_congr
    intro t _
    by_cases h : t = m <;> simp [h]
  rw [e, weighted_single, if_pos (le_refl _)]

/-- The byte count after `buddy_malloc` took a block of level `K` out of the
head of list `j`. -/
theorem free_bytes_malloc {F F' : Nat → List Nat} {a K j m : Nat} {l : List Nat}
    (hKj : K ≤ j) (hjm : j ≤ m) (hFj : F j = a :: l)
    (hdesc : ∀ t, F' t = if K ≤ t ∧ t < j then (a + 2 ^ t) :: upd F j l t else upd F j l t) :
    free_bytes F' m + 2 ^ K = free_bytes F m := by
  unfold free_bytes
  refine (weighted_split hKj ?_ ?_ ?_ m).2.2 hjm
  · show (F' j).length + 1 = (F j).length
    rw [hdesc j, if_neg (by omega), upd_same, hFj]; rfl
  · intro t h1 h2
    show (F' t).length = (F t).length + 1
    rw [hdesc t, if_pos ⟨h1, h2⟩, upd_other _ _ _ (by omega)]; rfl
  · intro t ht
    show (F' t).length = (F t).length
    rw [hdesc t, if_neg (by omega), upd_other _ _ _ (by omega)]

/-- The byte count after `buddy_free` merged a block of level `k` up to level
`k2`. -/
theorem free_bytes_free {F : Nat → List Nat} {base a k k2 m : Nat}
    (hk : k ≤ k2) (hkm : k2 ≤ m)
    (hin : ∀ t, k ≤ t → t < k2 → buddy_addr base (align_down base a t) t ∈ F t) :
    free_bytes F m + 2 ^ k = free_bytes (lists_after_free F base a k k2) m := by
  unfold free_bytes
  refine (weighted_split hk ?_ ?_ ?_ m).2.2 hkm
  · show (F k2).length + 1 = (lists_after_free F base a k k2 k2).length
    unfold lists_after_free
    rw [if_pos rfl]; rfl
  · intro t h1 h2
    show (F t).length = (lists_after_free F base a k k2 t).length + 1
    unfold lists_after_free
    rw [if_neg (by omega), if_pos ⟨h1, h2⟩, List.length_erase_of_mem (hin t h1 h2)]
    have := List.length_pos_of_mem (hin t h1 h2)
    omega
  · intro t ht
    show (F t).length = (lists_after_free F base a k k2 t).length
    unfold lists_after_free
    rw [if_neg (by omega), if_neg (by omega)]

/-- The invariant of `reach_inv`, together with the lower bound on the level
of the free blocks and the byte count. -/
theorem reach_ext {c : Consts} (hc : c.ok) {s0 : State} {F0 : Nat → List Nat}
    (h0 : PInv c s0 F0 [] none) (hlo0 : ∀ t a, a ∈ F0 t → c.SMALLEST_K ≤ t)
    (hsum0 : free_bytes F0 s0.kval_m = 2 ^ s0.kval_m)
    {s : State} {L E : List Nat} (hr : Reach c s0 s L E) :
    ∃ F R, PInv c s F R none ∧ L.Nodup ∧
      (∀ p, p ∈ L ↔ ∃ a k, (a, k) ∈ R ∧ p = a + c.header_size) ∧
      (∀ p, p ∈ E → ∃ a, p = a + c.header_size ∧ p < WORD ∧
        (p ∈ L ∨ (rd s (Ptr.blk a)).tag = c.BLOCK_AVAIL)) ∧
      (∀ t a, a ∈ F t → c.SMALLEST_K ≤ t) ∧
      free_bytes F s.kval_m + reserved_bytes R = 2 ^ s.kval_m := by
  induction hr with
  | init => exact ⟨F0, [], h0, List.nodup_nil, by simp, by simp, hlo0, by
      simpa [reserved_bytes] using hsum0⟩
  | @malloc s s' L E fuel size p _ hsz hm ih =>
    obtain ⟨F, R, hP, hnd, hL, hE, hlo, hsum⟩ := ih
    rcases Nat.eq_zero_or_pos size with hz | hpos
    · subst hz
      simp only [buddy_malloc, or_true, if_true, Option.some.injEq, Prod.mk.injEq] at hm
      obtain ⟨rfl, rfl⟩ := hm
      exact ⟨F, R, hP, by simpa using hnd, by simpa using hL, by simpa using hE, hlo, hsum⟩
    · obtain ⟨hf1, _⟩ := malloc_frame hm
      obtain ⟨k0, _, hcase⟩ := malloc_inv hc hP hpos hm
      rcases hcase with ⟨hp0, hs', _⟩ |
        ⟨a, j, l, F', hp, hp0, hpW, hKj, hjm, hFj, _, hdesc, htag, hP'⟩
      · subst hp0
        rw [hs']
        refine ⟨F, R, hP.errno _, by simpa using hnd, by simpa using hL, ?_, hlo, hsum⟩
        intro q hq
        obtain ⟨a, h1, h2, h3⟩ := hE q (by simpa using hq)
        exact ⟨a, h1, h2, by simpa [rd_errno] using h3⟩
      · have haR : ∀ k', (a, k') ∉ R := fun k' => hP.sepFR hc (by rw [hFj]; simp)
        rw [if_neg hp0, if_neg hp0]
        refine ⟨F', _, hP', ?_, ?_, ?_, ?_, ?_⟩
        · refine List.nodup_cons.mpr ⟨?_, hnd⟩
          intro hin
          obtain ⟨a', k', hR', e⟩ := (hL p).mp hin
          have : a' = a := by omega
          subst this
          exact haR k' hR'
        · intro q
          simp only [List.mem_cons, Prod.mk.injEq]
          constructor
          · rintro (e | e)
            · exact ⟨a, _, Or.inl ⟨rfl, rfl⟩, by rw [e, hp]⟩
            · obtain ⟨a', k', hR', e'⟩ := (hL q).mp e
              exact ⟨a', k', Or.inr hR', e'⟩
          · rintro ⟨a', k', hR' | hR', e⟩
            · left; rw [e, hp, hR'.1]
            · right; exact (hL q).mpr ⟨a', k', hR', e⟩
        · intro q hq
          rcases List.mem_cons.mp hq with e | e
          · exact ⟨a, by rw [e, hp], by rw [e]; exact hpW, Or.inl (by rw [e]; simp)⟩
          · obtain ⟨a', h1, h2, h3⟩ := hE q e
            refine ⟨a', h1, h2, ?_⟩
            rcases h3 with h3 | h3
            · exact Or.inl (List.mem_cons_of_mem _ h3)
            · by_cases ha : a' = a
              · left
                have : q = p := by rw [h1, hp, ha]
                rw [this]; simp
              · right
                rcases htag a' ha with e' | e'
                · rw [e']; exact h3
                · exact e'
        · intro t x hx
          rw [hdesc t] at hx
          have hsub : ∀ y, y ∈ l → y ∈ F j := fun y hy => by rw [hFj]; exact List.mem_cons_of_mem _ hy
          by_cases hin : max k0 c.SMALLEST_K ≤ t ∧ t < j
          · have := le_max_right k0 c.SMALLEST_K
            omega
          · rw [if_neg hin] at hx
            exact hlo t x (mem_upd_sub hsub hx)
        · rw [hf1, reserved_bytes_cons]
          have := @free_bytes_malloc F F' a (max k0 c.SMALLEST_K) j s.kval_m l hKj hjm hFj hdesc
          omega
  | @free s L E p _ hp ih =>
    obtain ⟨F, R, hP, hnd, hL, hE, hlo, hsum⟩ := ih
    have hbpos := hP.bnd.2.1
    by_cases hpL : p ∈ L
    · obtain ⟨a, k, hR, e⟩ := (hL p).mp hpL
      subst e
      have htag' := (free_inv hc hP hR).2
      obtain ⟨k', hk1, hk2, hin, _, hP'⟩ := free_desc hc hP hR
      refine ⟨_, _, hP', hnd.erase _, ?_, ?_, ?_, ?_⟩
      · intro q
        rw [List.Nodup.mem_erase_iff hnd]
        constructor
        · rintro ⟨hne, hq⟩
          obtain ⟨a', k', hR', e'⟩ := (hL q).mp hq
          refine ⟨a', k', ?_, e'⟩
          apply (List.Nodup.mem_erase_iff hP.ndR).mpr
          refine ⟨?_, hR'⟩
          intro epair
          simp only [Prod.mk.injEq] at epair
          apply hne; rw [e', epair.1]
        · rintro ⟨a', k', hR', e'⟩
          have hmem := (List.Nodup.mem_erase_iff hP.ndR).mp hR'
          refine ⟨?_, (hL q).mpr ⟨a', k', hmem.2, e'⟩⟩
          intro eq
          have : a' = a := by omega
          subst this
          have := hP.sepRR hmem.2 hR
          subst this
          exact hmem.1 rfl
      · intro q hq
        obtain ⟨a', h1, h2, h3⟩ := hE q hq
        refine ⟨a', h1, h2, ?_⟩
        by_cases hqp : q = a + c.header_size
        · right
          have : a' = a := by omega
          rw [this]; exact htag'
        · rcases h3 with h3 | h3
          · exact Or.inl ((List.Nodup.mem_erase_iff hnd).mpr ⟨hqp, h3⟩)
          · right
            rcases free_tag c false s (a + c.header_size) (Ptr.blk a') with e' | e'
            · rw [e']; exact h3
            · exact e'
      · intro t x hx
        unfold lists_after_free at hx
        by_cases e : t = k'
        · have := (hP.hdR a k hR).2.2
          omega
        · rw [if_neg e] at hx
          by_cases hin' : k ≤ t ∧ t < k'
          · rw [if_pos hin'] at hx
            exact hlo t x (List.mem_of_mem_erase hx)
          · rw [if_neg hin'] at hx
            exact hlo t x hx
      · rw [(free_frame c false s (a + c.header_size)).1]
        have h1 := @free_bytes_free F s.base a k k' s.kval_m hk1 hk2 hin
        have h2 := reserved_bytes_erase hR
        omega
    · have hrej : buddy_free c false s p = s := by
        apply free_rejected
        right
        rcases hp with hp | hp
        · exact Or.inl hp
        · right
          obtain ⟨a, h1, h2, h3⟩ := hE p hp
          rcases h3 with h3 | h3
          · exact absurd h3 hpL
          · have e1 : (p + WORD - c.header_size % WORD) % WORD = a := by
              have e0 : c.header_size % WORD = c.header_size :=
                Nat.mod_eq_of_lt (by omega)
              rw [e0]
              have : p + WORD - c.header_size = a + WORD := by omega
              rw [this, Nat.add_mod_right]
              exact Nat.mod_eq_of_lt (by omega)
            rw [e1, h3]
            exact hc.1
      rw [hrej, List.erase_of_not_mem hpL]
      exact ⟨F, R, hP, hnd, hL, hE, hlo, hsum⟩

/-- The extended invariant in every state reachable from a pool that
`buddy_init` returned. -/
theorem reach_init_ext {c : Consts} (hc : c.ok) (hk : c.SMALLEST_K ≤ c.MIN_K)
    (hmk : c.MIN_K < c.MAX_K) {fuel size base : Nat} {w s0 s : State}
    {L E : List Nat}
    (h0 : buddy_init c fuel w size base = some s0) (hb : 0 < base)
    (hfit : base + 2 ^ s0.kval_m ≤ WORD) (hr : Reach c s0 s L E) :
    ∃ F R, PInv c s F R none ∧ L.Nodup ∧
      (∀ p, p ∈ L ↔ ∃ a k, (a, k) ∈ R ∧ p = a + c.header_size) ∧
      (∀ p, p ∈ E → ∃ a, p = a + c.header_size ∧ p < WORD ∧
        (p ∈ L ∨ (rd s (Ptr.blk a)).tag = c.BLOCK_AVAIL)) ∧
      (∀ t a, a ∈ F t → c.SMALLEST_K ≤ t) ∧
      free_bytes F s.kval_m + reserved_bytes R = 2 ^ s.kval_m := by
  obtain ⟨kval, hkv, hkm, _, _, _, _⟩ := buddy_init_spec h0
  have hge := init_kval_ge hkv hmk
  refine reach_ext hc (init_inv hc h0 hb hfit) ?_ (free_bytes_full _ _) hr
  intro t a ha
  by_cases e : t = s0.kval_m
  · omega
  · simp [e] at ha

/-! ### Links of a ring -/

/-- Along a chain every node is the `prev` of its `next` and the `next` of
its `prev`. -/
theorem Chain.links {s : State} {q : Ptr} :
    ∀ (l : List Nat) (p : Ptr), Chain s p l q →
      (rd s (rd s p).next).prev = p ∧ (rd s (rd s q).prev).next = q ∧
      ∀ a, a ∈ l → (rd s (rd s (Ptr.blk a)).next).prev = Ptr.blk a ∧
        (rd s (rd s (Ptr.blk a)).prev).next = Ptr.blk a := by
  intro l
  induction l with
  | nil =>
    intro p h
    obtain ⟨h1, h2⟩ := h
    refine ⟨by rw [h1, h2], by rw [h2, h1], ?_⟩
    intro a ha
    simp at ha
  | cons a l ih =>
    intro p h
    obtain ⟨h1, h2, h3⟩ := h
    obtain ⟨i1, i2, i3⟩ := ih (Ptr.blk a) h3
    refine ⟨by rw [h1, h2], i2, ?_⟩
    intro x hx
    rcases List.mem_cons.mp hx with e | e
    · subst e
      exact ⟨i1, by rw [h2, h1]⟩
    · exact i3 x e

/-- The header of the block a pointer of `buddy_malloc` belongs to. -/
theorem header_of_ptr {a hs : Nat} (h : a + hs < WORD) :
    (a + hs + WORD - hs % WORD) % WORD = a := by
  have e0 : hs % WORD = hs := Nat.mod_eq_of_lt (by omega)
  rw [e0]
  have : a + hs + WORD - hs = a + WORD := by omega
  rw [this, Nat.add_mod_right]
  exact Nat.mod_eq_of_lt (by omega)

theorem not_pow_succ_dvd (k : Nat) : ¬ (2 ^ (k + 1) ∣ 2 ^ k) := by
  intro h
  have := Nat.le_of_dvd (pow2_pos k) h
  have hp1 : 2 ^ (k + 1) = 2 * 2 ^ k := by rw [pow_succ]; ring
  have := pow2_pos k
  omega

/-- The buddy of the lower half of an aligned pair is the upper half. -/
theorem buddy_addr_of_aligned {base a k : Nat} (hb : base ≤ a)
    (h : 2 ^ (k + 1) ∣ (a - base)) : buddy_addr base a k = a + 2 ^ k := by
  have hk : 2 ^ k ∣ (a - base) := dvd_trans (pow_dvd_pow_two (Nat.le_succ k)) h
  rcases buddy_addr_cases hb hk with ⟨_, h2⟩ | ⟨h0, h1, h2⟩
  · exact h2
  · exfalso
    have e : a - base = (buddy_addr base a k - base) + 2 ^ k := by omega
    rw [e] at h
    exact not_pow_succ_dvd k ((Nat.dvd_add_right h1).mp h)

/-! ### Claims C11 to C20 -/

/-- C13.  `buddy_free(pool, ptr)` returns the state it was given, unchanged in
every field (free lists, block headers, pool fields, `errno`), when `pool` is
`NULL`, when `ptr` is `NULL`, or when the header at
`ptr - sizeof(struct avail)` carries a tag other than `BLOCK_RESERVED`. -/
theorem rejected_free_changes_nothing (c : Consts) (pool_null : Bool) (s : State) (ptr : Nat)
    (h : pool_null = true ∨ ptr = 0 ∨
      (s.mem ((ptr + WORD - c.header_size % WORD) % WORD)).tag ≠ c.BLOCK_RESERVED) :
    buddy_free c pool_null s ptr = s := by
  unfold buddy_free
  by_cases h1 : pool_null = true ∨ ptr = 0
  · rw [if_pos h1]
  · rw [if_neg h1]
    rcases h with h | h | h
    · exact absurd (Or.inl h) h1
    · exact absurd (Or.inr h) h1
    · rw [mem_eq_rd] at h
      rw [if_pos h]

/-- C14.  In every state reachable from `buddy_init`, for a live pointer `p`:
after `buddy_free(pool, p)` the header at `p - sizeof(struct avail)` carries
`BLOCK_AVAIL`, and a second `buddy_free(pool, p)` leaves the state as the first
call left it. -/
theorem double_free_harmless (c : Consts) (hc : c.ok) (fuel0 size0 base : Nat)
    (w s0 s : State) (L E : List Nat) (p : Nat)
    (h0 : buddy_init c fuel0 w size0 base = some s0) (hb : 0 < base)
    (hfit : base + 2 ^ s0.kval_m ≤ WORD) (hr : Reach c s0 s L E) (hp : p ∈ L) :
    ((buddy_free c false s p).mem (p - c.header_size)).tag = c.BLOCK_AVAIL ∧
    buddy_free c false (buddy_free c false s p) p = buddy_free c false s p := by
  obtain ⟨F, R, hP, _, hL, _⟩ := reach_init_inv hc h0 hb hfit hr
  obtain ⟨a, k, hR, e⟩ := (hL p).mp hp
  subst e
  have htag := (free_inv hc hP hR).2
  obtain ⟨_, hfitk, _⟩ := hP.live_bound (Or.inr (Or.inl hR) : Live F R none a k)
  obtain ⟨_, _, hsk⟩ := hP.hdR a k hR
  have hle : 2 ^ c.SMALLEST_K ≤ 2 ^ k := Nat.pow_le_pow_right (by norm_num) hsk
  have hlt := hc.2.1
  have e1 := @header_of_ptr a c.header_size (by omega)
  have e2 : a + c.header_size - c.header_size = a := by omega
  rw [e2, mem_eq_rd]
  refine ⟨htag, ?_⟩
  apply free_rejected
  right; right
  rw [e1, htag]
  exact hc.1

/-- C16.  For a block at `base + o` whose header has `kval = k < kval_m`, with
`o < 2^kval_m` a multiple of `2^k` (and the region below `2^64`), `buddy_calc`
returns `base + (o XOR 2^k)`.  That offset is `o + 2^k` or `o - 2^k`, is a
multiple of `2^k` below `2^kval_m`, and the lower of the two offsets is `o`
with bit `k` cleared, a multiple of `2^(k+1)`.  Nothing is assumed on the
alignment of `base`. -/
theorem buddy_calc_offset (s : State) (o k : Nat) (hk : k < s.kval_m)
    (hfit : s.base + 2 ^ s.kval_m ≤ WORD) (ho : o < 2 ^ s.kval_m) (hal : 2 ^ k ∣ o)
    (hkv : (s.mem (s.base + o)).kval = k) :
    buddy_calc s (Ptr.blk (s.base + o)) = Ptr.blk (s.base + (o ^^^ 2 ^ k)) ∧
    ((o ^^^ 2 ^ k) = o + 2 ^ k ∨ o = (o ^^^ 2 ^ k) + 2 ^ k) ∧
    2 ^ k ∣ (o ^^^ 2 ^ k) ∧ (o ^^^ 2 ^ k) < 2 ^ s.kval_m ∧
    min o (o ^^^ 2 ^ k) = o / 2 ^ (k + 1) * 2 ^ (k + 1) ∧
    (∀ i, (min o (o ^^^ 2 ^ k)).testBit i = (o.testBit i && decide (i ≠ k))) ∧
    max o (o ^^^ 2 ^ k) + 2 ^ k = min o (o ^^^ 2 ^ k) + 2 ^ (k + 1) := by
  have hpk := pow2_pos k
  have hp1 : 2 ^ (k + 1) = 2 * 2 ^ k := by rw [pow_succ]; ring
  have hkm : 2 ^ (k + 1) ∣ 2 ^ s.kval_m := pow_dvd_pow_two (by omega)
  have hW : (2 : Nat) ^ k < WORD := by
    have := Nat.le_of_dvd (pow2_pos _) hkm
    omega
  have hbit : ∀ y, 2 ^ (k + 1) ∣ y → y.testBit k = false := by
    intro y hy
    obtain ⟨q, rfl⟩ := hy
    rw [Nat.testBit_to_div_mod]
    have : 2 ^ (k + 1) * q / 2 ^ k = 2 * q := by
      rw [hp1, Nat.mul_assoc, Nat.mul_comm 2, Nat.mul_assoc, Nat.mul_div_cancel_left _ hpk]
      ring
    rw [this]
    simp
  have hcases := xor_pow_cases hal
  have hlt : (o ^^^ 2 ^ k) < 2 ^ s.kval_m := by
    rcases hcases with ⟨h1, h2⟩ | ⟨h1, h2⟩
    · have := mult_gap h1 hkm ho
      omega
    · omega
  refine ⟨?_, ?_, ?_, hlt, ?_, ?_, ?_⟩
  · unfold buddy_calc
    rw [← mem_eq_rd]
    simp only [hkv, addr]
    have e0 : s.base % WORD = s.base := Nat.mod_eq_of_lt (by omega)
    have e1 : (s.base + o + WORD - s.base % WORD) % WORD = o := by
      rw [e0]
      have : s.base + o + WORD - s.base = o + WORD := by omega
      rw [this, Nat.add_mod_right]
      exact Nat.mod_eq_of_lt (by omega)
    have e2 : 2 ^ k % WORD = 2 ^ k := Nat.mod_eq_of_lt hW
    rw [e1, e2, Nat.mod_eq_of_lt (by omega)]
  · rcases hcases with ⟨_, h2⟩ | ⟨_, h2⟩
    · exact Or.inl h2
    · exact Or.inr h2
  · rcases hcases with ⟨_, h2⟩ | ⟨h1, _⟩
    · rw [h2]; exact (Nat.dvd_add_right hal).mpr (dvd_refl _)
    · exact dvd_trans (pow_dvd_pow_two (Nat.le_succ k)) h1
  · rcases hcases with ⟨h1, h2⟩ | ⟨h1, h2⟩
    · rw [min_eq_left (by omega), Nat.div_mul_cancel h1]
    · rw [min_eq_right (by omega)]
      have := div_mul_add_lt h1 (show 2 ^ k < 2 ^ (k + 1) by omega)
      rw [← h2] at this
      exact this.symm
  · intro i
    rcases hcases with ⟨h1, h2⟩ | ⟨h1, h2⟩
    · rw [min_eq_left (by omega)]
      by_cases e : i = k
      · subst e; simp [hbit o h1]
      · simp [e]
    · rw [min_eq_right (by omega)]
      by_cases e : i = k
      · subst e; simp [hbit _ h1]
      · have e' : ¬ (k = i) := fun x => e x.symm
        rw [Nat.testBit_xor, Nat.testBit_two_pow]
        simp [e, e']
  · rcases hcases with ⟨h1, h2⟩ | ⟨h1, h2⟩
    · rw [min_eq_left (by omega), max_eq_right (by omega)]; omega
    · rw [min_eq_right (by omega), max_eq_left (by omega)]; omega

/-- C19.  `buddy_malloc(pool, size)` finishes, for some number of rounds of
the loop of `btok`, exactly when `size = 0` or
`(size + sizeof(struct avail)) mod 2^64 ≤ 2^63`: on every other request the
call never returns, in any pool. -/
theorem malloc_finishes_iff (c : Consts) (s : State) (size : Nat) :
    (∃ fuel r, buddy_malloc c fuel false s size = some r) ↔
      (size = 0 ∨ (size + c.header_size) % WORD ≤ 2 ^ 63) := by
  constructor
  · rintro ⟨fuel, r, h⟩
    by_contra hn
    push_neg at hn
    unfold buddy_malloc at h
    rw [if_neg (by simp; exact hn.1)] at h
    simp only [btok_diverges hn.2 fuel] at h
    exact absurd h (by simp)
  · rintro (h | h)
    · exact ⟨0, (0, s), by simp [buddy_malloc, h]⟩
    · obtain ⟨k0, hk0⟩ := @btok_total 64 _ h (le_refl _)
      obtain ⟨p, s', hm⟩ := malloc_returns c 64 s size k0 hk0
      exact ⟨64, (p, s'), hm⟩

/-- C11.  In every state reachable from `buddy_init` the live blocks, those on
the free lists `F` (the contents of the rings `avail[0..kval_m]`) and the
reserved ones `R` (the blocks behind the live pointers), tile
`[base, base + 2^kval_m)`: a live block of level `k` carries `kval = k` in its
header, `SMALLEST_K ≤ k ≤ kval_m`, its offset from `base` is a multiple of
`2^k`, it lies in the region, two live blocks do not overlap, every byte of
the region is in a live block, and the sizes sum to `2^kval_m`. -/
theorem live_blocks_partition (c : Consts) (hc : c.ok) (hk : c.SMALLEST_K ≤ c.MIN_K)
    (hmk : c.MIN_K < c.MAX_K) (fuel0 size0 base : Nat) (w s0 s : State) (L E : List Nat)
    (h0 : buddy_init c fuel0 w size0 base = some s0) (hb : 0 < base)
    (hfit : base + 2 ^ s0.kval_m ≤ WORD) (hr : Reach c s0 s L E) :
    ∃ (F : Nat → List Nat) (R : List (Nat × Nat)),
      (∀ i, i ≤ s.kval_m → free_list s i (F i)) ∧ (∀ i, s.kval_m < i → F i = []) ∧
      (∀ i, (F i).Nodup) ∧ R.Nodup ∧
      (∀ p, p ∈ L ↔ ∃ a k, (a, k) ∈ R ∧ p = a + c.header_size) ∧
      (∀ a k, Live F R none a k →
        (s.mem a).kval = k ∧ c.SMALLEST_K ≤ k ∧ k ≤ s.kval_m ∧ s.base ≤ a ∧
        2 ^ k ∣ (a - s.base) ∧ a + 2 ^ k ≤ s.base + 2 ^ s.kval_m) ∧
      (∀ a k a' k', Live F R none a k → Live F R none a' k' → (a ≠ a' ∨ k ≠ k') →
        a + 2 ^ k ≤ a' ∨ a' + 2 ^ k' ≤ a) ∧
      (∀ x, s.base ≤ x → x < s.base + 2 ^ s.kval_m →
        ∃ a k, Live F R none a k ∧ a ≤ x ∧ x < a + 2 ^ k) ∧
      free_bytes F s.kval_m + reserved_bytes R = 2 ^ s.kval_m := by
  obtain ⟨F, R, hP, _, hL, _, hlo, hsum⟩ := reach_init_ext hc hk hmk h0 hb hfit hr
  refine ⟨F, R, hP.ring, fun i hi => hP.fnil hi, hP.ndF, hP.ndR, hL, ?_, hP.part.disj,
    hP.part.cover, hsum⟩
  intro a k hl
  obtain ⟨g1, g2, g3, g4⟩ := hP.part.geom a k hl
  rw [mem_eq_rd]
  rcases hl with h1 | h1 | h1
  · exact ⟨(hP.hdF k a h1).2, hlo k a h1, g1, g2, g3, g4⟩
  · exact ⟨(hP.hdR a k h1).2.1, (hP.hdR a k h1).2.2, g1, g2, g3, g4⟩
  · simp at h1

/-- C12.  In every state reachable from `buddy_init`, with `F i` the contents
of the ring `avail[i]` and `R` the reserved blocks: a live block of level `k`
is tagged `BLOCK_AVAIL` exactly when it is on `avail[k]`; a block on a ring is
on that ring once, on no other ring, and carries the level of the ring as
`kval`; no block on a ring is tagged `BLOCK_RESERVED`; in every ring each node
`x`, sentinel included, satisfies `x->next->prev = x` and `x->prev->next = x`;
and each sentinel `avail[i]`, `i ≤ kval_m`, has tag `BLOCK_UNUSED` and
`kval = i`. -/
theorem free_list_membership (c : Consts) (hc : c.ok) (fuel0 size0 base : Nat)
    (w s0 s : State) (L E : List Nat)
    (h0 : buddy_init c fuel0 w size0 base = some s0) (hb : 0 < base)
    (hfit : base + 2 ^ s0.kval_m ≤ WORD) (hr : Reach c s0 s L E) :
    ∃ (F : Nat → List Nat) (R : List (Nat × Nat)),
      (∀ i, i ≤ s.kval_m → free_list s i (F i)) ∧ (∀ i, s.kval_m < i → F i = []) ∧
      (∀ p, p ∈ L ↔ ∃ a k, (a, k) ∈ R ∧ p = a + c.header_size) ∧
      (∀ a k, Live F R none a k → ((s.mem a).tag = c.BLOCK_AVAIL ↔ a ∈ F k)) ∧
      (∀ a k, a ∈ F k → (s.mem a).kval = k ∧ (F k).count a = 1 ∧ ∀ t, a ∈ F t → t = k) ∧
      (∀ a k, a ∈ F k → (s.mem a).tag ≠ c.BLOCK_RESERVED) ∧
      (∀ a k, (a, k) ∈ R → (s.mem a).tag = c.BLOCK_RESERVED ∧ ∀ t, a ∉ F t) ∧
      (∀ i, i ≤ s.kval_m →
        ((s.avail i).tag = c.BLOCK_UNUSED ∧ (s.avail i).kval = i) ∧
        ((rd s (s.avail i).next).prev = Ptr.sent i ∧
          (rd s (s.avail i).prev).next = Ptr.sent i) ∧
        ∀ a, a ∈ F i → (rd s (s.mem a).next).prev = Ptr.blk a ∧
          (rd s (s.mem a).prev).next = Ptr.blk a) := by
  obtain ⟨F, R, hP, _, hL, _⟩ := reach_init_inv hc h0 hb hfit hr
  refine ⟨F, R, hP.ring, fun i hi => hP.fnil hi, hL, ?_, ?_, ?_, ?_, ?_⟩
  · intro a k hl
    rw [mem_eq_rd]
    rcases hl with h1 | h1 | h1
    · exact ⟨fun _ => h1, fun _ => (hP.hdF k a h1).1⟩
    · constructor
      · intro ht
        rw [(hP.hdR a k h1).1] at ht
        exact absurd ht.symm hc.1
      · intro hF
        exact absurd h1 (hP.sepFR hc hF)
    · simp at h1
  · intro a k ha
    exact ⟨(hP.hdF k a ha).2, List.count_eq_one_of_mem (hP.ndF k) ha,
      fun t ht => hP.sepFF ht ha⟩
  · intro a k ha
    rw [mem_eq_rd, (hP.hdF k a ha).1]
    exact hc.1
  · intro a k ha
    exact ⟨(hP.hdR a k ha).1, fun t ht => hP.sepFR hc ht ha⟩
  · intro i hi
    obtain ⟨l1, l2, l3⟩ := Chain.links (F i) (Ptr.sent i) (hP.ring i hi)
    exact ⟨hP.sen i hi, ⟨l1, l2⟩, l3⟩

/-- C15.  In a full pool (with `SMALLEST_K ≤ kval_m < 64` and the region below
`2^64`) `buddy_malloc(pool, 2^kval_m - sizeof(struct avail))` returns
`base + sizeof(struct avail)`, not `NULL`; the header at `base` then has
`kval = kval_m` and tag `BLOCK_RESERVED`, every sentinel `avail[0..kval_m]` is
linked to itself, and `buddy_free` of the pointer leaves a full pool. -/
theorem full_pool_one_large (c : Consts) (hc : c.ok) (s : State) (fuel : Nat)
    (hf : is_full c s) (hm64 : s.kval_m < 64) (hb : 0 < s.base)
    (hfit : s.base + 2 ^ s.kval_m ≤ WORD) (hsk : c.SMALLEST_K ≤ s.kval_m) (hfuel : 64 ≤ fuel) :
    ∃ s', buddy_malloc c fuel false s (2 ^ s.kval_m - c.header_size) =
        some (s.base + c.header_size, s') ∧
      s.base + c.header_size ≠ 0 ∧
      (s'.mem s.base).kval = s.kval_m ∧ (s'.mem s.base).tag = c.BLOCK_RESERVED ∧
      (∀ i, i ≤ s.kval_m →
        (s'.avail i).next = Ptr.sent i ∧ (s'.avail i).prev = Ptr.sent i) ∧
      is_full c (buddy_free c false s' (s.base + c.header_size)) := by
  have hP := PInv.of_full hf ⟨hm64, hb, hfit⟩
  have hlt := hc.2.1
  have hle : 2 ^ c.SMALLEST_K ≤ 2 ^ s.kval_m := Nat.pow_le_pow_right (by norm_num) hsk
  have hW : (2 : Nat) ^ s.kval_m < WORD := by
    unfold WORD; exact Nat.pow_lt_pow_right (by norm_num) hm64
  have hsz : 0 < 2 ^ s.kval_m - c.header_size := by omega
  have e : (2 ^ s.kval_m - c.header_size + c.header_size) % WORD = 2 ^ s.kval_m := by
    rw [Nat.sub_add_cancel (by omega)]
    exact Nat.mod_eq_of_lt hW
  have hbt : btok fuel ((2 ^ s.kval_m - c.header_size + c.header_size) % WORD) =
      some s.kval_m := by
    rw [e]; exact btok_pow s.kval_m (by omega) hfuel
  obtain ⟨p, s', hm⟩ := malloc_returns c fuel s _ _ hbt
  obtain ⟨hf1, hf2⟩ := malloc_frame hm
  obtain ⟨k0, hk0, hcase⟩ := malloc_inv hc hP hsz hm
  rw [hbt] at hk0
  simp only [Option.some.injEq] at hk0
  subst hk0
  rw [max_eq_left hsk] at hcase
  rcases hcase with ⟨_, _, hempty⟩ | ⟨a, j, l, F', hp, hp0, _, hkj, hj, hFj, _, hdesc, _, hP'⟩
  · have := hempty s.kval_m (le_refl _) (le_refl _)
    simp at this
  · have hjm : j = s.kval_m := by omega
    subst hjm
    simp only [if_true, List.cons.injEq] at hFj
    obtain ⟨ha, hl⟩ := hFj
    subst hl
    subst ha
    rw [hp] at hm hp0
    have hnil : ∀ t, F' t = [] := by
      intro t
      rw [hdesc t, if_neg (by omega)]
      by_cases ht : t = s.kval_m
      · rw [ht, upd_same]
      · rw [upd_other _ _ _ ht]; simp [ht]
    have hhd := hP'.hdR s.base s.kval_m (by simp)
    refine ⟨s', hm, hp0, hhd.2.1, hhd.1, ?_, ?_⟩
    · intro i hi
      have := hP'.ring i (by rw [hf1]; exact hi)
      rw [hnil i] at this
      exact this
    · obtain ⟨⟨F'', hP''⟩, _⟩ := free_inv hc hP' (List.mem_singleton.mpr rfl)
      rw [List.erase_cons_head] at hP''
      exact hP''.full

/-- C17.  In every state reachable from `buddy_init`, a call of `buddy_malloc`
that returns `p ≠ NULL` for the level `K = max(btok(size + sizeof), SMALLEST_K)`
took the block `a` at the head of `avail[j]`, `j` the first non-empty list of
`K..kval_m`, and `p = a + sizeof(struct avail)`.  The rings afterwards are
those before with `a` removed from `avail[j]` and `a + 2^t` put at the head of
`avail[t]` for `K ≤ t < j`, each with `kval = t` and tag `BLOCK_AVAIL`; the
free bytes drop by `2^K`. -/
theorem malloc_takes_first_fit (c : Consts) (hc : c.ok) (fuel0 size0 base : Nat)
    (w s0 s s' : State) (L E : List Nat) (fuel size p : Nat)
    (h0 : buddy_init c fuel0 w size0 base = some s0) (hb : 0 < base)
    (hfit : base + 2 ^ s0.kval_m ≤ WORD) (hr : Reach c s0 s L E)
    (hm : buddy_malloc c fuel false s size = some (p, s')) (hp : p ≠ 0) :
    ∃ (F F' : Nat → List Nat) (a j k0 : Nat) (l : List Nat),
      btok fuel ((size + c.header_size) % WORD) = some k0 ∧
      s'.kval_m = s.kval_m ∧
      (∀ i, i ≤ s.kval_m → free_list s i (F i)) ∧
      (∀ i, i ≤ s.kval_m → free_list s' i (F' i)) ∧
      max k0 c.SMALLEST_K ≤ j ∧ j ≤ s.kval_m ∧
      (∀ t, max k0 c.SMALLEST_K ≤ t → t < j → F t = []) ∧
      F j = a :: l ∧ p = a + c.header_size ∧
      (∀ t, F' t = lists_after_malloc F a (max k0 c.SMALLEST_K) j l t) ∧
      (∀ t, max k0 c.SMALLEST_K ≤ t → t < j →
        (s'.mem (a + 2 ^ t)).kval = t ∧ (s'.mem (a + 2 ^ t)).tag = c.BLOCK_AVAIL) ∧
      (s'.mem a).kval = max k0 c.SMALLEST_K ∧ (s'.mem a).tag = c.BLOCK_RESERVED ∧
      free_bytes F' s.kval_m + 2 ^ max k0 c.SMALLEST_K = free_bytes F s.kval_m := by
  obtain ⟨F, R, hP, _, _⟩ := reach_init_inv hc h0 hb hfit hr
  have hsz : 0 < size := by
    rcases Nat.eq_zero_or_pos size with hz | hpos
    · subst hz
      simp only [buddy_malloc, or_true, if_true, Option.some.injEq, Prod.mk.injEq] at hm
      exact absurd hm.1.symm hp
    · exact hpos
  obtain ⟨hf1, _⟩ := malloc_frame hm
  obtain ⟨k0, hk0, hcase⟩ := malloc_inv hc hP hsz hm
  rcases hcase with ⟨hp0, _, _⟩ | ⟨a, j, l, F', hpa, _, _, hKj, hj, hFj, hemp, hdesc, _, hP'⟩
  · exact absurd hp0 hp
  · have hd : ∀ t, F' t = lists_after_malloc F a (max k0 c.SMALLEST_K) j l t := by
      intro t
      rw [hdesc t]
      unfold lists_after_malloc
      by_cases e : t = j
      · rw [e, if_neg (by omega), if_pos rfl, upd_same]
      · rw [if_neg e, upd_other _ _ _ e]
    have hhd := hP'.hdR a (max k0 c.SMALLEST_K) (by simp)
    refine ⟨F, F', a, j, k0, l, hk0, hf1, hP.ring, ?_, hKj, hj, hemp, hFj, hpa, hd, ?_,
      hhd.2.1, hhd.1, free_bytes_malloc hKj hj hFj hdesc⟩
    · intro i hi
      exact hP'.ring i (by rw [hf1]; exact hi)
    · intro t h1 h2
      have hin : a + 2 ^ t ∈ F' t := by
        rw [hdesc t, if_pos ⟨h1, h2⟩]; simp
      have := hP'.hdF t _ hin
      exact ⟨this.2, this.1⟩

/-- The start of a coarser aligned region is not above the start of a finer
one. -/
theorem align_down_mono {base a t k : Nat} (hb : base ≤ a) (h : t ≤ k) :
    align_down base a k ≤ align_down base a t := by
  obtain ⟨h1, _, _, _⟩ := align_down_le base a t hb
  obtain ⟨_, g2, _, _⟩ := align_down_le base (align_down base a t) k h1
  rw [align_down_align_down hb h] at g2
  exact g2

/-- C18.  In every state reachable from `buddy_init`, `buddy_free` of a live
pointer `p = a + sizeof(struct avail)`, whose block is reserved with
`kval = k`, stops at the first level `k2 ≥ k` that is `kval_m` or at which the
buddy of the region around `a` is not on `avail[k2]`.  The rings afterwards
are those before, with the buddy of each level `k ≤ t < k2` erased from
`avail[t]` and the merged block at the head of `avail[k2]`, with `kval = k2`
and tag `BLOCK_AVAIL`.  The merged block starts at `align_down base a k2`,
which is `base` plus the offset `a - base` with its low `k2` bits cleared;
that address is not above `a` or any merged buddy. -/
theorem free_merges_up (c : Consts) (hc : c.ok) (fuel0 size0 base : Nat)
    (w s0 s : State) (L E : List Nat) (p : Nat)
    (h0 : buddy_init c fuel0 w size0 base = some s0) (hb : 0 < base)
    (hfit : base + 2 ^ s0.kval_m ≤ WORD) (hr : Reach c s0 s L E) (hp : p ∈ L) :
    ∃ (F : Nat → List Nat) (a k k2 : Nat),
      p = a + c.header_size ∧ (s.mem a).kval = k ∧ (s.mem a).tag = c.BLOCK_RESERVED ∧
      (buddy_free c false s p).kval_m = s.kval_m ∧
      (∀ i, i ≤ s.kval_m → free_list s i (F i)) ∧
      k ≤ k2 ∧ k2 ≤ s.kval_m ∧
      (∀ t, k ≤ t → t < k2 → buddy_addr s.base (align_down s.base a t) t ∈ F t) ∧
      (k2 < s.kval_m → buddy_addr s.base (align_down s.base a k2) k2 ∉ F k2) ∧
      (∀ i, i ≤ s.kval_m →
        free_list (buddy_free c false s p) i (lists_after_free F s.base a k k2 i)) ∧
      ((buddy_free c false s p).mem (align_down s.base a k2)).kval = k2 ∧
      ((buddy_free c false s p).mem (align_down s.base a k2)).tag = c.BLOCK_AVAIL ∧
      align_down s.base a k2 ≤ a ∧
      (∀ t, k ≤ t → t < k2 →
        align_down s.base a k2 ≤ buddy_addr s.base (align_down s.base a t) t) := by
  obtain ⟨F, R, hP, _, hL, _⟩ := reach_init_inv hc h0 hb hfit hr
  obtain ⟨a, k, hR, e⟩ := (hL p).mp hp
  subst e
  obtain ⟨hba, _, _⟩ := hP.live_bound (Or.inr (Or.inl hR) : Live F R none a k)
  obtain ⟨k2, h1, h2, h3, h4, hP'⟩ := free_desc hc hP hR
  have hf1 := (free_frame c false s (a + c.header_size)).1
  have hhd := hP.hdR a k hR
  have hin : align_down s.base a k2 ∈ lists_after_free F s.base a k k2 k2 := by
    unfold lists_after_free
    rw [if_pos rfl]; simp
  have hM := hP'.hdF k2 _ hin
  refine ⟨F, a, k, k2, rfl, hhd.2.1, hhd.1, hf1, hP.ring, h1, h2, h3, h4, ?_, hM.2, hM.1,
    (align_down_le s.base a k2 hba).2.1, ?_⟩
  · intro i hi
    exact hP'.ring i (by rw [hf1]; exact hi)
  · intro t ht1 ht2
    obtain ⟨g1, _, _, g4⟩ := align_down_le s.base a t hba
    have hlow := lower_of_pair g1 g4
    rw [align_down_align_down hba (Nat.le_add_right t 1)] at hlow
    have hmono := @align_down_mono s.base a (t + 1) k2 hba (by omega)
    by_cases hlt : buddy_addr s.base (align_down s.base a t) t < align_down s.base a t
    · rw [if_pos hlt] at hlow
      omega
    · rw [if_neg hlt] at hlow
      omega

/-- C20.  In every state reachable from `buddy_init`, when `buddy_malloc`
returns `p ≠ NULL`, the `buddy_free(pool, p)` that follows leaves in every
ring `avail[0..kval_m]` the sequence of blocks it held before the
`buddy_malloc` call, each with the tag and the `kval` it had then. -/
theorem malloc_then_free_restores_lists (c : Consts) (hc : c.ok) (fuel0 size0 base : Nat)
    (w s0 s s' : State) (L E : List Nat) (fuel size p : Nat)
    (h0 : buddy_init c fuel0 w size0 base = some s0) (hb : 0 < base)
    (hfit : base + 2 ^ s0.kval_m ≤ WORD) (hr : Reach c s0 s L E)
    (hm : buddy_malloc c fuel false s size = some (p, s')) (hp : p ≠ 0) :
    (buddy_free c false s' p).kval_m = s.kval_m ∧
    ∃ F : Nat → List Nat, ∀ i, i ≤ s.kval_m →
      free_list s i (F i) ∧ free_list (buddy_free c false s' p) i (F i) ∧
      ∀ x, x ∈ F i →
        ((buddy_free c false s' p).mem x).tag = (s.mem x).tag ∧
        ((buddy_free c false s' p).mem x).kval = (s.mem x).kval := by
  obtain ⟨F, R, hP, _, _⟩ := reach_init_inv hc h0 hb hfit hr
  have hsz : 0 < size := by
    rcases Nat.eq_zero_or_pos size with hz | hpos
    · subst hz
      simp only [buddy_malloc, or_true, if_true, Option.some.injEq, Prod.mk.injEq] at hm
      exact absurd hm.1.symm hp
    · exact hpos
  obtain ⟨hf1, hf2⟩ := malloc_frame hm
  obtain ⟨k0, hk0, hcase⟩ := malloc_inv hc hP hsz hm
  rcases hcase with ⟨hp0, _, _⟩ | ⟨a, j, l, F', hpa, _, _, hKj, hj, hFj, hemp, hdesc, _, hP'⟩
  · exact absurd hp0 hp
  · subst hpa
    have haF : a ∈ F j := by rw [hFj]; simp
    obtain ⟨_, hba, hal, _⟩ := hP.part.geom a j (Or.inl haF)
    have had : ∀ t, t ≤ j → align_down s.base a t = a := fun t ht =>
      align_down_of_aligned hba (dvd_trans (pow_dvd_pow_two ht) hal)
    have hbud : ∀ t, t < j → buddy_addr s.base a t = a + 2 ^ t := fun t ht =>
      buddy_addr_of_aligned hba (dvd_trans (pow_dvd_pow_two (by omega)) hal)
    obtain ⟨k2, h1, h2, h3, h4, hP''⟩ := free_desc hc hP' (List.mem_cons_self _ _)
    rw [hf1] at h2 h4
    rw [hf2] at h3 h4 hP''
    have hk2 : k2 = j := by
      rcases Nat.lt_trichotomy k2 j with hlt | heq | hgt
      · exfalso
        apply h4 (by omega)
        rw [had k2 (by omega), hbud k2 hlt, hdesc k2, if_pos ⟨h1, hlt⟩]
        simp
      · exact heq
      · exfalso
        have := h3 j hKj hgt
        rw [had j (le_refl _), hdesc j, if_neg (by omega), upd_same] at this
        exact hP.i5 j a (by omega) haF (by rw [hFj]; exact List.mem_cons_of_mem _ this)
    subst hk2
    have hback : lists_after_free F' s.base a (max k0 c.SMALLEST_K) k2 = F := by
      funext t
      unfold lists_after_free
      by_cases e : t = k2
      · rw [if_pos e, e, had k2 (le_refl _), hdesc k2, if_neg (by omega), upd_same, hFj]
      · rw [if_neg e]
        by_cases hin : max k0 c.SMALLEST_K ≤ t ∧ t < k2
        · rw [if_pos hin, had t (by omega), hbud t hin.2, hdesc t, if_pos hin,
            List.erase_cons_head, upd_other _ _ _ e]
        · rw [if_neg hin, hdesc t, if_neg hin, upd_other _ _ _ e]
    rw [hback] at hP''
    have hf3 := (free_frame c false s' (a + c.header_size)).1
    refine ⟨by rw [hf3, hf1], F, ?_⟩
    intro i hi
    refine ⟨hP.ring i hi, hP''.ring i (by rw [hf3, hf1]; exact hi), ?_⟩
    intro x hx
    have g1 := hP.hdF i x hx
    have g2 := hP''.hdF i x hx
    rw [mem_eq_rd, mem_eq_rd, g1.1, g1.2, g2.1, g2.2]
    exact ⟨rfl, rfl⟩

set_option maxRecDepth 1000000

/-! ### Concrete runs for C11 to C20 -/

theorem sample_pool_full : is_full lab_consts sample_pool := by
  obtain ⟨_, _, _, _, _, h, _⟩ := buddy_init_spec sample_init_eq
  exact h

/-- C11, witness: the pool after `buddy_init(&pool, 1 << 20)` and
`buddy_malloc(&pool, 1)`. -/
theorem live_blocks_partition_witness :
    ∃ (F : Nat → List Nat) (R : List (Nat × Nat)),
      (∀ i, i ≤ (sample_malloc 1).2.kval_m → free_list (sample_malloc 1).2 i (F i)) ∧
      (∀ i, (sample_malloc 1).2.kval_m < i → F i = []) ∧
      (∀ i, (F i).Nodup) ∧ R.Nodup ∧
      (∀ p, p ∈ [(sample_malloc 1).1] ↔ ∃ a k, (a, k) ∈ R ∧ p = a + lab_consts.header_size) ∧
      (∀ a k, Live F R none a k →
        ((sample_malloc 1).2.mem a).kval = k ∧ lab_consts.SMALLEST_K ≤ k ∧
        k ≤ (sample_malloc 1).2.kval_m ∧ (sample_malloc 1).2.base ≤ a ∧
        2 ^ k ∣ (a - (sample_malloc 1).2.base) ∧
        a + 2 ^ k ≤ (sample_malloc 1).2.base + 2 ^ (sample_malloc 1).2.kval_m) ∧
      (∀ a k a' k', Live F R none a k → Live F R none a' k' → (a ≠ a' ∨ k ≠ k') →
        a + 2 ^ k ≤ a' ∨ a' + 2 ^ k' ≤ a) ∧
      (∀ x, (sample_malloc 1).2.base ≤ x →
        x < (sample_malloc 1).2.base + 2 ^ (sample_malloc 1).2.kval_m →
        ∃ a k, Live F R none a k ∧ a ≤ x ∧ x < a + 2 ^ k) ∧
      free_bytes F (sample_malloc 1).2.kval_m + reserved_bytes R =
        2 ^ (sample_malloc 1).2.kval_m :=
  live_blocks_partition lab_consts (by decide) (by decide) (by decide) 65 (2 ^ 20) sample_base
    blank sample_pool (sample_malloc 1).2 [(sample_malloc 1).1] [(sample_malloc 1).1]
    sample_init_eq (by decide) (by decide) (sample_reach 1 (by decide) (by decide) (by decide))

/-- C12, witness: the pool after `buddy_init(&pool, 1 << 20)` and
`buddy_malloc(&pool, 1)`. -/
theorem free_list_membership_witness :
    ∃ (F : Nat → List Nat) (R : List (Nat × Nat)),
      (∀ i, i ≤ (sample_malloc 1).2.kval_m → free_list (sample_malloc 1).2 i (F i)) ∧
      (∀ i, (sample_malloc 1).2.kval_m < i → F i = []) ∧
      (∀ p, p ∈ [(sample_malloc 1).1] ↔ ∃ a k, (a, k) ∈ R ∧ p = a + lab_consts.header_size) ∧
      (∀ a k, Live F R none a k →
        (((sample_malloc 1).2.mem a).tag = lab_consts.BLOCK_AVAIL ↔ a ∈ F k)) ∧
      (∀ a k, a ∈ F k → ((sample_malloc 1).2.mem a).kval = k ∧ (F k).count a = 1 ∧
        ∀ t, a ∈ F t → t = k) ∧
      (∀ a k, a ∈ F k → ((sample_malloc 1).2.mem a).tag ≠ lab_consts.BLOCK_RESERVED) ∧
      (∀ a k, (a, k) ∈ R →
        ((sample_malloc 1).2.mem a).tag = lab_consts.BLOCK_RESERVED ∧ ∀ t, a ∉ F t) ∧
      (∀ i, i ≤ (sample_malloc 1).2.kval_m →
        (((sample_malloc 1).2.avail i).tag = lab_consts.BLOCK_UNUSED ∧
          ((sample_malloc 1).2.avail i).kval = i) ∧
        ((rd (sample_malloc 1).2 ((sample_malloc 1).2.avail i).next).prev = Ptr.sent i ∧
          (rd (sample_malloc 1).2 ((sample_malloc 1).2.avail i).prev).next = Ptr.sent i) ∧
        ∀ a, a ∈ F i →
          (rd (sample_malloc 1).2 ((sample_malloc 1).2.mem a).next).prev = Ptr.blk a ∧
          (rd (sample_malloc 1).2 ((sample_malloc 1).2.mem a).prev).next = Ptr.blk a) :=
  free_list_membership lab_consts (by decide) 65 (2 ^ 20) sample_base
    blank sample_pool (sample_malloc 1).2 [(sample_malloc 1).1] [(sample_malloc 1).1]
    sample_init_eq (by decide) (by decide) (sample_reach 1 (by decide) (by decide) (by decide))

/-- C13, witness: in the fresh pool the header at `base` is tagged
`BLOCK_AVAIL`, and `buddy_free(&pool, base + 24)` changes nothing. -/
theorem rejected_free_changes_nothing_witness :
    (sample_pool.mem ((sample_base + 24 + WORD - lab_consts.header_size % WORD) % WORD)).tag ≠
      lab_consts.BLOCK_RESERVED ∧
    buddy_free lab_consts false sample_pool (sample_base + 24) = sample_pool :=
  ⟨by decide, rejected_free_changes_nothing lab_consts false sample_pool (sample_base + 24)
    (Or.inr (Or.inr (by decide)))⟩

/-- C14, witness: `p = buddy_malloc(&pool, 1)` on the fresh pool, then
`buddy_free(&pool, p)` twice. -/
theorem double_free_harmless_witness :
    ((buddy_free lab_consts false (sample_malloc 1).2 (sample_malloc 1).1).mem
        ((sample_malloc 1).1 - lab_consts.header_size)).tag = lab_consts.BLOCK_AVAIL ∧
    buddy_free lab_consts false
        (buddy_free lab_consts false (sample_malloc 1).2 (sample_malloc 1).1)
        (sample_malloc 1).1 =
      buddy_free lab_consts false (sample_malloc 1).2 (sample_malloc 1).1 :=
  double_free_harmless lab_consts (by decide) 65 (2 ^ 20) sample_base
    blank sample_pool (sample_malloc 1).2 [(sample_malloc 1).1] [(sample_malloc 1).1]
    (sample_malloc 1).1
    sample_init_eq (by decide) (by decide) (sample_reach 1 (by decide) (by decide) (by decide))
    (List.mem_singleton.mpr rfl)

/-- C15, witness: the fresh pool of `buddy_init(&pool, 1 << 20)`. -/
theorem full_pool_one_large_witness :
    ∃ s', buddy_malloc lab_consts 65 false sample_pool
        (2 ^ sample_pool.kval_m - lab_consts.header_size) =
        some (sample_pool.base + lab_consts.header_size, s') ∧
      sample_pool.base + lab_consts.header_size ≠ 0 ∧
      (s'.mem sample_pool.base).kval = sample_pool.kval_m ∧
      (s'.mem sample_pool.base).tag = lab_consts.BLOCK_RESERVED ∧
      (∀ i, i ≤ sample_pool.kval_m →
        (s'.avail i).next = Ptr.sent i ∧ (s'.avail i).prev = Ptr.sent i) ∧
      is_full lab_consts
        (buddy_free lab_consts false s' (sample_pool.base + lab_consts.header_size)) :=
  full_pool_one_large lab_consts (by decide) sample_pool 65 sample_pool_full
    (by decide) (by decide) (by decide) (by decide) (by decide)

/-- C16, witness: the free block at `base + 128` of `avail[7]` after
`buddy_malloc(&pool, 1)` on the fresh pool. -/
theorem buddy_calc_offset_witness :
    buddy_calc (sample_malloc 1).2 (Ptr.blk ((sample_malloc 1).2.base + 128)) =
      Ptr.blk ((sample_malloc 1).2.base + (128 ^^^ 2 ^ 7)) ∧
    ((128 ^^^ 2 ^ 7) = 128 + 2 ^ 7 ∨ 128 = (128 ^^^ 2 ^ 7) + 2 ^ 7) ∧
    2 ^ 7 ∣ (128 ^^^ 2 ^ 7) ∧ (128 ^^^ 2 ^ 7) < 2 ^ (sample_malloc 1).2.kval_m ∧
    min 128 (128 ^^^ 2 ^ 7) = 128 / 2 ^ (7 + 1) * 2 ^ (7 + 1) ∧
    (∀ i, (min 128 (128 ^^^ 2 ^ 7)).testBit i = (Nat.testBit 128 i && decide (i ≠ 7))) ∧
    max 128 (128 ^^^ 2 ^ 7) + 2 ^ 7 = min 128 (128 ^^^ 2 ^ 7) + 2 ^ (7 + 1) :=
  buddy_calc_offset (sample_malloc 1).2 128 7 (by decide) (by decide) (by decide)
    (by decide) (by decide)

/-- C17, witness: `buddy_malloc(&pool, 1)` on the fresh pool. -/
theorem malloc_takes_first_fit_witness :
    ∃ (F F' : Nat → List Nat) (a j k0 : Nat) (l : List Nat),
      btok 65 ((1 + lab_consts.header_size) % WORD) = some k0 ∧
      (sample_malloc 1).2.kval_m = sample_pool.kval_m ∧
      (∀ i, i ≤ sample_pool.kval_m → free_list sample_pool i (F i)) ∧
      (∀ i, i ≤ sample_pool.kval_m → free_list (sample_malloc 1).2 i (F' i)) ∧
      max k0 lab_consts.SMALLEST_K ≤ j ∧ j ≤ sample_pool.kval_m ∧
      (∀ t, max k0 lab_consts.SMALLEST_K ≤ t → t < j → F t = []) ∧
      F j = a :: l ∧ (sample_malloc 1).1 = a + lab_consts.header_size ∧
      (∀ t, F' t = lists_after_malloc F a (max k0 lab_consts.SMALLEST_K) j l t) ∧
      (∀ t, max k0 lab_consts.SMALLEST_K ≤ t → t < j →
        ((sample_malloc 1).2.mem (a + 2 ^ t)).kval = t ∧
        ((sample_malloc 1).2.mem (a + 2 ^ t)).tag = lab_consts.BLOCK_AVAIL) ∧
      ((sample_malloc 1).2.mem a).kval = max k0 lab_consts.SMALLEST_K ∧
      ((sample_malloc 1).2.mem a).tag = lab_consts.BLOCK_RESERVED ∧
      free_bytes F' sample_pool.kval_m + 2 ^ max k0 lab_consts.SMALLEST_K =
        free_bytes F sample_pool.kval_m :=
  malloc_takes_first_fit lab_consts (by decide) 65 (2 ^ 20) sample_base
    blank sample_pool sample_pool (sample_malloc 1).2 [] [] 65 1 (sample_malloc 1).1
    sample_init_eq (by decide) (by decide) Reach.init (sample_malloc_eq 1 (by decide))
    (by decide)

/-- C18, witness: `p = buddy_malloc(&pool, 1)` on the fresh pool, then
`buddy_free(&pool, p)`. -/
theorem free_merges_up_witness :
    ∃ (F : Nat → List Nat) (a k k2 : Nat),
      (sample_malloc 1).1 = a + lab_consts.header_size ∧
      ((sample_malloc 1).2.mem a).kval = k ∧
      ((sample_malloc 1).2.mem a).tag = lab_consts.BLOCK_RESERVED ∧
      (buddy_free lab_consts false (sample_malloc 1).2 (sample_malloc 1).1).kval_m =
        (sample_malloc 1).2.kval_m ∧
      (∀ i, i ≤ (sample_malloc 1).2.kval_m → free_list (sample_malloc 1).2 i (F i)) ∧
      k ≤ k2 ∧ k2 ≤ (sample_malloc 1).2.kval_m ∧
      (∀ t, k ≤ t → t < k2 →
        buddy_addr (sample_malloc 1).2.base (align_down (sample_malloc 1).2.base a t) t ∈ F t) ∧
      (k2 < (sample_malloc 1).2.kval_m →
        buddy_addr (sample_malloc 1).2.base (align_down (sample_malloc 1).2.base a k2) k2 ∉
          F k2) ∧
      (∀ i, i ≤ (sample_malloc 1).2.kval_m →
        free_list (buddy_free lab_consts false (sample_malloc 1).2 (sample_malloc 1).1) i
          (lists_after_free F (sample_malloc 1).2.base a k k2 i)) ∧
      ((buddy_free lab_consts false (sample_malloc 1).2 (sample_malloc 1).1).mem
        (align_down (sample_malloc 1).2.base a k2)).kval = k2 ∧
      ((buddy_free lab_consts false (sample_malloc 1).2 (sample_malloc 1).1).mem
        (align_down (sample_malloc 1).2.base a k2)).tag = lab_consts.BLOCK_AVAIL ∧
      align_down (sample_malloc 1).2.base a k2 ≤ a ∧
      (∀ t, k ≤ t → t < k2 →
        align_down (sample_malloc 1).2.base a k2 ≤
          buddy_addr (sample_malloc 1).2.base (align_down (sample_malloc 1).2.base a t) t) :=
  free_merges_up lab_consts (by decide) 65 (2 ^ 20) sample_base
    blank sample_pool (sample_malloc 1).2 [(sample_malloc 1).1] [(sample_malloc 1).1]
    (sample_malloc 1).1
    sample_init_eq (by decide) (by decide) (sample_reach 1 (by decide) (by decide) (by decide))
    (List.mem_singleton.mpr rfl)

/-- C20, witness: `p = buddy_malloc(&pool, 1)` on the fresh pool, then
`buddy_free(&pool, p)`. -/
theorem malloc_then_free_restores_lists_witness :
    (buddy_free lab_consts false (sample_malloc 1).2 (sample_malloc 1).1).kval_m =
      sample_pool.kval_m ∧
    ∃ F : Nat → List Nat, ∀ i, i ≤ sample_pool.kval_m →
      free_list sample_pool i (F i) ∧
      free_list (buddy_free lab_consts false (sample_malloc 1).2 (sample_malloc 1).1) i (F i) ∧
      ∀ x, x ∈ F i →
        ((buddy_free lab_consts false (sample_malloc 1).2 (sample_malloc 1).1).mem x).tag =
          (sample_pool.mem x).tag ∧
        ((buddy_free lab_consts false (sample_malloc 1).2 (sample_malloc 1).1).mem x).kval =
          (sample_pool.mem x).kval :=
  malloc_then_free_restores_lists lab_consts (by decide) 65 (2 ^ 20) sample_base
    blank sample_pool sample_pool (sample_malloc 1).2 [] [] 65 1 (sample_malloc 1).1
    sample_init_eq (by decide) (by decide) Reach.init (sample_malloc_eq 1 (by decide))
    (by decide)

end Buddy
